import Mathlib

/-!
Verification of the Innullifiability core toolkit.

Shallow embedding of the C sources of the Innullifiability search
(the set record `src/lib/setRec.c`, the exhaustive tester
`src/lib/nulTest.c` and its historical revision `src/nulTest.c`, and
the set expander `src/lib/expand.c`), together with proofs about the
embedded definitions.

Modelling conventions:

* `unsigned long` / `size_t` values are modelled as `ℕ` with exact
  arithmetic: the properties considered are about the mathematical
  behaviour of the algorithms, and C subtraction on unsigned quantities
  that could underflow only happens on inputs the functions reject.
  Where the source subtracts on unsigned values, `ℕ` truncated
  subtraction is used, which agrees with the source on all inputs the
  functions accept.
* Heap allocation is modelled as always succeeding, so the `-1` memory
  error path of the testers is absent and functions that can fail only
  on allocation are total.
* Output callbacks (`out(...)` function pointers) are modelled by
  collecting the emitted values in a list, in emission order.
* C loops are modelled by structurally recursive functions.  Where the
  trip count is data dependent, the recursion is on an explicit
  iteration budget that is at least the number of iterations the C
  loop performs, and the loop guard is re-checked at every step
  exactly as in the source, so the budgeted function computes the same
  result as the C loop.
* Byte values and bitmasks (`char` in the source) are modelled as `ℕ`
  with `&&&` / `|||` for the C `&` / `|`.
-/

namespace Innull

/-! Combinadic index helpers from `src/lib/setRec.c`. -/

/-- Model of `mcn` ("M Choose N") from `setRec.c`: zero case for
`m < n`, otherwise the loop product `m·(m−1)⋯(m−n+1)` divided by the
loop product `n!`, both accumulated over `i = 0, …, n−1`. -/
def mcn (m n : ℕ) : ℕ :=
  if m < n then 0
  else ((List.range n).foldl (fun acc i => acc * (m - i)) 1) /
       ((List.range n).foldl (fun acc i => acc * (i + 1)) 1)

/-- Running sum of `setToIndex` starting at 1-indexed position `j`: the
C loop adds `mcn (set[vals−1] − 1) vals` for `vals = varSize` down to
`1`; summation order is immaterial, so we recurse from the front. -/
def setToIndexAux : List ℕ → ℕ → ℕ
  | [], _ => 0
  | v :: rest, j => mcn (v - 1) j + setToIndexAux rest (j + 1)

/-- Model of `setToIndex` from `setRec.c`: the combinadic index of a
strictly ascending value array. -/
def setToIndex (s : List ℕ) : ℕ := setToIndexAux s 1

/-- Inner search loop of `indexToSet`:
`for (i = vals - 1; mcn(i, vals) <= index; i++);` — returns the first
`i` at or beyond the start with `mcn i vals > index`.  Recursion is on
an explicit budget; `chooseSearch` supplies a budget sufficient for
every call with `vals ≥ 1` (see `chooseSearchGo_spec`). -/
def chooseSearchGo (idx vals : ℕ) : ℕ → ℕ → ℕ
  | 0, i => i
  | fuel + 1, i => if mcn i vals ≤ idx then chooseSearchGo idx vals fuel (i + 1) else i

/-- Search wrapper with a sufficient iteration budget. -/
def chooseSearch (idx vals i : ℕ) : ℕ := chooseSearchGo idx vals (idx + vals + 1) i

/-- Model of `indexToSet` from `setRec.c`, producing the value list of
length `varSize` for a combinadic index: for `vals = varSize` down to
`1`, find the last `i` with `mcn i vals ≤ index` (the C loop overshoots
by one and decrements; `chooseSearch` returns the overshoot `i + 1`, so
the written value `i + 1` is `chooseSearch` itself and the subtracted
term is `mcn (chooseSearch − 1) vals`), write the value, and subtract
from the index. -/
def indexToSet : ℕ → ℕ → List ℕ
  | 0, _ => []
  | k + 1, idx =>
    let s := chooseSearch idx (k + 1) k
    indexToSet k (idx - mcn (s - 1) (k + 1)) ++ [s]

/-- Inner cascade of `incSetValues` (`setRec.c`): the
`for (i = 1; i < varSize; i++)` loop that resets `set[i−1] = i` and
increments `set[i]`, continuing while the incremented value collides
with the next one.  The argument list is the suffix `set[i..]`; the
suffix entry `set[i−1]` is omitted because the loop overwrites it with
`i` before it is ever read (in the continue case the C code's increment
of `set[i]` is likewise dead, as the next iteration resets it). -/
def cascade : ℕ → List ℕ → List ℕ
  | _, [] => []
  | i, [b] => [i, b + 1]
  | i, b :: c :: rest =>
    if b + 1 < c then i :: (b + 1) :: c :: rest
    else i :: cascade (i + 1) (c :: rest)

/-- Outer `while (add > 0)` loop of `incSetValues` for `varSize ≥ 2`.
Each iteration either finishes by increasing the first value by the
remaining `add`, or consumes `avail + 1 ≥ 1` of `add` and cascades, so
an iteration budget of the initial `add` is sufficient. -/
def incLoop : ℕ → ℕ → List ℕ → List ℕ
  | 0, _, s => s
  | fuel + 1, add, s =>
    if add = 0 then s
    else match s with
      | v0 :: v1 :: rest =>
        let avail := v1 - v0 - 1
        if add ≤ avail then (v0 + add) :: v1 :: rest
        else incLoop fuel (add - (avail + 1)) (cascade 1 (v1 :: rest))
      | s => s

/-- Model of `incSetValues` from `setRec.c`: advance a value array by
`add` positions in the combinadic order.  The trivial size cases (the
C `if (varSize == 0)` / `else if (varSize == 1)`) are the first two
branches. -/
def incSetValues (s : List ℕ) (add : ℕ) : List ℕ :=
  match s with
  | [] => []
  | [v] => [v + add]
  | s => incLoop add add s

/-- Strictly ascending positive value list — the validity condition the
record library's user-level functions check on input sets, and the
shape `indexToSet` produces. -/
def AscPos (s : List ℕ) : Prop := List.Chain' (· < ·) s ∧ ∀ x ∈ s, 1 ≤ x

/-! Set record structure and user-level functions (`src/lib/setRec.c`).
The `Base` information structure is `SRBase`; the byte array `rec` is a
list of byte values with one entry per addressable set. -/

structure SRBase where
  recArr : List ℕ
  size : ℕ
  varSize : ℕ
  mval_min : ℕ
  mval_max : ℕ
  fixedv : List ℕ
deriving Repr, DecidableEq

/-- Model of `sr_initialize` from `setRec.c`: allocation of the
information structure is modelled as succeeding, and the structure is
populated to indicate an empty record exactly as the source does
(`rec = NULL` becomes the empty byte list; `varSize = size`;
`mval_min = 1`; `mval_max = 0`; no fixed values). -/
def sr_initialize (size : ℕ) : SRBase :=
  { recArr := [], size := size, varSize := size,
    mval_min := 1, mval_max := 0, fixedv := [] }

/-- Model of the `TOTAL` macro / `sr_getTotal` from `setRec.c`. -/
def sr_getTotal (b : SRBase) : ℕ :=
  mcn b.mval_max b.varSize - mcn (b.mval_min - 1) b.varSize

/-- A record in the state established by `sr_alloc` (or `sr_import`):
the variable segment is nonempty, the normalized bounds hold
(`minM ≥ varSize`, and `maxM ≥ minM − 1` i.e. `minM ≤ maxM + 1`), the
fixed values are strictly ascending and above `maxM`, at most four
fixed values, sizes agree, and the byte array has one entry per
addressable set. -/
def Allocated (b : SRBase) : Prop :=
  1 ≤ b.varSize ∧
  b.varSize ≤ b.mval_min ∧
  b.mval_min ≤ b.mval_max + 1 ∧
  b.varSize + b.fixedv.length = b.size ∧
  b.fixedv.length ≤ 4 ∧
  List.Chain' (· < ·) (b.mval_max :: b.fixedv) ∧
  b.recArr.length = sr_getTotal b

/-- Helper `mark` from `setRec.c`: OR the mask onto the byte at the
set's offset; the result is `1` iff the atomic fetch-or set a
previously clear bit of the mask (`(prev & mask) != mask`). -/
def markOp (rec : List ℕ) (minm : ℕ) (set : List ℕ) (varSize : ℕ) (mask : ℕ) :
    Int × List ℕ :=
  let index := setToIndex (set.take varSize) - mcn (minm - 1) varSize
  let prev := rec.getD index 0
  ((if prev &&& mask ≠ mask then 1 else 0), rec.set index (prev ||| mask))

/-- Model of `sr_mark` from `setRec.c`: validate the input set (right
size, positive, strictly ascending), silently skip sets whose variable
M-value is out of range or whose fixed tail mismatches, and otherwise
mark via `markOp`.  The returned pair is (C return value, record
state after the call). -/
def sr_mark (base : SRBase) (set : List ℕ) (mask : ℕ) : Int × SRBase :=
  if set.length ≠ base.size then (-1, base)
  else if set.getD 0 0 < 1 then (-1, base)
  else if ¬ List.Chain' (· < ·) set then (-1, base)
  else
    let varSize := base.varSize
    let mv := set.getD (varSize - 1) 0
    if mv > base.mval_max ∨ mv < base.mval_min then (0, base)
    else if set.drop varSize ≠ base.fixedv then (0, base)
    else
      let r := markOp base.recArr base.mval_min set varSize mask
      (r.1, { base with recArr := r.2 })

/-- Byte matching criterion of the `query` helper in `setRec.c`:
specific bitmask case for `mask ≠ 0`, wildcard case for `mask = 0`. -/
def byteMatches (mask bits cur : ℕ) : Bool :=
  if mask ≠ 0 then cur &&& mask == bits &&& mask
  else cur &&& bits != 0 || bits == 0

/-- Scan loop of the `query` helper in `setRec.c`: visit indices
`i, i+skip, i+2·skip, …` below `total`, read the byte, emit the current
value array together with the byte when it matches, and advance the
value cursor by `skip` via `incSetValues` on the variable prefix (the
in-loop call passes `varSize`, not the full size).  Progress updates
are a write-only side channel and are not modelled.  The budget `fuel`
bounds the iteration count; `query` passes `total`, which suffices
because `skip ≥ 1`. -/
def queryLoop (rec : List ℕ) (varSize skip total mask bits : ℕ) :
    ℕ → ℕ → List ℕ → ℕ × List (List ℕ × ℕ)
  | 0, _, _ => (0, [])
  | fuel + 1, i, values =>
    if i < total then
      let cur := rec.getD i 0
      let rest := queryLoop rec varSize skip total mask bits fuel (i + skip)
          (incSetValues (values.take varSize) skip ++ values.drop varSize)
      if byteMatches mask bits cur then (rest.1 + 1, (values, cur) :: rest.2)
      else rest
    else (0, [])

/-- Model of the `query` helper from `setRec.c`: build the first
allocated set representation (`indexToSet` of index 0 on the first
`varSize − 1` positions, then `minm`, then the fixed values), advance
it by `offset` with a full-size `incSetValues` call, and run the scan
loop.  Returns (count, emitted (set, byte) pairs). -/
def query (rec : List ℕ) (minm maxm varSize : ℕ) (fixedv : List ℕ)
    (offset skip mask bits : ℕ) : ℕ × List (List ℕ × ℕ) :=
  let values0 := (indexToSet (varSize - 1) 0 ++ [minm]) ++ fixedv
  let values1 := incSetValues values0 offset
  let total := mcn maxm varSize - mcn (minm - 1) varSize
  queryLoop rec varSize skip total mask bits total offset values1

/-- Model of `sr_query` from `setRec.c`. -/
def sr_query (b : SRBase) (mask bits : ℕ) : ℕ × List (List ℕ × ℕ) :=
  query b.recArr b.mval_min b.mval_max b.varSize b.fixedv 0 1 mask bits

/-- Model of `sr_query_parallel` from `setRec.c`: validates
`mod < concurrents` (`none` is the C `-1` / `EINVAL` result), then runs
the same scan visiting only every `concurrents`-th index starting at
`mod`. -/
def sr_query_parallel (b : SRBase) (mask bits concurrents mod : ℕ) :
    Option (ℕ × List (List ℕ × ℕ)) :=
  if concurrents ≤ mod then none
  else some (query b.recArr b.mval_min b.mval_max b.varSize b.fixedv mod concurrents mask bits)

/-- Specification gadget: the sequence of byte-array indices a scan
with the given stride visits, mirroring the iteration pattern of
`queryLoop` (`for (i = offset; i < total; i += skip)`). -/
def idxSeq (skip total : ℕ) : ℕ → ℕ → List ℕ
  | 0, _ => []
  | fuel + 1, i => if i < total then i :: idxSeq skip total fuel (i + skip) else []

/-! Exhaustive nullifiability tester (`src/lib/nulTest.c`), and the
historical revision (`src/nulTest.c`).  Verdicts are modelled as
`Bool` with `true` = nullifiable (the C return value `0`) and
`false` = innullifiable (the C return value `1`); the C `-1` memory
error does not arise because allocation is modelled as succeeding. -/

/-- All ways to pick one element out of a list, with the remaining
elements in order. -/
def pickOne : List ℕ → List (ℕ × List ℕ)
  | [] => []
  | a :: t => (a, t) :: (pickOne t).map (fun p => (p.1, a :: p.2))

/-- All ways to pick an index pair `pairA < pairB` out of a list, as
(first value, second value, remaining elements in order) — the pair
iteration pattern of both testers. -/
def pickTwo : List ℕ → List (ℕ × ℕ × List ℕ)
  | [] => []
  | a :: t => (pickOne t).map (fun p => (a, p.1, p.2))
      ++ (pickTwo t).map (fun p => (p.1, p.2.1, a :: p.2.2))

/-- The equality pre-scan of the testers: some index pair holds equal
values. -/
def hasEqPair (l : List ℕ) : Bool := (pickTwo l).any (fun p => p.1 == p.2.1)

/-- Replacement values of `recursiveTest` in `src/lib/nulTest.c`, in
array order `replacements[0..3]`: the difference, the sum, the
quotient slot (left `0` when neither value divides the other — the
zero is skipped by the caller), and the product. -/
def replacements (a b : ℕ) : List ℕ :=
  [if a > b then a - b else b - a,
   a + b,
   if a % b == 0 then a / b else if b % a == 0 then b / a else 0,
   a * b]

/-- Model of `nulTestTriplet` from `src/lib/nulTest.c`: the closed-form
length-3 check (equalities, additive, multiplicative). -/
def nulTestTriplet (a b c : ℕ) : Bool :=
  a == b || b == c || c == a ||
  a + b == c || b + c == a || c + a == b ||
  a * b == c || b * c == a || c * a == b

/-- Model of `recursiveTest` from `src/lib/nulTest.c`, with recursion
on an explicit depth budget: every recursive call is on a list exactly
one element shorter, so a budget equal to the list length is exact
(`recursiveTest` below instantiates it so).  A length-3 list goes to
the closed-form triplet check; otherwise the pair pre-scan for
equality, then every index pair with every nonzero replacement
value. -/
def recTestAux : ℕ → List ℕ → Bool
  | _, [a, b, c] => nulTestTriplet a b c
  | fuel + 1, l =>
    hasEqPair l ||
    (pickTwo l).any (fun p =>
      (replacements p.1 p.2.1).any (fun r => r != 0 && recTestAux fuel (r :: p.2.2)))
  | 0, _ => false

/-- Model of `recursiveTest` from `src/lib/nulTest.c`. -/
def recursiveTest (l : List ℕ) : Bool := recTestAux l.length l

/-- Model of `nulTest` from `src/lib/nulTest.c`: the simple size cases
(empty → innullifiable; singleton → nullifiable iff zero; pair →
nullifiable iff equal), the zero scan, then the recursion. -/
def nulTest (l : List ℕ) : Bool :=
  if l.length = 0 then false
  else if l.length = 1 then l.headI == 0
  else if l.length = 2 then l.headI == l.tail.headI
  else if l.any (· == 0) then true
  else recursiveTest l

/-- Replacement values of the historical tester `src/nulTest.c`: sum,
product, difference, and — only when one value divides the other — the
quotient. -/
def replacementsOld (a b : ℕ) : List ℕ :=
  [a + b, a * b, if a > b then a - b else b - a] ++
  (if a % b == 0 then [a / b] else if b % a == 0 then [b / a] else [])

/-- Model of the historical `nulTest` from `src/nulTest.c`, with the
same exact depth budget as `recTestAux`: singleton base case, a
combined zero/equality scan, then every index pair with every
replacement value, recursing on the whole tester. -/
def nulTestOldAux : ℕ → List ℕ → Bool
  | _, [a] => a == 0
  | fuel + 1, l =>
    l.any (· == 0) || hasEqPair l ||
    (pickTwo l).any (fun p =>
      (replacementsOld p.1 p.2.1).any (fun r => nulTestOldAux fuel (r :: p.2.2)))
  | 0, _ => false

/-- Model of the historical `nulTest` from `src/nulTest.c` (nonempty
inputs; the C code's behaviour on an empty input is an allocation
fault, which is out of scope). -/
def nulTestOld (l : List ℕ) : Bool := nulTestOldAux l.length l

/-! Set expander (`src/lib/expand.c`). -/

/-- Superset enumeration loop of `supers` in `expand.c`: for each
insertion value `i` up to `maxM`, write it at the current insertion
slot; if it collides with the next element the slot advances and the
iteration is skipped, otherwise the buffer is emitted.  The budget is
the exact trip count `maxM + 1 − start`, supplied by `supers`. -/
def supersGo (size maxM : ℕ) : ℕ → List ℕ → ℕ → ℕ → List (List ℕ)
  | 0, _, _, _ => []
  | fuel + 1, super, pos, i =>
    if i ≤ maxM then
      let super' := super.set pos i
      if pos < size ∧ super'.getD (pos + 1) 0 = i then
        supersGo size maxM fuel super' (pos + 1) (i + 1)
      else
        super' :: supersGo size maxM fuel super' pos (i + 1)
    else []

/-- Model of `supers` from `expand.c`: insertion slot at the front when
the input's M-value is at or above `minM` (inserting every value from
1), at the back otherwise (inserting only in-range M-values).  The
`calloc` zero fill shows up as the `0` occupying the slot. -/
def supers (set : List ℕ) (minM maxM : ℕ) : List (List ℕ) :=
  let size := set.length
  let belowMRange := set.getD (size - 1) 0 < minM
  let super0 := if belowMRange then set ++ [0] else 0 :: set
  let pos := if belowMRange then size else 0
  let start := if belowMRange then minM else 1
  supersGo size maxM (maxM + 1 - start) super0 pos start

/-- Main loop of `mutateOpSum` in `expand.c`: for each main insertion
value `a` with `a ≤ (mutVal − 1) / 2`, write `a` and the follower
`mutVal − a` at the two insertion slots; a slot collides with the
neighbouring element ⇒ advance it and skip; a follower above
`maxMajor` ⇒ skip; a follower below `minMajor` ⇒ stop.  Budget
`(mutVal − 1) / 2` is the exact trip count. -/
def sumGo (eSize mutVal maxMajor minMajor : ℕ) :
    ℕ → List ℕ → ℕ → ℕ → ℕ → List (List ℕ)
  | 0, _, _, _, _ => []
  | fuel + 1, eSet, ptM, ptF, a =>
    if a ≤ (mutVal - 1) / 2 then
      let f := mutVal - a
      let e1 := (eSet.set ptM a).set ptF f
      let c1 := ptM < eSize - 1 ∧ e1.getD (ptM + 1) 0 = a
      let c2 := 0 < ptF ∧ e1.getD (ptF - 1) 0 = f
      let ptM' := if c1 then ptM + 1 else ptM
      let ptF' := if c2 then ptF - 1 else ptF
      if maxMajor < f then sumGo eSize mutVal maxMajor minMajor fuel e1 ptM' ptF' (a + 1)
      else if f < minMajor then []
      else if c1 ∨ c2 then sumGo eSize mutVal maxMajor minMajor fuel e1 ptM' ptF' (a + 1)
      else e1 :: sumGo eSize mutVal maxMajor minMajor fuel e1 ptM' ptF' (a + 1)
    else []

/-- Model of `mutateOpSum` from `expand.c` (the value being mutated sits
at index `mutPt` of the buffer; main slot at 0, follower slot at
`mutPt`). -/
def mutateOpSum (eSet : List ℕ) (eSize mutPt minMajor maxMajor : ℕ) : List (List ℕ) :=
  let mutVal := eSet.getD mutPt 0
  sumGo eSize mutVal maxMajor minMajor ((mutVal - 1) / 2) eSet 0 mutPt 1

/-- Main loop of `mutateOpDiff` in `expand.c`: for each subtrahend `a`
with `a ≤ maxMinu − mutVal`, write `a` and the minuend `mutVal + a`;
collisions advance the slots (both rightward here) and skip; a minuend
below `minMinu` skips.  Budget `maxMinu − mutVal` is the exact trip
count. -/
def diffGo (eSize mutVal maxMinu minMinu : ℕ) :
    ℕ → List ℕ → ℕ → ℕ → ℕ → List (List ℕ)
  | 0, _, _, _, _ => []
  | fuel + 1, eSet, ptM, ptF, a =>
    if a ≤ maxMinu - mutVal then
      let f := mutVal + a
      let e1 := (eSet.set ptM a).set ptF f
      let c1 := ptM < eSize - 1 ∧ e1.getD (ptM + 1) 0 = a
      let c2 := ptF < eSize - 1 ∧ e1.getD (ptF + 1) 0 = f
      let ptM' := if c1 then ptM + 1 else ptM
      let ptF' := if c2 then ptF + 1 else ptF
      if c1 ∨ c2 ∨ f < minMinu then diffGo eSize mutVal maxMinu minMinu fuel e1 ptM' ptF' (a + 1)
      else e1 :: diffGo eSize mutVal maxMinu minMinu fuel e1 ptM' ptF' (a + 1)
    else []

/-- Model of `mutateOpDiff` from `expand.c`. -/
def mutateOpDiff (eSet : List ℕ) (eSize mutPt minMinu maxMinu : ℕ) : List (List ℕ) :=
  let mutVal := eSet.getD mutPt 0
  diffGo eSize mutVal maxMinu minMinu (maxMinu - mutVal) eSet 0 mutPt 1

/-- Model of `mutateAdd` from `expand.c`: for every mutation point, the
sum pairs then the difference pairs, each on a buffer holding the input
one position to the right with the front slot free. -/
def mutateAdd (set : List ℕ) (max : ℕ) : List (List ℕ) :=
  (List.range set.length).flatMap (fun mutPt =>
    mutateOpSum (0 :: set) (set.length + 1) (mutPt + 1) 1 max ++
    mutateOpDiff (0 :: set) (set.length + 1) (mutPt + 1) 1 max)

/-- Inner `while` of `insertEqPair` in `expand.c`: insert the pending
value(s) that sort before the next source element; after an insertion
the follower value becomes pending and then nothing (`0`).  At most two
insertions can happen, so a budget of 2 is exact (after two rounds the
pending value is `0` and the guard fails). -/
def insWhileGo : ℕ → ℕ → ℕ → ℕ → List ℕ → ℕ × ℕ × List ℕ
  | 0, minor, major, _, acc => (minor, major, acc)
  | fuel + 1, minor, major, x, acc =>
    if minor < x ∧ minor ≠ 0 then insWhileGo fuel major 0 x (acc ++ [minor])
    else (minor, major, acc)

/-- Main loop of `insertEqPair` in `expand.c`, walking the source set:
insert pending pair values in order, abort (`none`, the C early
`return` without output) when a pending value collides with a source
element, copy source elements other than the mutation point, and append
any still-pending values at the end. -/
def insGo (mutPt : ℕ) : List ℕ → ℕ → ℕ → ℕ → List ℕ → Option (List ℕ)
  | [], _, minor, major, acc =>
    some (acc ++ (if minor ≠ 0 then [minor] else []) ++ (if major ≠ 0 then [major] else []))
  | x :: rest, index, minor, major, acc =>
    let s := insWhileGo 2 minor major x acc
    if s.1 = x then none
    else insGo mutPt rest (index + 1) s.1 s.2.1 (if index ≠ mutPt then s.2.2 ++ [x] else s.2.2)

/-- Model of `insertEqPair` from `expand.c`: emits either one expanded
set or nothing. -/
def insertEqPair (mutPt : ℕ) (set : List ℕ) (minor major : ℕ) : List (List ℕ) :=
  match insGo mutPt set 0 minor major [] with
  | none => []
  | some o => [o]

/-- Product-pair loop of `mutateMul` in `expand.c`: minor factors from
1 while `minor < mutVal / minor`, emitting for each divisor.  Budget
`mutVal` covers the trip count (the guard fails once
`minor · (minor + 1) > mutVal`, so at most `mutVal` iterations run). -/
def mulProdGo (set : List ℕ) (mutPt mutVal : ℕ) : ℕ → ℕ → List (List ℕ)
  | 0, _ => []
  | fuel + 1, minor =>
    if minor < mutVal / minor then
      (if mutVal % minor = 0 then insertEqPair mutPt set minor (mutVal / minor) else []) ++
      mulProdGo set mutPt mutVal fuel (minor + 1)
    else []

/-- Quotient-pair loop of `mutateMul` in `expand.c`: divisors from 2
through `max / mutVal`.  Budget `max / mutVal` is one more than the
trip count. -/
def mulQuotGo (set : List ℕ) (mutPt mutVal max : ℕ) : ℕ → ℕ → List (List ℕ)
  | 0, _ => []
  | fuel + 1, divisor =>
    if divisor ≤ max / mutVal then
      insertEqPair mutPt set divisor (mutVal * divisor) ++
      mulQuotGo set mutPt mutVal max fuel (divisor + 1)
    else []

/-- Model of `mutateMul` from `expand.c`: for every mutation point with
value other than 1, the product pairs then the quotient pairs. -/
def mutateMul (set : List ℕ) (max : ℕ) : List (List ℕ) :=
  (List.range set.length).flatMap (fun mutPt =>
    let mutVal := set.getD mutPt 0
    if mutVal = 1 then []
    else
      mulProdGo set mutPt mutVal mutVal 1 ++
      mulQuotGo set mutPt mutVal max (max / mutVal) 2)

/-- Mode flag `EXPAND_SUPERS` from `expand.h`. -/
def EXPAND_SUPERS : ℕ := 1

/-- Mode flag `EXPAND_MUT_ADD` from `expand.h`. -/
def EXPAND_MUT_ADD : ℕ := 2

/-- Mode flag `EXPAND_MUT_MUL` from `expand.h`. -/
def EXPAND_MUT_MUL : ℕ := 4

/-- Model of `expand` from `expand.c`: input validation (positive,
strictly ascending, M-value within `max` — the C reads `set[0]` and
`set[size − 1]`, modelled with default 0 so an empty input is rejected
as non-positive), the two-values-above-range cutoff, additive then
multiplicative mutations by mode, the one-value-above-range cutoff
(dead under validation, kept for fidelity), then supersets by mode.
Returns (C return value, collected outputs). -/
def expand (set : List ℕ) (max mode : ℕ) : Int × List (List ℕ) :=
  if set.getD 0 0 < 1 then (-1, [])
  else if ¬ List.Chain' (· < ·) set then (-1, [])
  else if max < set.getD (set.length - 1) 0 then (-1, [])
  else
    let size := set.length
    if 2 ≤ size ∧ max < set.getD (size - 2) 0 then (0, [])
    else
      let muts := (if mode &&& EXPAND_MUT_ADD ≠ 0 then mutateAdd set max else []) ++
                  (if mode &&& EXPAND_MUT_MUL ≠ 0 then mutateMul set max else [])
      if 1 ≤ size ∧ max < set.getD (size - 1) 0 then (0, muts)
      else (0, muts ++ (if mode &&& EXPAND_SUPERS ≠ 0 then supers set 1 max else []))

/-! Theorems.  First the combinadic index development. -/

theorem foldl_mul_range_desc (m n : ℕ) :
    (List.range n).foldl (fun acc i => acc * (m - i)) 1 = m.descFactorial n := by
  induction n with
  | zero => rfl
  | succ k ih =>
    rw [List.range_succ, List.foldl_append, ih]
    simp [Nat.descFactorial_succ, Nat.mul_comm]

theorem foldl_mul_range_fact (n : ℕ) :
    (List.range n).foldl (fun acc i => acc * (i + 1)) 1 = n.factorial := by
  induction n with
  | zero => rfl
  | succ k ih =>
    rw [List.range_succ, List.foldl_append, ih]
    simp [Nat.factorial_succ, Nat.mul_comm]

/-- The C helper `mcn` computes the binomial coefficient. -/
theorem mcn_eq_choose (m n : ℕ) : mcn m n = Nat.choose m n := by
  unfold mcn
  split
  · exact (Nat.choose_eq_zero_of_lt (by assumption)).symm
  · rw [foldl_mul_range_desc, foldl_mul_range_fact,
      Nat.choose_eq_descFactorial_div_factorial]

/-- Growth bound used for termination of the index search:
`idx < choose (idx + k) k` for `k ≥ 1`. -/
theorem lt_choose_add_self (idx k : ℕ) (hk : 1 ≤ k) : idx < Nat.choose (idx + k) k := by
  induction k with
  | zero => omega
  | succ k ih =>
    rcases Nat.eq_zero_or_pos k with rfl | hk1
    · simp [Nat.choose_one_right]
    · have h1 := ih hk1
      have hc : Nat.choose (idx + k + 1) (k + 1) =
          Nat.choose (idx + k) k + Nat.choose (idx + k) (k + 1) :=
        Nat.choose_succ_succ _ _
      have : idx + (k + 1) = idx + k + 1 := by omega
      rw [this, hc]
      omega

theorem chooseSearchGo_spec (idx vals : ℕ) (hv : 1 ≤ vals) :
    ∀ fuel i, idx + vals < i + fuel →
      i ≤ chooseSearchGo idx vals fuel i ∧
      idx < mcn (chooseSearchGo idx vals fuel i) vals ∧
      ∀ x, i ≤ x → x < chooseSearchGo idx vals fuel i → mcn x vals ≤ idx := by
  intro fuel
  induction fuel with
  | zero =>
    intro i hi
    simp only [chooseSearchGo]
    refine ⟨le_refl _, ?_, by intro x h1 h2; omega⟩
    rw [mcn_eq_choose]
    calc idx < Nat.choose (idx + vals) vals := lt_choose_add_self idx vals hv
    _ ≤ Nat.choose i vals := Nat.choose_le_choose _ (by omega)
  | succ fuel ih =>
    intro i hi
    rw [chooseSearchGo]
    split
    · have h := ih (i + 1) (by omega)
      refine ⟨by omega, h.2.1, ?_⟩
      intro x hx1 hx2
      rcases Nat.eq_or_lt_of_le hx1 with rfl | h'
      · assumption
      · exact h.2.2 x h' hx2
    · exact ⟨le_refl _, by omega, by intro x h1 h2; omega⟩

theorem chooseSearch_spec (idx vals i : ℕ) (hv : 1 ≤ vals) :
    i ≤ chooseSearch idx vals i ∧
    idx < mcn (chooseSearch idx vals i) vals ∧
    ∀ x, i ≤ x → x < chooseSearch idx vals i → mcn x vals ≤ idx :=
  chooseSearchGo_spec idx vals hv (idx + vals + 1) i (by omega)

theorem ascPos_chain_iff (l : List ℕ) :
    List.Chain' (· < ·) l ↔ List.Pairwise (· < ·) l := List.chain'_iff_pairwise

/-- Convenient restatement of `AscPos` via `Pairwise`. -/
theorem ascPos_iff (l : List ℕ) :
    AscPos l ↔ List.Pairwise (· < ·) l ∧ ∀ x ∈ l, 1 ≤ x := by
  unfold AscPos; rw [ascPos_chain_iff]

theorem setToIndexAux_append (t : List ℕ) :
    ∀ (v j : ℕ), setToIndexAux (t ++ [v]) j = setToIndexAux t j + mcn (v - 1) (j + t.length) := by
  induction t with
  | nil => intro v j; simp [setToIndexAux]
  | cons a t ih =>
    intro v j
    have hstep : setToIndexAux ((a :: t) ++ [v]) j =
        mcn (a - 1) j + setToIndexAux (t ++ [v]) (j + 1) := rfl
    have hstep2 : setToIndexAux (a :: t) j = mcn (a - 1) j + setToIndexAux t (j + 1) := rfl
    have harith : j + 1 + t.length = j + (t.length + 1) := by omega
    rw [hstep, ih v (j + 1), hstep2, harith]
    simp only [List.length_cons]
    omega

/-- The key upper bound of the combinadic development: a strictly
ascending tuple whose values are at least the starting weight `j` has
index sum strictly below `choose` of its last value over its top
weight. -/
theorem setToIndexAux_lt (t : List ℕ) :
    ∀ (v j : ℕ), 1 ≤ j → List.Pairwise (· < ·) (t ++ [v]) → (∀ x ∈ t ++ [v], j ≤ x) →
      setToIndexAux (t ++ [v]) j < Nat.choose v (j + t.length) := by
  induction t using List.reverseRecOn with
  | nil =>
    intro v j hj _ hge
    have hv : j ≤ v := hge v (by simp)
    obtain ⟨v', rfl⟩ : ∃ v', v = v' + 1 := ⟨v - 1, by omega⟩
    obtain ⟨j', rfl⟩ : ∃ j', j = j' + 1 := ⟨j - 1, by omega⟩
    simp only [List.nil_append, setToIndexAux, mcn_eq_choose, Nat.add_zero, List.length_nil]
    have hp : Nat.choose (v' + 1) (j' + 1) = Nat.choose v' j' + Nat.choose v' (j' + 1) :=
      Nat.choose_succ_succ v' j'
    have hpos : 0 < Nat.choose v' j' := Nat.choose_pos (by omega)
    simp only [Nat.add_sub_cancel]
    omega
  | append_singleton t' u ih =>
    intro v j hj hpw hge
    have hlt : u < v := by
      rcases List.pairwise_append.mp hpw with ⟨_, _, h⟩
      exact h u (by simp) v (by simp)
    have hpw' : List.Pairwise (· < ·) (t' ++ [u]) := (List.pairwise_append.mp hpw).1
    have hge' : ∀ x ∈ t' ++ [u], j ≤ x := fun x hx =>
      hge x (by simp only [List.mem_append, List.mem_singleton] at hx ⊢; tauto)
    have h1 := ih u j hj hpw' hge'
    have hv1 : 1 ≤ v := le_trans hj (hge v (by simp))
    obtain ⟨v', rfl⟩ : ∃ v', v = v' + 1 := ⟨v - 1, by omega⟩
    have happ := setToIndexAux_append (t' ++ [u]) (v' + 1) j
    have hL : (t' ++ [u]).length = t'.length + 1 := by simp
    have hmcn : mcn (v' + 1 - 1) (j + (t' ++ [u]).length) =
        Nat.choose v' (j + t'.length + 1) := by
      rw [mcn_eq_choose, hL]
      simp only [Nat.add_sub_cancel]
      congr 1
    have hp2 : Nat.choose (v' + 1) (j + t'.length + 1) =
        Nat.choose v' (j + t'.length) + Nat.choose v' (j + t'.length + 1) := by
      have h := Nat.choose_succ_succ v' (j + t'.length)
      simpa [Nat.succ_eq_add_one] using h
    have hmono : Nat.choose u (j + t'.length) ≤ Nat.choose v' (j + t'.length) :=
      Nat.choose_le_choose _ (by omega)
    have hgoalL : j + (t' ++ [u]).length = j + t'.length + 1 := by rw [hL]; omega
    rw [happ, hmcn, hgoalL]
    omega

/-- Upper bound for `setToIndex` on ascending positive lists, in terms
of any bound on the last element. -/
theorem setToIndex_lt_choose (t : List ℕ) (v m : ℕ) (h : AscPos (t ++ [v])) (hm : v ≤ m) :
    setToIndex (t ++ [v]) < Nat.choose m (t.length + 1) := by
  rcases (ascPos_iff _).mp h with ⟨hpw, hpos⟩
  have h1 := setToIndexAux_lt t v 1 (le_refl 1) hpw (fun x hx => hpos x hx)
  calc setToIndex (t ++ [v]) < Nat.choose v (1 + t.length) := h1
    _ ≤ Nat.choose m (1 + t.length) := Nat.choose_le_choose _ hm
    _ = Nat.choose m (t.length + 1) := by rw [Nat.add_comm]

/-- Lower bound for `setToIndex`: the last term of the sum. -/
theorem choose_le_setToIndex (t : List ℕ) (v : ℕ) :
    Nat.choose (v - 1) (t.length + 1) ≤ setToIndex (t ++ [v]) := by
  have h := setToIndexAux_append t v 1
  rw [mcn_eq_choose, Nat.add_comm 1 t.length] at h
  unfold setToIndex
  omega

/-- The combinadic index is injective on ascending positive lists of a
common length. -/
theorem setToIndex_inj (s : List ℕ) :
    ∀ (t : List ℕ), AscPos s → AscPos t → s.length = t.length →
      setToIndex s = setToIndex t → s = t := by
  induction s using List.reverseRecOn with
  | nil =>
    intro t _ _ hlen _
    exact (List.eq_nil_of_length_eq_zero hlen.symm).symm
  | append_singleton s' v ih =>
    intro t hs ht hlen heq
    rcases List.eq_nil_or_concat t with rfl | ⟨t', w, rfl⟩
    · simp at hlen
    rw [List.concat_eq_append] at *
    have hlen' : s'.length = t'.length := by
      simp only [List.length_append, List.length_cons, List.length_nil] at hlen; omega
    -- the last values agree: otherwise the index ranges are disjoint
    have hvw : v = w := by
      by_contra hne
      rcases Nat.lt_or_ge v w with hlt | hge
      · have h1 : setToIndex (t' ++ [w]) ≥ Nat.choose (w - 1) (t'.length + 1) :=
          choose_le_setToIndex t' w
        have h2 : setToIndex (s' ++ [v]) < Nat.choose (w - 1) (s'.length + 1) :=
          setToIndex_lt_choose s' v (w - 1) hs (by omega)
        rw [hlen'] at h2; omega
      · have hlt : w < v := by omega
        have h1 : setToIndex (s' ++ [v]) ≥ Nat.choose (v - 1) (s'.length + 1) :=
          choose_le_setToIndex s' v
        have h2 : setToIndex (t' ++ [w]) < Nat.choose (v - 1) (t'.length + 1) :=
          setToIndex_lt_choose t' w (v - 1) ht (by omega)
        rw [hlen'] at h1; omega
    subst hvw
    have hs' : AscPos s' := by
      rcases (ascPos_iff _).mp hs with ⟨hpw, hpos⟩
      exact (ascPos_iff _).mpr ⟨(List.pairwise_append.mp hpw).1,
        fun x hx => hpos x (by simp [hx])⟩
    have ht' : AscPos t' := by
      rcases (ascPos_iff _).mp ht with ⟨hpw, hpos⟩
      exact (ascPos_iff _).mpr ⟨(List.pairwise_append.mp hpw).1,
        fun x hx => hpos x (by simp [hx])⟩
    have heq' : setToIndex s' = setToIndex t' := by
      have h1 := setToIndexAux_append s' v 1
      have h2 := setToIndexAux_append t' v 1
      unfold setToIndex at *
      rw [h1, h2, hlen'] at heq
      omega
    rw [ih t' hs' ht' hlen' heq']

theorem indexToSet_length : ∀ k n, (indexToSet k n).length = k := by
  intro k
  induction k with
  | zero => intro n; rfl
  | succ k ih => intro n; simp [indexToSet, ih]

/-- Full specification of `indexToSet` on a nonzero tuple size: the
result is ascending and positive, `setToIndex` recovers the index, and
the values are bounded by any `m` whose binomial exceeds the index. -/
theorem indexToSet_spec : ∀ k n,
    AscPos (indexToSet (k + 1) n) ∧
    setToIndex (indexToSet (k + 1) n) = n ∧
    ∀ m, n < Nat.choose m (k + 1) → ∀ x ∈ indexToSet (k + 1) n, x ≤ m := by
  intro k
  induction k with
  | zero =>
    intro n
    obtain ⟨h0, h1, h2⟩ := chooseSearch_spec n 1 0 (le_refl 1)
    obtain ⟨s, hs⟩ : ∃ s, chooseSearch n 1 0 = s := ⟨_, rfl⟩
    rw [hs] at h0 h1 h2
    have hsn : s = n + 1 := by
      rcases Nat.eq_zero_or_pos s with rfl | hpos
      · rw [mcn_eq_choose] at h1; simp [Nat.choose] at h1
      · have hlt : n < s := by
          rw [mcn_eq_choose, Nat.choose_one_right] at h1; exact h1
        have hle : s - 1 ≤ n := by
          have h3 := h2 (s - 1) (by omega) (by omega)
          rw [mcn_eq_choose, Nat.choose_one_right] at h3; omega
        omega
    have hform : indexToSet 1 n = [n + 1] := by
      simp only [indexToSet, Nat.zero_add, hs, hsn, List.nil_append]
    rw [hform]
    refine ⟨⟨by simp, by simp⟩, ?_, ?_⟩
    · unfold setToIndex setToIndexAux setToIndexAux
      rw [mcn_eq_choose]
      simp [Nat.choose_one_right]
    · intro m hm x hx
      rw [Nat.choose_one_right] at hm
      simp only [List.mem_singleton] at hx
      omega
  | succ k ih =>
    intro n
    obtain ⟨h0, h1, h2⟩ := chooseSearch_spec n (k + 2) (k + 1) (by omega)
    obtain ⟨s, hs⟩ : ∃ s, chooseSearch n (k + 2) (k + 1) = s := ⟨_, rfl⟩
    rw [hs] at h0 h1 h2
    have hs1 : 1 ≤ s := by omega
    have hlow : Nat.choose (s - 1) (k + 2) ≤ n := by
      rcases Nat.eq_or_lt_of_le h0 with heq | hlt
      · have hz : s - 1 < k + 2 := by omega
        rw [Nat.choose_eq_zero_of_lt hz]; omega
      · have h3 := h2 (s - 1) (by omega) (by omega)
        rwa [mcn_eq_choose] at h3
    have hpascal : Nat.choose s (k + 2) =
        Nat.choose (s - 1) (k + 1) + Nat.choose (s - 1) (k + 2) := by
      obtain ⟨s', rfl⟩ : ∃ s', s = s' + 1 := ⟨s - 1, by omega⟩
      simpa [Nat.succ_eq_add_one] using Nat.choose_succ_succ s' (k + 1)
    have hb : n < Nat.choose s (k + 2) := by rw [← mcn_eq_choose]; exact h1
    have hrem : n - Nat.choose (s - 1) (k + 2) < Nat.choose (s - 1) (k + 1) := by omega
    have hform : indexToSet (k + 2) n =
        indexToSet (k + 1) (n - mcn (s - 1) (k + 2)) ++ [s] := by
      simp only [indexToSet, hs]
    obtain ⟨ihAsc, ihIdx, ihBound⟩ := ih (n - mcn (s - 1) (k + 2))
    have hPlen : (indexToSet (k + 1) (n - mcn (s - 1) (k + 2))).length = k + 1 :=
      indexToSet_length _ _
    have hPx : ∀ x ∈ indexToSet (k + 1) (n - mcn (s - 1) (k + 2)), x ≤ s - 1 := by
      intro x hx
      refine ihBound (s - 1) ?_ x hx
      rw [mcn_eq_choose]; exact hrem
    have hAsc : AscPos (indexToSet (k + 1) (n - mcn (s - 1) (k + 2)) ++ [s]) := by
      rcases (ascPos_iff _).mp ihAsc with ⟨hpw, hpos⟩
      refine (ascPos_iff _).mpr ⟨?_, ?_⟩
      · rw [List.pairwise_append]
        refine ⟨hpw, by simp, ?_⟩
        intro a ha b hb
        simp only [List.mem_singleton] at hb
        subst hb
        have := hPx a ha
        omega
      · intro x hx
        rcases List.mem_append.mp hx with h | h
        · exact hpos x h
        · simp only [List.mem_singleton] at h; omega
    refine ⟨by rw [hform]; exact hAsc, ?_, ?_⟩
    · rw [hform]
      unfold setToIndex
      rw [setToIndexAux_append, hPlen]
      have hP1 : setToIndexAux (indexToSet (k + 1) (n - mcn (s - 1) (k + 2))) 1 =
          n - mcn (s - 1) (k + 2) := ihIdx
      rw [hP1, mcn_eq_choose, mcn_eq_choose]
      have harith : 1 + (k + 1) = k + 2 := by omega
      rw [harith]
      omega
    · intro m hm x hx
      have hm' : n < Nat.choose m (k + 2) := hm
      have hsm : s ≤ m := by
        by_contra hc
        push_neg at hc
        rcases Nat.lt_or_ge m (k + 1) with hm2 | hm2
        · rw [Nat.choose_eq_zero_of_lt (by omega)] at hm'; omega
        · have h3 := h2 m hm2 hc
          rw [mcn_eq_choose] at h3
          omega
      rw [hform] at hx
      rcases List.mem_append.mp hx with h | h
      · have := hPx x h; omega
      · simp only [List.mem_singleton] at h; omega

/-- Round trip: `indexToSet` inverts `setToIndex` on ascending positive
tuples. -/
theorem indexToSet_setToIndex (s : List ℕ) (h : AscPos s) :
    indexToSet s.length (setToIndex s) = s := by
  cases s with
  | nil => rfl
  | cons a t =>
    obtain ⟨hAsc, hIdx, _⟩ := indexToSet_spec t.length (setToIndex (a :: t))
    exact setToIndex_inj _ (a :: t) hAsc h
      (by rw [indexToSet_length]) hIdx

theorem setToIndexAux_eq_sum (s : List ℕ) :
    ∀ j, setToIndexAux s j = ∑ i ∈ Finset.range s.length, Nat.choose (s.getD i 0 - 1) (j + i) := by
  induction s with
  | nil => intro j; simp [setToIndexAux]
  | cons v rest ih =>
    intro j
    have h1 : setToIndexAux (v :: rest) j = mcn (v - 1) j + setToIndexAux rest (j + 1) := rfl
    rw [h1, ih (j + 1), mcn_eq_choose]
    rw [List.length_cons, Finset.sum_range_succ']
    simp only [List.getD_cons_succ, List.getD_cons_zero, Nat.add_zero]
    have harg : ∀ i, j + 1 + i = j + (i + 1) := by intro i; omega
    have : ∑ i ∈ Finset.range rest.length, Nat.choose (rest.getD i 0 - 1) (j + 1 + i) =
        ∑ i ∈ Finset.range rest.length, Nat.choose (rest.getD i 0 - 1) (j + (i + 1)) := by
      refine Finset.sum_congr rfl ?_
      intro i _
      rw [harg i]
    rw [this]
    omega

/-- The combinadic index is the sum `Σ_j C(x_j − 1, j)` over 1-indexed
positions `j`. -/
theorem setToIndex_eq_sum (s : List ℕ) :
    setToIndex s = ∑ j ∈ Finset.range s.length, Nat.choose (s.getD j 0 - 1) (j + 1) := by
  unfold setToIndex
  rw [setToIndexAux_eq_sum]
  refine Finset.sum_congr rfl ?_
  intro i _
  rw [Nat.add_comm 1 i]

/-- Claim C2 — combinadic bijection round trip: for every `k ≥ 1` and
every strictly ascending `k`-tuple `x` of positive integers,
`setToIndex x` equals the sum over 1-indexed positions `j` of
`C(x_j − 1, j)` (with `C(m, n) = 0` for `m < n`, which is `Nat.choose`'s
behaviour and also `mcn`'s), and `indexToSet (setToIndex x) k = x`.
The `ℕ` model carries no 64-bit restriction, so the claim's
within-64-bit proviso is subsumed. -/
theorem claim_C2 (x : List ℕ) (k : ℕ) (hk : 1 ≤ k) (hlen : x.length = k)
    (hasc : List.Chain' (· < ·) x) (hpos : ∀ v ∈ x, 1 ≤ v) :
    setToIndex x = ∑ j ∈ Finset.range k, Nat.choose (x.getD j 0 - 1) (j + 1) ∧
    indexToSet k (setToIndex x) = x := by
  constructor
  · rw [setToIndex_eq_sum, hlen]
  · rw [← hlen]
    exact indexToSet_setToIndex x ⟨hasc, hpos⟩

/-- Witness for claim C2 at `x = [2, 5, 6, 14]`, `k = 4`. -/
theorem claim_C2_witness :
    (1 ≤ 4 ∧ ([2, 5, 6, 14] : List ℕ).length = 4 ∧
      List.Chain' (· < ·) [2, 5, 6, 14] ∧ ∀ v ∈ ([2, 5, 6, 14] : List ℕ), 1 ≤ v) ∧
    (setToIndex [2, 5, 6, 14] =
      ∑ j ∈ Finset.range 4, Nat.choose (([2, 5, 6, 14] : List ℕ).getD j 0 - 1) (j + 1) ∧
    indexToSet 4 (setToIndex [2, 5, 6, 14]) = [2, 5, 6, 14]) :=
  ⟨⟨by decide, by decide, by norm_num [List.chain'_cons], by decide⟩,
    claim_C2 [2, 5, 6, 14] 4 (by decide) (by decide)
      (by norm_num [List.chain'_cons]) (by decide)⟩

/-- Counterexample for claim C8 as stated: the claim asserts
`setToIndex((2,3,4)) = 1`, but the code computes
`C(1,1) + C(2,2) + C(3,3) = 3` (the set at index 1 is `(1,2,4)`). -/
theorem claim_C8_counterexample :
    setToIndex [2, 3, 4] = 3 ∧ setToIndex [2, 3, 4] ≠ 1 ∧ indexToSet 3 1 = [1, 2, 4] := by
  refine ⟨by decide, by decide, by decide⟩

/-- Claim C8 (amended) — concrete combinadic indices:
`setToIndex((1,2,3)) = 0`, `setToIndex((2,3,4)) = 3` (the claim's value
1 is wrong; index 1 is `(1,2,4)`), `setToIndex((1,3,4)) = 2`,
`setToIndex((1,2,5)) = 4`, and `indexToSet` recovers each original
triple from its index. -/
theorem claim_C8 :
    setToIndex [1, 2, 3] = 0 ∧ setToIndex [2, 3, 4] = 3 ∧
    setToIndex [1, 3, 4] = 2 ∧ setToIndex [1, 2, 5] = 4 ∧
    indexToSet 3 (setToIndex [1, 2, 3]) = [1, 2, 3] ∧
    indexToSet 3 (setToIndex [2, 3, 4]) = [2, 3, 4] ∧
    indexToSet 3 (setToIndex [1, 3, 4]) = [1, 3, 4] ∧
    indexToSet 3 (setToIndex [1, 2, 5]) = [1, 2, 5] := by
  refine ⟨by decide, by decide, by decide, by decide, by decide, by decide, by decide, by decide⟩


theorem pairwise_lt_head_pos (l : List ℕ) (hpw : List.Pairwise (· < ·) l)
    (hh : 1 ≤ l.headI) : ∀ x ∈ l, 1 ≤ x := by
  cases l with
  | nil => intro x hx; cases hx
  | cons h t =>
    intro x hx
    rcases List.mem_cons.mp hx with rfl | hx'
    · exact hh
    · have := (List.pairwise_cons.mp hpw).1 x hx'
      simp only [List.headI] at hh
      omega

theorem choose_pred_pascal (b k : ℕ) (hb : 1 ≤ b) :
    Nat.choose b (k + 1) = Nat.choose (b - 1) k + Nat.choose (b - 1) (k + 1) := by
  obtain ⟨b', rfl⟩ : ∃ b', b = b' + 1 := ⟨b - 1, by omega⟩
  simpa [Nat.succ_eq_add_one] using Nat.choose_succ_succ b' k

/-- Full specification of the cascade step of `incSetValues`: it
grows the suffix by the one re-included slot, produces an ascending
list headed by the reset value `i`, and its index sum at weight `i`
exceeds the input suffix's index sum at weight `i + 1` by
`choose (head − 1) i`. -/
theorem cascade_spec (tail : List ℕ) : ∀ i, 1 ≤ i →
    List.Pairwise (· < ·) tail → tail ≠ [] → i + 1 ≤ tail.headI →
    (cascade i tail).length = tail.length + 1 ∧
    List.Pairwise (· < ·) (cascade i tail) ∧
    (cascade i tail).headI = i ∧
    setToIndexAux (cascade i tail) i =
      setToIndexAux tail (i + 1) + Nat.choose (tail.headI - 1) i := by
  induction tail with
  | nil => intro i _ _ hne _; exact absurd rfl hne
  | cons b rest ih =>
    intro i hi hpw _ hhead
    simp only [List.headI] at hhead ⊢
    cases rest with
    | nil =>
      refine ⟨rfl, ?_, rfl, ?_⟩
      · simp only [cascade]
        refine List.pairwise_cons.mpr ⟨?_, by simp⟩
        intro x hx
        simp only [List.mem_singleton] at hx
        omega
      · show setToIndexAux [i, b + 1] i = setToIndexAux [b] (i + 1) + Nat.choose (b - 1) i
        have h1 : setToIndexAux [i, b + 1] i =
            mcn (i - 1) i + (mcn (b + 1 - 1) (i + 1) + 0) := rfl
        have h2 : setToIndexAux [b] (i + 1) = mcn (b - 1) (i + 1) + 0 := rfl
        rw [h1, h2]
        simp only [mcn_eq_choose, Nat.add_sub_cancel]
        rw [Nat.choose_eq_zero_of_lt (by omega),
          choose_pred_pascal b i (by omega)]
        omega
    | cons c rest' =>
      have hbc : b < c := (List.pairwise_cons.mp hpw).1 c (by simp)
      have hpw' : List.Pairwise (· < ·) (c :: rest') := (List.pairwise_cons.mp hpw).2
      have hcall : ∀ y ∈ c :: rest', b < y := (List.pairwise_cons.mp hpw).1
      by_cases hcase : b + 1 < c
      · -- break: the incremented value stays below the next one
        have hform : cascade i (b :: c :: rest') = i :: (b + 1) :: c :: rest' := by
          simp only [cascade, if_pos hcase]
        rw [hform]
        refine ⟨rfl, ?_, rfl, ?_⟩
        · refine List.pairwise_cons.mpr ⟨?_, ?_⟩
          · intro x hx
            rcases List.mem_cons.mp hx with rfl | hx'
            · omega
            · have := hcall x hx'
              omega
          · refine List.pairwise_cons.mpr ⟨?_, hpw'⟩
            intro y hy
            rcases List.mem_cons.mp hy with rfl | hy'
            · omega
            · have := (List.pairwise_cons.mp hpw').1 y hy'
              omega
        · have h1 : setToIndexAux (i :: (b + 1) :: c :: rest') i =
              mcn (i - 1) i + (mcn (b + 1 - 1) (i + 1) + setToIndexAux (c :: rest') (i + 2)) :=
            rfl
          have h2 : setToIndexAux (b :: c :: rest') (i + 1) =
              mcn (b - 1) (i + 1) + setToIndexAux (c :: rest') (i + 2) := rfl
          rw [h1, h2]
          simp only [mcn_eq_choose, Nat.add_sub_cancel]
          rw [Nat.choose_eq_zero_of_lt (by omega),
            choose_pred_pascal b i (by omega)]
          omega
      · -- continue: the incremented value collides, so c = b + 1
        have hform : cascade i (b :: c :: rest') = i :: cascade (i + 1) (c :: rest') := by
          simp only [cascade, if_neg hcase]
        obtain ⟨ihLen, ihPw, ihHead, ihIdx⟩ :=
          ih (i + 1) (by omega) hpw' (by simp) (by simp only [List.headI]; omega)
        rw [hform]
        refine ⟨?_, ?_, rfl, ?_⟩
        · simp only [List.length_cons] at ihLen ⊢
          omega
        · refine List.pairwise_cons.mpr ⟨?_, ihPw⟩
          intro x hx
          have hge : ∀ y ∈ cascade (i + 1) (c :: rest'), i + 1 ≤ y := by
            intro y hy
            cases hcc : cascade (i + 1) (c :: rest') with
            | nil => rw [hcc] at hy; cases hy
            | cons hh tt =>
              rw [hcc] at hy ihPw ihHead
              simp only [List.headI] at ihHead
              rcases List.mem_cons.mp hy with rfl | hy'
              · omega
              · have := (List.pairwise_cons.mp ihPw).1 y hy'
                omega
          have := hge x hx
          omega
        · have hA : setToIndexAux (i :: cascade (i + 1) (c :: rest')) i =
              mcn (i - 1) i + setToIndexAux (cascade (i + 1) (c :: rest')) (i + 1) := rfl
          have hB : setToIndexAux (cascade (i + 1) (c :: rest')) (i + 1) =
              setToIndexAux (c :: rest') (i + 2) + Nat.choose (c - 1) (i + 1) := by
            simpa only [List.headI] using ihIdx
          have hC : setToIndexAux (b :: c :: rest') (i + 1) =
              mcn (b - 1) (i + 1) + setToIndexAux (c :: rest') (i + 2) := rfl
          have hD : mcn (i - 1) i = 0 := by
            rw [mcn_eq_choose]; exact Nat.choose_eq_zero_of_lt (by omega)
          have hE : mcn (b - 1) (i + 1) = Nat.choose (b - 1) (i + 1) := mcn_eq_choose _ _
          have hF : Nat.choose (c - 1) (i + 1) =
              Nat.choose (b - 1) i + Nat.choose (b - 1) (i + 1) := by
            have hcb : c - 1 = b := by omega
            rw [hcb]; exact choose_pred_pascal b i (by omega)
          rw [hA, hB, hC, hD, hE, hF]
          omega

theorem incLoop_spec : ∀ (fuel add : ℕ) (s : List ℕ), add ≤ fuel →
    List.Pairwise (· < ·) s → (∀ x ∈ s, 1 ≤ x) → 2 ≤ s.length →
    (incLoop fuel add s).length = s.length ∧
    List.Pairwise (· < ·) (incLoop fuel add s) ∧
    (∀ x ∈ incLoop fuel add s, 1 ≤ x) ∧
    setToIndex (incLoop fuel add s) = setToIndex s + add := by
  intro fuel
  induction fuel with
  | zero =>
    intro add s hf hpw hpos _
    have h0 : add = 0 := by omega
    subst h0
    exact ⟨rfl, hpw, hpos, by show setToIndex s = setToIndex s + 0; omega⟩
  | succ fuel ih =>
    intro add s hf hpw hpos hlen
    by_cases h0 : add = 0
    · subst h0
      have hform : incLoop (fuel + 1) 0 s = s := by simp [incLoop]
      rw [hform]
      exact ⟨rfl, hpw, hpos, by omega⟩
    · obtain ⟨v0, v1, rest, rfl⟩ : ∃ v0 v1 rest, s = v0 :: v1 :: rest := by
        cases s with
        | nil => simp at hlen
        | cons a t =>
          cases t with
          | nil => simp at hlen
          | cons b u => exact ⟨a, b, u, rfl⟩
      have hv01 : v0 < v1 := (List.pairwise_cons.mp hpw).1 v1 (by simp)
      have hv0 : 1 ≤ v0 := hpos v0 (by simp)
      have hform : incLoop (fuel + 1) add (v0 :: v1 :: rest) =
          if add ≤ v1 - v0 - 1 then (v0 + add) :: v1 :: rest
          else incLoop fuel (add - (v1 - v0 - 1 + 1)) (cascade 1 (v1 :: rest)) := by
        simp only [incLoop, if_neg h0]
      by_cases hle : add ≤ v1 - v0 - 1
      · rw [hform, if_pos hle]
        refine ⟨rfl, ?_, ?_, ?_⟩
        · refine List.pairwise_cons.mpr ⟨?_, (List.pairwise_cons.mp hpw).2⟩
          intro y hy
          rcases List.mem_cons.mp hy with rfl | hy'
          · omega
          · have h1 := (List.pairwise_cons.mp (List.pairwise_cons.mp hpw).2).1 y hy'
            omega
        · intro x hx
          rcases List.mem_cons.mp hx with rfl | hx'
          · omega
          · exact hpos x (by simp [hx'])
        · have hx1 : setToIndex ((v0 + add) :: v1 :: rest) =
              mcn (v0 + add - 1) 1 + setToIndexAux (v1 :: rest) 2 := rfl
          have hx2 : setToIndex (v0 :: v1 :: rest) =
              mcn (v0 - 1) 1 + setToIndexAux (v1 :: rest) 2 := rfl
          rw [hx1, hx2, mcn_eq_choose, mcn_eq_choose,
            Nat.choose_one_right, Nat.choose_one_right]
          omega
      · rw [hform, if_neg hle]
        have hpw1 : List.Pairwise (· < ·) (v1 :: rest) := (List.pairwise_cons.mp hpw).2
        obtain ⟨cLen, cPw, cHead, cIdx⟩ := cascade_spec (v1 :: rest) 1 (le_refl 1)
          hpw1 (by simp) (by simp only [List.headI]; omega)
        have cPos : ∀ x ∈ cascade 1 (v1 :: rest), 1 ≤ x :=
          pairwise_lt_head_pos _ cPw (by omega)
        have cLen2 : 2 ≤ (cascade 1 (v1 :: rest)).length := by
          simp only [List.length_cons] at cLen
          omega
        obtain ⟨rLen, rPw, rPos, rIdx⟩ := ih (add - (v1 - v0 - 1 + 1))
          (cascade 1 (v1 :: rest)) (by omega) cPw cPos cLen2
        refine ⟨?_, rPw, rPos, ?_⟩
        · rw [rLen, cLen]; rfl
        · rw [rIdx]
          have hcIdx : setToIndex (cascade 1 (v1 :: rest)) =
              setToIndexAux (v1 :: rest) 2 + (v1 - 1) := by
            unfold setToIndex
            simp only [List.headI] at cIdx
            rw [cIdx, Nat.choose_one_right]
          have hsIdx : setToIndex (v0 :: v1 :: rest) =
              (v0 - 1) + setToIndexAux (v1 :: rest) 2 := by
            have h : setToIndex (v0 :: v1 :: rest) =
                mcn (v0 - 1) 1 + setToIndexAux (v1 :: rest) 2 := rfl
            rw [h, mcn_eq_choose, Nat.choose_one_right]
          rw [hcIdx, hsIdx]
          omega

/-- Full specification of `incSetValues` on nonempty ascending positive
inputs: the result keeps the length, stays ascending positive, and its
combinadic index is the input's index plus `add`. -/
theorem incSetValues_spec (s : List ℕ) (add : ℕ) (h : AscPos s) (hne : s ≠ []) :
    (incSetValues s add).length = s.length ∧
    AscPos (incSetValues s add) ∧
    setToIndex (incSetValues s add) = setToIndex s + add := by
  rcases (ascPos_iff s).mp h with ⟨hpw, hpos⟩
  match s with
  | [] => exact absurd rfl hne
  | [v] =>
    have hv : 1 ≤ v := hpos v (by simp)
    have hform : incSetValues [v] add = [v + add] := rfl
    rw [hform]
    refine ⟨rfl, (ascPos_iff _).mpr ⟨by simp, by intro x hx; simp at hx; omega⟩, ?_⟩
    have h1 : setToIndex [v + add] = mcn (v + add - 1) 1 + 0 := rfl
    have h2 : setToIndex [v] = mcn (v - 1) 1 + 0 := rfl
    rw [h1, h2, mcn_eq_choose, mcn_eq_choose, Nat.choose_one_right, Nat.choose_one_right]
    omega
  | v0 :: v1 :: rest =>
    have hform : incSetValues (v0 :: v1 :: rest) add = incLoop add add (v0 :: v1 :: rest) := rfl
    obtain ⟨hLen, hPw, hPos, hIdx⟩ := incLoop_spec add add (v0 :: v1 :: rest)
      (le_refl add) hpw hpos (by simp)
    rw [hform]
    exact ⟨hLen, (ascPos_iff _).mpr ⟨hPw, hPos⟩, hIdx⟩

/-- Claim C6 — increment equals index arithmetic: for every strictly
ascending tuple `s` of positive integers with `k = |s| ≥ 1` and every
`add`, `incSetValues s k add` is strictly ascending, its combinadic
index is `setToIndex s + add`, and it is the unique such ascending
positive `k`-tuple (i.e. exactly the tuple `add` positions later in the
combinadic ordering). -/
theorem claim_C6 (s : List ℕ) (k add : ℕ) (hlen : s.length = k) (hk : 1 ≤ k)
    (hasc : List.Chain' (· < ·) s) (hpos : ∀ x ∈ s, 1 ≤ x) :
    List.Chain' (· < ·) (incSetValues s add) ∧
    setToIndex (incSetValues s add) = setToIndex s + add ∧
    ∀ t, List.Chain' (· < ·) t → (∀ x ∈ t, 1 ≤ x) → t.length = k →
      (setToIndex t = setToIndex s + add ↔ t = incSetValues s add) := by
  have hne : s ≠ [] := by intro hnil; rw [hnil] at hlen; simp at hlen; omega
  obtain ⟨hLen, hAsc, hIdx⟩ := incSetValues_spec s add ⟨hasc, hpos⟩ hne
  refine ⟨hAsc.1, hIdx, ?_⟩
  intro t ht hpt hlt
  constructor
  · intro hidxt
    exact setToIndex_inj t (incSetValues s add) ⟨ht, hpt⟩ hAsc
      (by rw [hlt, hLen, hlen]) (by rw [hidxt, hIdx])
  · intro heq
    rw [heq, hIdx]

/-- Witness for claim C6 at `s = [1, 2, 3]`, `add = 4` (the result is
`[1, 3, 5]`, the set four positions later). -/
theorem claim_C6_witness :
    (([1, 2, 3] : List ℕ).length = 3 ∧ 1 ≤ 3 ∧
      List.Chain' (· < ·) [1, 2, 3] ∧ ∀ x ∈ ([1, 2, 3] : List ℕ), 1 ≤ x) ∧
    (List.Chain' (· < ·) (incSetValues [1, 2, 3] 4) ∧
     setToIndex (incSetValues [1, 2, 3] 4) = setToIndex [1, 2, 3] + 4 ∧
     ∀ t, List.Chain' (· < ·) t → (∀ x ∈ t, 1 ≤ x) → t.length = 3 →
       (setToIndex t = setToIndex [1, 2, 3] + 4 ↔ t = incSetValues [1, 2, 3] 4)) :=
  ⟨⟨by decide, by decide, by norm_num [List.chain'_cons], by decide⟩,
    claim_C6 [1, 2, 3] 3 4 (by decide) (by decide)
      (by norm_num [List.chain'_cons]) (by decide)⟩

/-- Counterexample for claim C9 as stated: the claim asserts
`sr_initialize(size)` fails for `size < 1`, but the code performs no
size validation — `sr_initialize 0` returns the ordinary unbound
record header (empty array, `size = varSize = 0`, `minM = 1`,
`maxM = 0`, no fixed values) instead of an error. -/
theorem claim_C9_counterexample :
    sr_initialize 0 =
      { recArr := [], size := 0, varSize := 0, mval_min := 1, mval_max := 0, fixedv := [] } :=
  rfl

/-- Claim C9 (amended) — `sr_initialize` performs no size validation:
for every size, including `0`, it returns the unbound record header
populated from the size (it can fail only on allocation failure, which
the model treats as succeeding). -/
theorem claim_C9 : ∀ size : ℕ,
    sr_initialize size =
      { recArr := [], size := size, varSize := size,
        mval_min := 1, mval_max := 0, fixedv := [] } :=
  fun _ => rfl

theorem byteMatches_zero_zero (cur : ℕ) : byteMatches 0 0 cur = true := by
  simp [byteMatches]

theorem queryLoop_count_all (rec : List ℕ) (varSize total : ℕ) :
    ∀ fuel i values, total ≤ i + fuel →
      (queryLoop rec varSize 1 total 0 0 fuel i values).1 = total - i := by
  intro fuel
  induction fuel with
  | zero =>
    intro i values h
    simp only [queryLoop]
    omega
  | succ fuel ih =>
    intro i values h
    by_cases hi : i < total
    · have hrec := ih (i + 1)
        (incSetValues (values.take varSize) 1 ++ values.drop varSize) (by omega)
      simp only [queryLoop, if_pos hi, byteMatches_zero_zero, if_pos]
      rw [hrec]
      omega
    · simp only [queryLoop, if_neg hi]
      omega

/-- Claim C5 — query matching rule and wildcard count: a byte `b`
matches iff `(b & mask) == (bits & mask)` when `mask ≠ 0`, iff
`(b & bits) ≠ 0` when `mask = 0` and `bits ≠ 0`, and always when
`mask = 0` and `bits = 0`; consequently a full `sr_query` with
`mask = 0`, `bits = 0` on any record returns the record's total
`T = C(maxM, varSize) − C(minM − 1, varSize)`. -/
theorem claim_C5 :
    (∀ mask bits b : ℕ, byteMatches mask bits b = true ↔
      ((mask ≠ 0 ∧ b &&& mask = bits &&& mask) ∨
       (mask = 0 ∧ bits ≠ 0 ∧ b &&& bits ≠ 0) ∨
       (mask = 0 ∧ bits = 0))) ∧
    (∀ base : SRBase, (sr_query base 0 0).1 = sr_getTotal base) := by
  constructor
  · intro mask bits b
    by_cases hm : mask = 0
    · subst hm
      by_cases hb : bits = 0
      · subst hb
        simp [byteMatches]
      · simp [byteMatches, hb]
    · simp [byteMatches, hm]
  · intro base
    have h := queryLoop_count_all base.recArr base.varSize
      (mcn base.mval_max base.varSize - mcn (base.mval_min - 1) base.varSize)
      (mcn base.mval_max base.varSize - mcn (base.mval_min - 1) base.varSize)
      0 (incSetValues ((indexToSet (base.varSize - 1) 0 ++ [base.mval_min]) ++ base.fixedv) 0)
      (by omega)
    unfold sr_query query sr_getTotal
    rw [h]
    omega

theorem getD_take_lt (l : List ℕ) (n i : ℕ) (h : i < n) :
    (l.take n).getD i 0 = l.getD i 0 := by
  rcases Nat.lt_or_ge i l.length with hi | hi
  · rw [List.getD_eq_getElem l 0 hi,
      List.getD_eq_getElem (l.take n) 0 (by simp; omega)]
    simp
  · rw [List.getD_eq_default l 0 hi, List.getD_eq_default (l.take n) 0 (by simp; omega)]

theorem getD_last_concat (t : List ℕ) (v : ℕ) :
    (t ++ [v]).getD t.length 0 = v := by
  rw [List.getD_eq_getElem (t ++ [v]) 0 (by simp)]
  simp

/-- Fetch-or result characterization: `(prev & mask) ≠ mask` exactly
when some bit of the mask is clear in `prev`. -/
theorem land_ne_iff (prev mask : ℕ) :
    prev &&& mask ≠ mask ↔ ∃ k, mask.testBit k = true ∧ prev.testBit k = false := by
  have hpos : prev &&& mask = mask ↔
      ∀ k, mask.testBit k = true → prev.testBit k = true := by
    constructor
    · intro heq k hk
      have h1 : (prev &&& mask).testBit k = mask.testBit k := by rw [heq]
      rw [Nat.testBit_and, hk] at h1
      simpa using h1
    · intro hall
      refine Nat.eq_of_testBit_eq ?_
      intro k
      rw [Nat.testBit_and]
      cases hk : mask.testBit k
      · simp
      · simp [hall k hk]
  constructor
  · intro hne
    rcases Classical.em (∃ k, mask.testBit k = true ∧ prev.testBit k = false) with h | h
    · exact h
    · exfalso
      apply hne
      rw [hpos]
      intro k hk
      by_contra hc
      exact h ⟨k, hk, by simpa using hc⟩
  · rintro ⟨k, hk1, hk2⟩ heq
    have := (hpos.mp heq) k hk1
    rw [this] at hk2
    cases hk2

theorem ascPos_take (s : List ℕ) (n : ℕ) (h : AscPos s) : AscPos (s.take n) := by
  rcases (ascPos_iff s).mp h with ⟨hpw, hpos⟩
  refine (ascPos_iff _).mpr ⟨hpw.sublist (List.take_sublist n s), ?_⟩
  intro x hx
  exact hpos x ((List.take_sublist n s).mem hx)

/-- Claim C3 — `sr_mark` semantics on an allocated record.  For every
strictly ascending positive full-size input set: if the variable
segment's M-value is outside `[minM, maxM]` or the fixed tail differs,
`sr_mark` returns 0 and leaves the record unchanged; otherwise it ORs
the mask into the byte at offset
`setToIndex(variable prefix) − C(minM − 1, varSize)` (an in-bounds
offset), and the returned value is 1 exactly when `prev & mask ≠ mask`,
which holds iff at least one bit of the mask was previously clear.
Invalid inputs (wrong size, non-positive, non-ascending) give `-1`
with the record unchanged. -/
theorem claim_C3 (b : SRBase) (hb : Allocated b) :
    (∀ set mask, set.length = b.size → List.Chain' (· < ·) set → (∀ x ∈ set, 1 ≤ x) →
      (((b.mval_max < set.getD (b.varSize - 1) 0 ∨ set.getD (b.varSize - 1) 0 < b.mval_min) ∨
          set.drop b.varSize ≠ b.fixedv) →
        sr_mark b set mask = (0, b)) ∧
      (b.mval_min ≤ set.getD (b.varSize - 1) 0 → set.getD (b.varSize - 1) 0 ≤ b.mval_max →
       set.drop b.varSize = b.fixedv →
        setToIndex (set.take b.varSize) - mcn (b.mval_min - 1) b.varSize < b.recArr.length ∧
        sr_mark b set mask =
          ((if (b.recArr.getD (setToIndex (set.take b.varSize) -
                mcn (b.mval_min - 1) b.varSize) 0) &&& mask ≠ mask then 1 else 0),
           { b with recArr := (b.recArr.set
              (setToIndex (set.take b.varSize) - mcn (b.mval_min - 1) b.varSize)
              ((b.recArr.getD (setToIndex (set.take b.varSize) -
                mcn (b.mval_min - 1) b.varSize) 0) ||| mask)) }) ∧
        ((b.recArr.getD (setToIndex (set.take b.varSize) -
            mcn (b.mval_min - 1) b.varSize) 0) &&& mask ≠ mask ↔
          ∃ k, mask.testBit k = true ∧
            (b.recArr.getD (setToIndex (set.take b.varSize) -
              mcn (b.mval_min - 1) b.varSize) 0).testBit k = false))) ∧
    (∀ set mask, (set.length ≠ b.size ∨ set.getD 0 0 < 1 ∨ ¬ List.Chain' (· < ·) set) →
      sr_mark b set mask = (-1, b)) := by
  obtain ⟨hvs1, hvsmin, hminmax, hsizes, hfix4, hfchain, hreclen⟩ := hb
  constructor
  · intro set mask hlen hasc hpos
    have hvsize : b.varSize ≤ b.size := by omega
    have hne : set ≠ [] := by
      intro hnil
      rw [hnil] at hlen
      simp at hlen
      omega
    have hpos0 : ¬ set.getD 0 0 < 1 := by
      cases set with
      | nil => exact absurd rfl hne
      | cons x t =>
        have := hpos x (by simp)
        simp only [List.getD_cons_zero]
        omega
    constructor
    · -- out-of-range / fixed mismatch: silently skipped
      intro hcase
      unfold sr_mark
      rw [if_neg (by omega), if_neg hpos0, if_neg (by exact fun hn => hn hasc)]
      rcases hcase with hcase | hcase
      · rw [if_pos hcase]
      · by_cases hr : b.mval_max < set.getD (b.varSize - 1) 0 ∨
            set.getD (b.varSize - 1) 0 < b.mval_min
        · rw [if_pos hr]
        · rw [if_neg hr, if_pos hcase]
    · -- addressable set: the mark happens
      intro hge hle hfixed
      have hred : sr_mark b set mask =
          ((markOp b.recArr b.mval_min set b.varSize mask).1,
           { b with recArr := (markOp b.recArr b.mval_min set b.varSize mask).2 }) := by
        unfold sr_mark
        rw [if_neg (by omega), if_neg hpos0, if_neg (by exact fun hn => hn hasc),
          if_neg (by omega), if_neg (by exact fun hn => hn hfixed)]
      -- bounds on the offset
      have hplen : (set.take b.varSize).length = b.varSize := by
        rw [List.length_take]
        omega
      have hpne : set.take b.varSize ≠ [] := by
        intro hnil
        rw [hnil] at hplen
        simp at hplen
        omega
      have hpasc : AscPos (set.take b.varSize) := ascPos_take set b.varSize ⟨hasc, hpos⟩
      obtain ⟨t, v, hdecomp⟩ : ∃ t v, set.take b.varSize = t ++ [v] := by
        rcases List.eq_nil_or_concat (set.take b.varSize) with h | ⟨t, v, h⟩
        · exact absurd h hpne
        · exact ⟨t, v, by rw [h, List.concat_eq_append]⟩
      have htlen : t.length + 1 = b.varSize := by
        rw [hdecomp] at hplen
        simpa using hplen
      have hvval : set.getD (b.varSize - 1) 0 = v := by
        have h1 : (set.take b.varSize).getD (b.varSize - 1) 0 = set.getD (b.varSize - 1) 0 :=
          getD_take_lt set b.varSize (b.varSize - 1) (by omega)
        have h2 : (set.take b.varSize).getD (b.varSize - 1) 0 = v := by
          rw [hdecomp]
          have : b.varSize - 1 = t.length := by omega
          rw [this]
          exact getD_last_concat t v
        rw [← h1, h2]
      have hupper : setToIndex (set.take b.varSize) < Nat.choose b.mval_max b.varSize := by
        rw [hdecomp]
        have := setToIndex_lt_choose t v b.mval_max (by rw [← hdecomp]; exact hpasc)
          (by omega)
        rw [htlen] at this
        exact this
      have hlower : Nat.choose (b.mval_min - 1) b.varSize ≤ setToIndex (set.take b.varSize) := by
        have h1 : Nat.choose (v - 1) b.varSize ≤ setToIndex (set.take b.varSize) := by
          rw [hdecomp]
          have := choose_le_setToIndex t v
          rw [htlen] at this
          exact this
        have h2 : Nat.choose (b.mval_min - 1) b.varSize ≤ Nat.choose (v - 1) b.varSize :=
          Nat.choose_le_choose _ (by omega)
        omega
      have hoff : setToIndex (set.take b.varSize) - mcn (b.mval_min - 1) b.varSize <
          b.recArr.length := by
        rw [hreclen]
        unfold sr_getTotal
        rw [mcn_eq_choose, mcn_eq_choose]
        omega
      refine ⟨hoff, ?_, land_ne_iff _ mask⟩
      rw [hred]
      rfl
  · -- invalid inputs are rejected
    intro set mask hbad
    unfold sr_mark
    by_cases h1 : set.length ≠ b.size
    · rw [if_pos h1]
    · rw [if_neg h1]
      by_cases h2 : set.getD 0 0 < 1
      · rw [if_pos h2]
      · rw [if_neg h2]
        have h3 : ¬ List.Chain' (· < ·) set := by tauto
        rw [if_pos h3]

/-- Witness for claim C3: a size-1 record over M-range `[1, 3]` with
bytes `[0, 2, 255]`.  `W3` abbreviates the record literal inside this
statement via a `let`. -/
theorem claim_C3_witness :
    (let W3 : SRBase := { recArr := [0, 2, 255], size := 1, varSize := 1,
                          mval_min := 1, mval_max := 3, fixedv := [] }
     Allocated W3 ∧
     (
    (∀ set mask, set.length = W3.size → List.Chain' (· < ·) set → (∀ x ∈ set, 1 ≤ x) →
      (((W3.mval_max < set.getD (W3.varSize - 1) 0 ∨ set.getD (W3.varSize - 1) 0 < W3.mval_min) ∨
          set.drop W3.varSize ≠ W3.fixedv) →
        sr_mark W3 set mask = (0, W3)) ∧
      (W3.mval_min ≤ set.getD (W3.varSize - 1) 0 → set.getD (W3.varSize - 1) 0 ≤ W3.mval_max →
       set.drop W3.varSize = W3.fixedv →
        setToIndex (set.take W3.varSize) - mcn (W3.mval_min - 1) W3.varSize < W3.recArr.length ∧
        sr_mark W3 set mask =
          ((if (W3.recArr.getD (setToIndex (set.take W3.varSize) -
                mcn (W3.mval_min - 1) W3.varSize) 0) &&& mask ≠ mask then 1 else 0),
           { W3 with recArr := (W3.recArr.set
              (setToIndex (set.take W3.varSize) - mcn (W3.mval_min - 1) W3.varSize)
              ((W3.recArr.getD (setToIndex (set.take W3.varSize) -
                mcn (W3.mval_min - 1) W3.varSize) 0) ||| mask)) }) ∧
        ((W3.recArr.getD (setToIndex (set.take W3.varSize) -
            mcn (W3.mval_min - 1) W3.varSize) 0) &&& mask ≠ mask ↔
          ∃ k, mask.testBit k = true ∧
            (W3.recArr.getD (setToIndex (set.take W3.varSize) -
              mcn (W3.mval_min - 1) W3.varSize) 0).testBit k = false))) ∧
    (∀ set mask, (set.length ≠ W3.size ∨ set.getD 0 0 < 1 ∨ ¬ List.Chain' (· < ·) set) →
      sr_mark W3 set mask = (-1, W3)))) := by
  intro W3
  have hb : Allocated W3 :=
    ⟨by decide, by decide, by decide, by decide, by decide, by simp, by decide⟩
  exact ⟨hb, claim_C3 W3 hb⟩

theorem setToIndexAux_append_gen (s : List ℕ) :
    ∀ (t : List ℕ) (j : ℕ),
      setToIndexAux (s ++ t) j = setToIndexAux s j + setToIndexAux t (j + s.length) := by
  induction s with
  | nil => intro t j; simp [setToIndexAux]
  | cons a s ih =>
    intro t j
    have h1 : setToIndexAux ((a :: s) ++ t) j =
        mcn (a - 1) j + setToIndexAux (s ++ t) (j + 1) := rfl
    have h2 : setToIndexAux (a :: s) j = mcn (a - 1) j + setToIndexAux s (j + 1) := rfl
    have h3 : j + 1 + s.length = j + (s.length + 1) := by omega
    rw [h1, ih t (j + 1), h2, h3]
    simp only [List.length_cons]
    omega

/-- Advancing `indexToSet varSize m` by `add` lands on
`indexToSet varSize (m + add)`. -/
theorem incSetValues_indexToSet (varSize m add : ℕ) (h : 1 ≤ varSize) :
    incSetValues (indexToSet varSize m) add = indexToSet varSize (m + add) := by
  obtain ⟨k, rfl⟩ : ∃ k, varSize = k + 1 := ⟨varSize - 1, by omega⟩
  obtain ⟨hAsc1, hIdx1, _⟩ := indexToSet_spec k m
  obtain ⟨hAsc2, hIdx2, _⟩ := indexToSet_spec k (m + add)
  have hne : indexToSet (k + 1) m ≠ [] := by
    intro hnil
    have := indexToSet_length (k + 1) m
    rw [hnil] at this
    simp at this
  obtain ⟨hLen, hAsc, hIdx⟩ := incSetValues_spec (indexToSet (k + 1) m) add hAsc1 hne
  refine setToIndex_inj _ _ hAsc hAsc2 ?_ ?_
  · rw [hLen, indexToSet_length, indexToSet_length]
  · rw [hIdx, hIdx1, hIdx2]

/-- Characterization of the scan loop: started on the value cursor for
combinadic index `n0 + i`, it emits, for each visited matching index
`j`, the pair (set at index `n0 + j` with the fixed tail, byte at `j`),
and counts the matches. -/
theorem queryLoop_char (rec : List ℕ) (fixedv : List ℕ) (varSize skip total mask bits : ℕ)
    (hvs : 1 ≤ varSize) : ∀ fuel i n0,
    queryLoop rec varSize skip total mask bits fuel i (indexToSet varSize (n0 + i) ++ fixedv) =
      (((idxSeq skip total fuel i).filter
          (fun j => byteMatches mask bits (rec.getD j 0))).length,
       ((idxSeq skip total fuel i).filter
          (fun j => byteMatches mask bits (rec.getD j 0))).map
         (fun j => (indexToSet varSize (n0 + j) ++ fixedv, rec.getD j 0))) := by
  intro fuel
  induction fuel with
  | zero =>
    intro i n0
    simp [queryLoop, idxSeq]
  | succ fuel ih =>
    intro i n0
    by_cases hi : i < total
    · have hvalues : incSetValues ((indexToSet varSize (n0 + i) ++ fixedv).take varSize) skip ++
          (indexToSet varSize (n0 + i) ++ fixedv).drop varSize =
          indexToSet varSize (n0 + (i + skip)) ++ fixedv := by
        have hlen : (indexToSet varSize (n0 + i)).length = varSize := indexToSet_length _ _
        have htake : (indexToSet varSize (n0 + i) ++ fixedv).take varSize =
            indexToSet varSize (n0 + i) := List.take_left' hlen
        have hdrop : (indexToSet varSize (n0 + i) ++ fixedv).drop varSize = fixedv :=
          List.drop_left' hlen
        rw [htake, hdrop, incSetValues_indexToSet varSize (n0 + i) skip hvs]
        have : n0 + i + skip = n0 + (i + skip) := by omega
        rw [this]
      have hrec := ih (i + skip) n0
      simp only [queryLoop, if_pos hi, hvalues, hrec, idxSeq]
      split
      · rename_i hm
        have hm' : byteMatches mask bits (rec[i]?.getD 0) = true := by
          rw [← List.getD_eq_getElem?_getD]; exact hm
        simp [List.filter_cons, hm']
      · rename_i hm
        have hm' : ¬ byteMatches mask bits (rec[i]?.getD 0) = true := by
          rw [← List.getD_eq_getElem?_getD]; exact hm
        simp [List.filter_cons, hm']
    · simp [queryLoop, idxSeq, if_neg hi]

theorem queryLoop_oob (rec : List ℕ) (varSize skip total mask bits : ℕ) :
    ∀ fuel i values, total ≤ i →
      queryLoop rec varSize skip total mask bits fuel i values = (0, []) := by
  intro fuel i values h
  cases fuel with
  | zero => rfl
  | succ fuel => simp [queryLoop, show ¬ i < total by omega]

theorem idxSeq_oob (skip total : ℕ) :
    ∀ fuel i, total ≤ i → idxSeq skip total fuel i = [] := by
  intro fuel i h
  cases fuel with
  | zero => rfl
  | succ fuel => simp [idxSeq, show ¬ i < total by omega]

theorem prefix0_spec (varSize minm : ℕ) (hvs : 1 ≤ varSize) (hminm : varSize ≤ minm) :
    AscPos (indexToSet (varSize - 1) 0 ++ [minm]) ∧
    (indexToSet (varSize - 1) 0 ++ [minm]).length = varSize ∧
    setToIndex (indexToSet (varSize - 1) 0 ++ [minm]) = Nat.choose (minm - 1) varSize ∧
    (∀ x ∈ indexToSet (varSize - 1) 0 ++ [minm], x ≤ minm) := by
  have hAlen : (indexToSet (varSize - 1) 0).length = varSize - 1 := indexToSet_length _ _
  have hA : AscPos (indexToSet (varSize - 1) 0) ∧
      (∀ x ∈ indexToSet (varSize - 1) 0, x ≤ varSize - 1) ∧
      setToIndex (indexToSet (varSize - 1) 0) = 0 := by
    rcases Nat.eq_or_lt_of_le hvs with h1 | h1
    · have hz : varSize - 1 = 0 := by omega
      rw [hz]
      have hnil : indexToSet 0 0 = ([] : List ℕ) := rfl
      rw [hnil]
      exact ⟨⟨by simp, by simp⟩, by simp, rfl⟩
    · obtain ⟨k, hk⟩ : ∃ k, varSize - 1 = k + 1 := ⟨varSize - 2, by omega⟩
      rw [hk]
      obtain ⟨hAsc, hIdx, hBound⟩ := indexToSet_spec k 0
      refine ⟨hAsc, ?_, hIdx⟩
      intro x hx
      have := hBound (k + 1) (by simp [Nat.choose_self]) x hx
      omega
  obtain ⟨hAasc, hAbound, hAidx⟩ := hA
  have hasc : AscPos (indexToSet (varSize - 1) 0 ++ [minm]) := by
    rcases (ascPos_iff _).mp hAasc with ⟨hpw, hpos⟩
    refine (ascPos_iff _).mpr ⟨?_, ?_⟩
    · rw [List.pairwise_append]
      refine ⟨hpw, by simp, ?_⟩
      intro a ha b hb
      simp only [List.mem_singleton] at hb
      subst hb
      have := hAbound a ha
      omega
    · intro x hx
      rcases List.mem_append.mp hx with h | h
      · exact hpos x h
      · simp only [List.mem_singleton] at h
        omega
  refine ⟨hasc, by simp [hAlen]; omega, ?_, ?_⟩
  · unfold setToIndex
    rw [setToIndexAux_append, hAlen]
    have h1 : setToIndexAux (indexToSet (varSize - 1) 0) 1 = 0 := hAidx
    rw [h1, mcn_eq_choose]
    have h2 : 1 + (varSize - 1) = varSize := by omega
    rw [h2]
    omega
  · intro x hx
    rcases List.mem_append.mp hx with h | h
    · have := hAbound x h
      omega
    · simp only [List.mem_singleton] at h
      omega

/-- Characterization of the `query` helper on a well-formed record
configuration: the result counts the matching bytes among the visited
indices, and emits exactly the set at combinadic index
`C(minM − 1, varSize) + j` (plus the fixed tail) with the byte at `j`,
for each visited matching `j`. -/
theorem query_char (rec : List ℕ) (minm maxm varSize : ℕ) (fixedv : List ℕ)
    (offset skip mask bits : ℕ)
    (hvs : 1 ≤ varSize) (hminm : varSize ≤ minm)
    (hfchain : List.Chain' (· < ·) (maxm :: fixedv)) :
    query rec minm maxm varSize fixedv offset skip mask bits =
      (((idxSeq skip (mcn maxm varSize - mcn (minm - 1) varSize)
            (mcn maxm varSize - mcn (minm - 1) varSize) offset).filter
          (fun j => byteMatches mask bits (rec.getD j 0))).length,
       ((idxSeq skip (mcn maxm varSize - mcn (minm - 1) varSize)
            (mcn maxm varSize - mcn (minm - 1) varSize) offset).filter
          (fun j => byteMatches mask bits (rec.getD j 0))).map
         (fun j => (indexToSet varSize (Nat.choose (minm - 1) varSize + j) ++ fixedv,
                    rec.getD j 0))) := by
  by_cases hoff : mcn maxm varSize - mcn (minm - 1) varSize ≤ offset
  · rw [idxSeq_oob _ _ _ _ hoff]
    unfold query
    rw [queryLoop_oob _ _ _ _ _ _ _ _ _ hoff]
    rfl
  · push_neg at hoff
    -- nonempty region, so minm ≤ maxm and the fixed values exceed minm
    have hchoose : Nat.choose (minm - 1) varSize < Nat.choose maxm varSize := by
      have h := hoff
      rw [mcn_eq_choose, mcn_eq_choose] at h
      omega
    have hmm : minm ≤ maxm := by
      by_contra hc
      push_neg at hc
      have : Nat.choose maxm varSize ≤ Nat.choose (minm - 1) varSize :=
        Nat.choose_le_choose _ (by omega)
      omega
    obtain ⟨hP0asc, hP0len, hP0idx, hP0bound⟩ := prefix0_spec varSize minm hvs hminm
    rcases List.pairwise_cons.mp ((ascPos_chain_iff _).mp hfchain) with ⟨hfgt, hfpw⟩
    -- the input cursor advanced by offset is the cursor of index base0 + offset
    have hinit : incSetValues ((indexToSet (varSize - 1) 0 ++ [minm]) ++ fixedv) offset =
        indexToSet varSize (Nat.choose (minm - 1) varSize + offset) ++ fixedv := by
      have hvasc : AscPos ((indexToSet (varSize - 1) 0 ++ [minm]) ++ fixedv) := by
        rcases (ascPos_iff _).mp hP0asc with ⟨hpw0, hpos0⟩
        refine (ascPos_iff _).mpr ⟨?_, ?_⟩
        · rw [List.pairwise_append]
          refine ⟨hpw0, hfpw, ?_⟩
          intro a ha f hf
          have h1 := hP0bound a ha
          have h2 := hfgt f hf
          omega
        · intro x hx
          rcases List.mem_append.mp hx with h | h
          · exact hpos0 x h
          · have := hfgt x h
            omega
      have hvne : (indexToSet (varSize - 1) 0 ++ [minm]) ++ fixedv ≠ [] := by simp
      obtain ⟨hiLen, hiAsc, hiIdx⟩ :=
        incSetValues_spec ((indexToSet (varSize - 1) 0 ++ [minm]) ++ fixedv) offset hvasc hvne
      obtain ⟨k, rfl⟩ : ∃ k, varSize = k + 1 := ⟨varSize - 1, by omega⟩
      obtain ⟨hRasc, hRidx, hRbound0⟩ :=
        indexToSet_spec k (Nat.choose (minm - 1) (k + 1) + offset)
      have hRlen : (indexToSet (k + 1) (Nat.choose (minm - 1) (k + 1) + offset)).length =
          k + 1 := indexToSet_length _ _
      have hRboundM : ∀ x ∈ indexToSet (k + 1) (Nat.choose (minm - 1) (k + 1) + offset),
          x ≤ maxm := by
        refine hRbound0 maxm ?_
        have h := hoff
        rw [mcn_eq_choose, mcn_eq_choose] at h
        omega
      have hRF : AscPos (indexToSet (k + 1) (Nat.choose (minm - 1) (k + 1) + offset) ++ fixedv) := by
        rcases (ascPos_iff _).mp hRasc with ⟨hpwR, hposR⟩
        refine (ascPos_iff _).mpr ⟨?_, ?_⟩
        · rw [List.pairwise_append]
          refine ⟨hpwR, hfpw, ?_⟩
          intro a ha f hf
          have h1 := hRboundM a ha
          have h2 := hfgt f hf
          omega
        · intro x hx
          rcases List.mem_append.mp hx with h | h
          · exact hposR x h
          · have := hfgt x h
            omega
      refine setToIndex_inj _ _ hiAsc hRF ?_ ?_
      · rw [hiLen]
        simp only [List.length_append, List.length_cons, hRlen, hP0len]
      · have hLside : setToIndex ((indexToSet (k + 1 - 1) 0 ++ [minm]) ++ fixedv) =
            Nat.choose (minm - 1) (k + 1) + setToIndexAux fixedv (1 + (k + 1)) := by
          unfold setToIndex
          rw [setToIndexAux_append_gen (indexToSet (k + 1 - 1) 0 ++ [minm]) fixedv 1, hP0len]
          have h1 : setToIndexAux (indexToSet (k + 1 - 1) 0 ++ [minm]) 1 =
              Nat.choose (minm - 1) (k + 1) := hP0idx
          rw [h1]
        have hRside : setToIndex
            (indexToSet (k + 1) (Nat.choose (minm - 1) (k + 1) + offset) ++ fixedv) =
            (Nat.choose (minm - 1) (k + 1) + offset) + setToIndexAux fixedv (1 + (k + 1)) := by
          unfold setToIndex
          rw [setToIndexAux_append_gen
            (indexToSet (k + 1) (Nat.choose (minm - 1) (k + 1) + offset)) fixedv 1, hRlen]
          have h2 : setToIndexAux
              (indexToSet (k + 1) (Nat.choose (minm - 1) (k + 1) + offset)) 1 =
              Nat.choose (minm - 1) (k + 1) + offset := hRidx
          rw [h2]
        rw [hiIdx, hLside, hRside]
        omega
    have hchar := queryLoop_char rec fixedv varSize skip
      (mcn maxm varSize - mcn (minm - 1) varSize) mask bits hvs
      (mcn maxm varSize - mcn (minm - 1) varSize) offset (Nat.choose (minm - 1) varSize)
    simp only [query]
    rw [hinit, hchar]

theorem idxSeq_count (skip total : ℕ) (hskip : 1 ≤ skip) :
    ∀ fuel i x, total ≤ i + fuel →
      Multiset.count x (↑(idxSeq skip total fuel i) : Multiset ℕ) =
        if i ≤ x ∧ x < total ∧ skip ∣ (x - i) then 1 else 0 := by
  intro fuel
  induction fuel with
  | zero =>
    intro i x h
    rw [show idxSeq skip total 0 i = [] from rfl]
    rw [if_neg (by rintro ⟨h1, h2, -⟩; omega)]
    rfl
  | succ fuel ih =>
    intro i x h
    by_cases hi : i < total
    · rw [show idxSeq skip total (fuel + 1) i = i :: idxSeq skip total fuel (i + skip) by
        simp [idxSeq, hi]]
      rw [show (↑(i :: idxSeq skip total fuel (i + skip)) : Multiset ℕ) =
        i ::ₘ ↑(idxSeq skip total fuel (i + skip)) from rfl]
      rw [Multiset.count_cons, ih (i + skip) x (by omega)]
      by_cases hx : x = i
      · subst hx
        have hc1 : ¬(x + skip ≤ x ∧ x < total ∧ skip ∣ x - (x + skip)) := by
          rintro ⟨h1, -, -⟩; omega
        have hc3 : x ≤ x ∧ x < total ∧ skip ∣ x - x := ⟨le_refl x, hi, by simp⟩
        rw [if_neg hc1, if_pos hc3, if_pos rfl]
      · have hiff : (i + skip ≤ x ∧ x < total ∧ skip ∣ x - (i + skip)) ↔
            (i ≤ x ∧ x < total ∧ skip ∣ x - i) := by
          constructor
          · rintro ⟨h1, h2, q, hq⟩
            refine ⟨by omega, h2, q + 1, ?_⟩
            rw [Nat.mul_succ]
            omega
          · rintro ⟨h1, h2, q, hq⟩
            have hxi : i < x := by omega
            rcases q with - | q'
            · omega
            · rw [Nat.mul_succ] at hq
              exact ⟨by omega, h2, q', by omega⟩
        rw [if_neg hx]
        by_cases hcond : i ≤ x ∧ x < total ∧ skip ∣ x - i
        · rw [if_pos hcond, if_pos (hiff.mpr hcond)]
        · rw [if_neg hcond, if_neg (fun hc => hcond (hiff.mp hc))]
    · rw [idxSeq_oob skip total (fuel + 1) i (by omega)]
      rw [if_neg (by rintro ⟨h1, h2, -⟩; omega)]
      rfl

theorem idxSeq_partition (total W : ℕ) (hW : 1 ≤ W) :
    ∑ w ∈ Finset.range W, (↑(idxSeq W total total w) : Multiset ℕ) =
      (↑(idxSeq 1 total total 0) : Multiset ℕ) := by
  refine Multiset.ext.mpr ?_
  intro x
  rw [Multiset.count_sum']
  rw [idxSeq_count 1 total (le_refl 1) total 0 x (by omega)]
  have hterm : ∀ w ∈ Finset.range W,
      Multiset.count x (↑(idxSeq W total total w) : Multiset ℕ) =
        if w ≤ x ∧ x < total ∧ W ∣ x - w then 1 else 0 := by
    intro w hw
    exact idxSeq_count W total hW total w x
      (by simp only [Finset.mem_range] at hw; omega)
  rw [Finset.sum_congr rfl hterm]
  by_cases hx : x < total
  · rw [if_pos ⟨by omega, hx, one_dvd _⟩]
    rw [Finset.sum_eq_single_of_mem (x % W)
      (Finset.mem_range.mpr (Nat.mod_lt x (by omega)))]
    · rw [if_pos ⟨Nat.mod_le x W, hx, Nat.dvd_sub_mod x⟩]
    · intro w hw hne
      rw [if_neg]
      rintro ⟨h1, -, q, hq⟩
      apply hne
      have hxq : x = w + W * q := by omega
      have : x % W = w % W := by
        rw [hxq, Nat.add_mul_mod_self_left]
      rw [this, Nat.mod_eq_of_lt (Finset.mem_range.mp hw)]
  · rw [if_neg (by rintro ⟨-, h2, -⟩; omega)]
    refine Finset.sum_eq_zero ?_
    intro w hw
    rw [if_neg (by rintro ⟨-, h2, -⟩; omega)]

theorem multiset_map_finsum {α : Type} (F : ℕ → α) (n : ℕ) (g : ℕ → Multiset ℕ) :
    ∑ w ∈ Finset.range n, (g w).map F = (∑ w ∈ Finset.range n, g w).map F := by
  induction n with
  | zero => simp
  | succ n ih => rw [Finset.sum_range_succ, Finset.sum_range_succ, Multiset.map_add, ih]

theorem multiset_filter_finsum (p : ℕ → Prop) [DecidablePred p] (n : ℕ)
    (g : ℕ → Multiset ℕ) :
    ∑ w ∈ Finset.range n, (g w).filter p = (∑ w ∈ Finset.range n, g w).filter p := by
  induction n with
  | zero => simp
  | succ n ih => rw [Finset.sum_range_succ, Finset.sum_range_succ, Multiset.filter_add, ih]

theorem multiset_card_finsum (n : ℕ) (g : ℕ → Multiset ℕ) :
    ∑ w ∈ Finset.range n, Multiset.card (g w) = Multiset.card (∑ w ∈ Finset.range n, g w) := by
  induction n with
  | zero => simp
  | succ n ih => rw [Finset.sum_range_succ, Finset.sum_range_succ, Multiset.card_add, ih]

/-- Claim C4 — parallel scan decomposition: for every allocated record,
every mask/bits pair and every stride `W ≥ 1`, the counts returned by
the `W` strided scans `sr_query_parallel` sum to the count of the full
`sr_query`, and the combined multiset of emitted (set, byte) pairs over
the strided scans equals the multiset emitted by the full scan. -/
theorem claim_C4 (b : SRBase) (hb : Allocated b) (mask bits W : ℕ) (hW : 1 ≤ W) :
    (∑ w ∈ Finset.range W, ((sr_query_parallel b mask bits W w).getD (0, [])).1) =
      (sr_query b mask bits).1 ∧
    (∑ w ∈ Finset.range W,
        (↑((sr_query_parallel b mask bits W w).getD (0, [])).2 : Multiset (List ℕ × ℕ))) =
      (↑(sr_query b mask bits).2 : Multiset (List ℕ × ℕ)) := by
  obtain ⟨hvs, hminm, hminmax, hsizes, hfix4, hfchain, hreclen⟩ := hb
  have hchar := fun offset skip =>
    query_char b.recArr b.mval_min b.mval_max b.varSize b.fixedv offset skip mask bits
      hvs hminm hfchain
  have hfull : sr_query b mask bits =
      query b.recArr b.mval_min b.mval_max b.varSize b.fixedv 0 1 mask bits := rfl
  have hpar : ∀ w, w < W → (sr_query_parallel b mask bits W w).getD (0, []) =
      query b.recArr b.mval_min b.mval_max b.varSize b.fixedv w W mask bits := by
    intro w hw
    unfold sr_query_parallel
    rw [if_neg (by omega)]
    rfl
  -- abbreviations
  have hsum2 : ∀ w ∈ Finset.range W,
      (↑((sr_query_parallel b mask bits W w).getD (0, [])).2 : Multiset (List ℕ × ℕ)) =
        Multiset.map
          (fun j => (indexToSet b.varSize (Nat.choose (b.mval_min - 1) b.varSize + j) ++
              b.fixedv, b.recArr.getD j 0))
          (Multiset.filter (fun j => byteMatches mask bits (b.recArr.getD j 0) = true)
            (↑(idxSeq W (mcn b.mval_max b.varSize - mcn (b.mval_min - 1) b.varSize)
                (mcn b.mval_max b.varSize - mcn (b.mval_min - 1) b.varSize) w))) := by
    intro w hw
    rw [hpar w (Finset.mem_range.mp hw), hchar w W]
    simp [Multiset.map_coe, Multiset.filter_coe]
  have hsum1 : ∀ w ∈ Finset.range W,
      ((sr_query_parallel b mask bits W w).getD (0, [])).1 =
        Multiset.card
          (Multiset.filter (fun j => byteMatches mask bits (b.recArr.getD j 0) = true)
            (↑(idxSeq W (mcn b.mval_max b.varSize - mcn (b.mval_min - 1) b.varSize)
                (mcn b.mval_max b.varSize - mcn (b.mval_min - 1) b.varSize) w))) := by
    intro w hw
    rw [hpar w (Finset.mem_range.mp hw), hchar w W]
    simp [Multiset.filter_coe]
  have hpart := idxSeq_partition
    (mcn b.mval_max b.varSize - mcn (b.mval_min - 1) b.varSize) W hW
  constructor
  · rw [Finset.sum_congr rfl hsum1, hfull, hchar 0 1]
    rw [multiset_card_finsum, multiset_filter_finsum, hpart]
    simp [Multiset.filter_coe]
  · rw [Finset.sum_congr rfl hsum2, hfull, hchar 0 1]
    rw [multiset_map_finsum, multiset_filter_finsum, hpart]
    simp [Multiset.map_coe, Multiset.filter_coe]

/-- Witness for claim C4: a size-1 record over M-range `[1, 4]` with
bytes `[1, 0, 3, 1]`, scanned with mask 1, bits 1 and stride `W = 2`. -/
theorem claim_C4_witness :
    (let W4 : SRBase := { recArr := [1, 0, 3, 1], size := 1, varSize := 1,
                          mval_min := 1, mval_max := 4, fixedv := [] }
     Allocated W4 ∧ 1 ≤ 2 ∧
     ((∑ w ∈ Finset.range 2, ((sr_query_parallel W4 1 1 2 w).getD (0, [])).1) =
        (sr_query W4 1 1).1 ∧
      (∑ w ∈ Finset.range 2,
          (↑((sr_query_parallel W4 1 1 2 w).getD (0, [])).2 : Multiset (List ℕ × ℕ))) =
        (↑(sr_query W4 1 1).2 : Multiset (List ℕ × ℕ)))) := by
  intro W4
  have hb : Allocated W4 :=
    ⟨by decide, by decide, by decide, by decide, by decide, by simp, by decide⟩
  exact ⟨hb, by decide, claim_C4 W4 hb 1 1 2 (by decide)⟩

/-- Counterexample for claim C7 as stated: the claim calls `(1,4,6,9)`
innullifiable and `(2,6,15)` nullifiable, but the tester returns
nullifiable for `(1,4,6,9)` (via `9 − 4 = 5`, `5 + 1 = 6`, `6 − 6 = 0`;
the repository's own test fixture names this input `exNullifiable`) and
innullifiable for `(2,6,15)` (no equal pair, and no pair's sum or
product equals the third value). -/
theorem claim_C7_counterexample :
    nulTest [1, 4, 6, 9] = true ∧ nulTest [2, 6, 15] = false := by
  refine ⟨by decide, by decide⟩

/-- Claim C7 (amended) — tester literal verdicts: innullifiable for
`(1,4,6,8)`, nullifiable for `(1,4,6,9)` (not innullifiable as
claimed), nullifiable for the singleton `(0,)`, innullifiable for the
singleton `(2,)`, innullifiable for `(2,6,15)` (not nullifiable as
claimed), and nullifiable for the pair `(2,2)`.  `true` is the C
return value 0 (nullifiable), `false` is 1 (innullifiable). -/
theorem claim_C7 :
    nulTest [1, 4, 6, 8] = false ∧ nulTest [1, 4, 6, 9] = true ∧
    nulTest [0] = true ∧ nulTest [2] = false ∧
    nulTest [2, 6, 15] = false ∧ nulTest [2, 2] = true := by
  refine ⟨by decide, by decide, by decide, by decide, by decide, by decide⟩

/-! Multiset combinatorics of the pair-picking combinators, used to
relate both testers across element reorderings. -/

/-- Two Booleans agreeing in both truth directions are equal. -/
theorem bool_eq_of_imp (x y : Bool) (h1 : x = true → y = true)
    (h2 : y = true → x = true) : x = y := by
  cases x <;> cases y <;> simp_all

/-- Every entry of `pickOne l` decomposes the multiset of `l` and is
one element shorter. -/
theorem pickOne_sound (l : List ℕ) :
    ∀ p ∈ pickOne l, (↑l : Multiset ℕ) = p.1 ::ₘ ↑p.2 ∧ p.2.length + 1 = l.length := by
  induction l with
  | nil => intro p hp; simp [pickOne] at hp
  | cons a t ih =>
    intro p hp
    rw [pickOne] at hp
    rcases List.mem_cons.mp hp with h | h
    · subst h; exact ⟨rfl, rfl⟩
    · rcases List.mem_map.mp h with ⟨q, hq, rfl⟩
      obtain ⟨h1, h2⟩ := ih q hq
      constructor
      · show (↑(a :: t) : Multiset ℕ) = q.1 ::ₘ ↑(a :: q.2)
        have e : (↑(a :: t) : Multiset ℕ) = a ::ₘ ↑t := rfl
        rw [e, h1, Multiset.cons_swap]
        rfl
      · simpa using h2

/-- Conversely, every single-element multiset decomposition of `l` is
realised by an entry of `pickOne l`. -/
theorem pickOne_complete (l : List ℕ) :
    ∀ (b : ℕ) (m : Multiset ℕ), (↑l : Multiset ℕ) = b ::ₘ m →
      ∃ p ∈ pickOne l, p.1 = b ∧ (↑p.2 : Multiset ℕ) = m := by
  induction l with
  | nil => intro b m h; exact absurd h (by simp)
  | cons a t ih =>
    intro b m h
    have h' : a ::ₘ (↑t : Multiset ℕ) = b ::ₘ m := h
    rcases Multiset.cons_eq_cons.mp h' with ⟨rfl, rfl⟩ | ⟨hne, cs, hcs1, hcs2⟩
    · exact ⟨(a, t), by rw [pickOne]; exact List.mem_cons_self _ _, rfl, rfl⟩
    · obtain ⟨q, hq, hq1, hq2⟩ := ih b cs hcs1
      refine ⟨(q.1, a :: q.2), ?_, hq1, ?_⟩
      · rw [pickOne]; exact List.mem_cons.mpr (Or.inr (List.mem_map.mpr ⟨q, hq, rfl⟩))
      · show a ::ₘ (↑q.2 : Multiset ℕ) = m
        rw [hq2, hcs2]

/-- Every entry of `pickTwo l` decomposes the multiset of `l` and is
two elements shorter. -/
theorem pickTwo_sound (l : List ℕ) :
    ∀ p ∈ pickTwo l,
      (↑l : Multiset ℕ) = p.1 ::ₘ p.2.1 ::ₘ ↑p.2.2 ∧ p.2.2.length + 2 = l.length := by
  induction l with
  | nil => intro p hp; simp [pickTwo] at hp
  | cons a t ih =>
    intro p hp
    rw [pickTwo] at hp
    rcases List.mem_append.mp hp with h | h
    · rcases List.mem_map.mp h with ⟨q, hq, rfl⟩
      obtain ⟨h1, h2⟩ := pickOne_sound t q hq
      constructor
      · show a ::ₘ (↑t : Multiset ℕ) = a ::ₘ q.1 ::ₘ ↑q.2
        rw [h1]
      · simpa using h2
    · rcases List.mem_map.mp h with ⟨q, hq, rfl⟩
      obtain ⟨h1, h2⟩ := ih q hq
      constructor
      · show a ::ₘ (↑t : Multiset ℕ) = q.1 ::ₘ q.2.1 ::ₘ a ::ₘ ↑q.2.2
        rw [h1, Multiset.cons_swap a q.1, Multiset.cons_swap a q.2.1]
      · simpa using h2

/-- Conversely, every two-element multiset decomposition of `l` is
realised by a `pickTwo l` entry, up to swapping the two values. -/
theorem pickTwo_complete (l : List ℕ) :
    ∀ (a b : ℕ) (m : Multiset ℕ), (↑l : Multiset ℕ) = a ::ₘ b ::ₘ m →
      ∃ p ∈ pickTwo l, ((p.1 = a ∧ p.2.1 = b) ∨ (p.1 = b ∧ p.2.1 = a)) ∧
        (↑p.2.2 : Multiset ℕ) = m := by
  induction l with
  | nil => intro a b m h; exact absurd h (by simp)
  | cons x t ih =>
    intro a b m h
    have h' : x ::ₘ (↑t : Multiset ℕ) = a ::ₘ (b ::ₘ m) := h
    rcases Multiset.cons_eq_cons.mp h' with ⟨rfl, h2⟩ | ⟨hne, cs, hcs1, hcs2⟩
    · obtain ⟨q, hq, hq1, hq2⟩ := pickOne_complete t b m h2
      refine ⟨(x, q.1, q.2), ?_, Or.inl ⟨rfl, hq1⟩, hq2⟩
      rw [pickTwo]; exact List.mem_append.mpr (Or.inl (List.mem_map.mpr ⟨q, hq, rfl⟩))
    · rcases Multiset.cons_eq_cons.mp hcs2 with ⟨hbx, hmcs⟩ | ⟨hbx, ds, hds1, hds2⟩
      · subst hbx
        obtain ⟨q, hq, hq1, hq2⟩ := pickOne_complete t a cs hcs1
        refine ⟨(b, q.1, q.2), ?_, Or.inr ⟨rfl, hq1⟩, by rw [hq2, ← hmcs]⟩
        rw [pickTwo]; exact List.mem_append.mpr (Or.inl (List.mem_map.mpr ⟨q, hq, rfl⟩))
      · have ht : (↑t : Multiset ℕ) = a ::ₘ b ::ₘ ds := by rw [hcs1, hds2]
        obtain ⟨q, hq, hq1, hq2⟩ := ih a b ds ht
        refine ⟨(q.1, q.2.1, x :: q.2.2), ?_, hq1, ?_⟩
        · rw [pickTwo]; exact List.mem_append.mpr (Or.inr (List.mem_map.mpr ⟨q, hq, rfl⟩))
        · show x ::ₘ (↑q.2.2 : Multiset ℕ) = m
          rw [hq2, hds1]

/-- Elements of a `pickTwo` remainder are elements of the original
list, as are the two picked values. -/
theorem pickTwo_mem (l : List ℕ) (p : ℕ × ℕ × List ℕ) (hp : p ∈ pickTwo l) :
    p.1 ∈ l ∧ p.2.1 ∈ l ∧ ∀ x ∈ p.2.2, x ∈ l := by
  have h1 := (pickTwo_sound l p hp).1
  refine ⟨?_, ?_, ?_⟩
  · have h : p.1 ∈ (↑l : Multiset ℕ) := by rw [h1]; exact Multiset.mem_cons_self _ _
    simpa using h
  · have h : p.2.1 ∈ (↑l : Multiset ℕ) := by
      rw [h1]; exact Multiset.mem_cons_of_mem (Multiset.mem_cons_self _ _)
    simpa using h
  · intro x hx
    have h : x ∈ (↑l : Multiset ℕ) := by
      rw [h1]
      exact Multiset.mem_cons_of_mem (Multiset.mem_cons_of_mem (by simpa using hx))
    simpa using h

/-- A two-element list equal as a multiset to `[a, c]` is `(a, c)` or
`(c, a)`. -/
theorem multiset_pair_cases (y z a c : ℕ) (h : (↑[y, z] : Multiset ℕ) = ↑[a, c]) :
    (y = a ∧ z = c) ∨ (y = c ∧ z = a) := by
  have h' : y ::ₘ z ::ₘ (0 : Multiset ℕ) = a ::ₘ c ::ₘ 0 := h
  rcases Multiset.cons_eq_cons.mp h' with ⟨h1, h2⟩ | ⟨hne, cs, h2, h3⟩
  · rcases Multiset.cons_eq_cons.mp h2 with ⟨h3, _⟩ | ⟨_, ds, h4, _⟩
    · exact Or.inl ⟨h1, h3⟩
    · exact absurd h4.symm (Multiset.cons_ne_zero)
  · rcases Multiset.cons_eq_cons.mp h2 with ⟨h4, h5⟩ | ⟨_, ds, h5, _⟩
    · rcases Multiset.cons_eq_cons.mp h3 with ⟨h6, _⟩ | ⟨_, es, h7, _⟩
      · exact Or.inr ⟨h6.symm, h4⟩
      · exact absurd h7.symm Multiset.cons_ne_zero
    · exact absurd h5.symm Multiset.cons_ne_zero

/-- A three-element list equal as a multiset to `[a, b, c]` is one of
the six arrangements of `(a, b, c)`. -/
theorem multiset_three_cases (x y z a b c : ℕ)
    (h : (↑[x, y, z] : Multiset ℕ) = ↑[a, b, c]) :
    (x = a ∧ y = b ∧ z = c) ∨ (x = a ∧ y = c ∧ z = b) ∨ (x = b ∧ y = a ∧ z = c) ∨
    (x = b ∧ y = c ∧ z = a) ∨ (x = c ∧ y = a ∧ z = b) ∨ (x = c ∧ y = b ∧ z = a) := by
  have h' : x ::ₘ (↑[y, z] : Multiset ℕ) = a ::ₘ ↑[b, c] := h
  rcases Multiset.cons_eq_cons.mp h' with ⟨h1, h2⟩ | ⟨hne, cs, h2, h3⟩
  · rcases multiset_pair_cases y z b c h2 with ⟨hy, hz⟩ | ⟨hy, hz⟩
    · exact Or.inl ⟨h1, hy, hz⟩
    · exact Or.inr (Or.inl ⟨h1, hy, hz⟩)
  · have h3' : b ::ₘ (c ::ₘ (0 : Multiset ℕ)) = x ::ₘ cs := h3
    rcases Multiset.cons_eq_cons.mp h3' with ⟨hbx, hcs⟩ | ⟨hbx, ds, hds1, hds2⟩
    · have h2' : (↑[y, z] : Multiset ℕ) = ↑[a, c] := by
        show _ = a ::ₘ (c ::ₘ (0 : Multiset ℕ))
        rw [h2, ← hcs]
      rcases multiset_pair_cases y z a c h2' with ⟨hy, hz⟩ | ⟨hy, hz⟩
      · exact Or.inr (Or.inr (Or.inl ⟨hbx.symm, hy, hz⟩))
      · exact Or.inr (Or.inr (Or.inr (Or.inl ⟨hbx.symm, hy, hz⟩)))
    · rcases Multiset.cons_eq_cons.mp hds1 with ⟨hcx, hds0⟩ | ⟨_, es, hes, _⟩
      · have h2' : (↑[y, z] : Multiset ℕ) = ↑[a, b] := by
          show _ = a ::ₘ (b ::ₘ (0 : Multiset ℕ))
          rw [h2, hds2, ← hds0]
        rcases multiset_pair_cases y z a b h2' with ⟨hy, hz⟩ | ⟨hy, hz⟩
        · exact Or.inr (Or.inr (Or.inr (Or.inr (Or.inl ⟨hcx.symm, hy, hz⟩))))
        · exact Or.inr (Or.inr (Or.inr (Or.inr (Or.inr ⟨hcx.symm, hy, hz⟩))))
      · exact absurd hes.symm Multiset.cons_ne_zero

/-- The length-3 closed-form check is invariant under rearranging its
three arguments. -/
theorem nulTestTriplet_congr (x y z a b c : ℕ)
    (h : (↑[x, y, z] : Multiset ℕ) = ↑[a, b, c]) :
    nulTestTriplet x y z = nulTestTriplet a b c := by
  rcases multiset_three_cases x y z a b c h with h6 | h6 | h6 | h6 | h6 | h6 <;>
  obtain ⟨rfl, rfl, rfl⟩ := h6 <;>
  apply bool_eq_of_imp <;>
  · intro h1
    simp only [nulTestTriplet, Bool.or_eq_true, beq_iff_eq] at h1 ⊢
    rcases h1 with ((((((((h1 | h1) | h1) | h1) | h1) | h1) | h1) | h1) | h1) <;>
      first
      | simp [h1]
      | (rw [Nat.add_comm] at h1; simp [h1])
      | (rw [Nat.mul_comm] at h1; simp [h1])

/-- The equality pre-scan transfers along multiset equality of the
scanned lists. -/
theorem hasEqPair_mono (l l' : List ℕ) (h : (↑l : Multiset ℕ) = ↑l')
    (htrue : hasEqPair l = true) : hasEqPair l' = true := by
  rw [hasEqPair, List.any_eq_true] at htrue
  obtain ⟨p, hp, hpe⟩ := htrue
  have hdec := (pickTwo_sound l p hp).1
  rw [h] at hdec
  obtain ⟨q, hq, hqv, _⟩ := pickTwo_complete l' p.1 p.2.1 _ hdec
  rw [hasEqPair, List.any_eq_true]
  refine ⟨q, hq, ?_⟩
  have hpe' : p.1 = p.2.1 := by simpa using hpe
  rcases hqv with ⟨h1, h2⟩ | ⟨h1, h2⟩ <;> simp [h1, h2, hpe']

/-- The equality pre-scan is invariant under reordering. -/
theorem hasEqPair_congr (l l' : List ℕ) (h : (↑l : Multiset ℕ) = ↑l') :
    hasEqPair l = hasEqPair l' :=
  bool_eq_of_imp _ _ (hasEqPair_mono l l' h) (hasEqPair_mono l' l h.symm)

/-- On every list that is not a literal triple, one budget step of the
recursion unfolds to the pre-scan and the pair/replacement search. -/
theorem recTestAux_step (fuel : ℕ) (l : List ℕ) (h3 : l.length ≠ 3) :
    recTestAux (fuel + 1) l =
      (hasEqPair l ||
        (pickTwo l).any (fun p =>
          (replacements p.1 p.2.1).any (fun r => r != 0 && recTestAux fuel (r :: p.2.2)))) := by
  rcases l with _ | ⟨a, _ | ⟨b, _ | ⟨c, _ | ⟨d, t⟩⟩⟩⟩
  · rfl
  · rfl
  · rfl
  · exact absurd rfl h3
  · rfl

/-- On every list that is not a literal singleton, one budget step of
the historical recursion unfolds to the zero scan, the pre-scan and
the pair/replacement search. -/
theorem nulTestOldAux_step (fuel : ℕ) (l : List ℕ) (h1 : l.length ≠ 1) :
    nulTestOldAux (fuel + 1) l =
      (l.any (· == 0) || hasEqPair l ||
        (pickTwo l).any (fun p =>
          (replacementsOld p.1 p.2.1).any (fun r => nulTestOldAux fuel (r :: p.2.2)))) := by
  rcases l with _ | ⟨a, _ | ⟨b, t⟩⟩
  · rfl
  · exact absurd rfl h1
  · rfl

/-- A list of length three is a literal triple. -/
theorem length_three_shape (l : List ℕ) (h : l.length = 3) : ∃ a b c, l = [a, b, c] := by
  rcases l with _ | ⟨a, _ | ⟨b, _ | ⟨c, _ | ⟨d, t⟩⟩⟩⟩ <;>
    first
    | exact ⟨a, b, c, rfl⟩
    | (simp only [List.length_cons, List.length_nil] at h; omega)

/-- Characterization of `recursiveTest` on nonempty lists of length
other than three: some pair holds equal values, or some pair admits a
nonzero replacement whose reduced list again tests nullifiable. -/
theorem recursiveTest_formula (l : List ℕ) (h3 : l.length ≠ 3) (hne : l ≠ []) :
    (recursiveTest l = true ↔
      hasEqPair l = true ∨ ∃ p ∈ pickTwo l, ∃ r ∈ replacements p.1 p.2.1,
        r ≠ 0 ∧ recursiveTest (r :: p.2.2) = true) := by
  obtain ⟨fuel, hfuel⟩ : ∃ fuel, l.length = fuel + 1 := by
    rcases l with _ | ⟨a, t⟩
    · exact absurd rfl hne
    · exact ⟨t.length, rfl⟩
  have e : recursiveTest l = recTestAux (fuel + 1) l := by rw [recursiveTest, hfuel]
  have einner : ∀ p ∈ pickTwo l, ∀ r : ℕ,
      recTestAux fuel (r :: p.2.2) = recursiveTest (r :: p.2.2) := by
    intro p hp r
    have hl2 := (pickTwo_sound l p hp).2
    have hlen : (r :: p.2.2).length = fuel := by
      simp only [List.length_cons]; omega
    rw [recursiveTest, hlen]
  rw [e, recTestAux_step fuel l h3]
  simp only [Bool.or_eq_true, List.any_eq_true, Bool.and_eq_true, bne_iff_ne, ne_eq]
  constructor
  · rintro (h | ⟨p, hp, r, hr, hr0, hrec⟩)
    · exact Or.inl h
    · exact Or.inr ⟨p, hp, r, hr, hr0, by rw [← einner p hp r]; exact hrec⟩
  · rintro (h | ⟨p, hp, r, hr, hr0, hrec⟩)
    · exact Or.inl h
    · exact Or.inr ⟨p, hp, r, hr, hr0, by rw [einner p hp r]; exact hrec⟩

/-- Characterization of the historical tester on lists of length other
than one: some value is zero, some pair holds equal values, or some
pair admits a replacement whose reduced list again tests nullifiable. -/
theorem nulTestOld_formula (l : List ℕ) (h1 : l.length ≠ 1) (hne : l ≠ []) :
    (nulTestOld l = true ↔
      (∃ x ∈ l, x = 0) ∨ hasEqPair l = true ∨ ∃ p ∈ pickTwo l, ∃ r ∈ replacementsOld p.1 p.2.1,
        nulTestOld (r :: p.2.2) = true) := by
  obtain ⟨fuel, hfuel⟩ : ∃ fuel, l.length = fuel + 1 := by
    rcases l with _ | ⟨a, t⟩
    · exact absurd rfl hne
    · exact ⟨t.length, rfl⟩
  have e : nulTestOld l = nulTestOldAux (fuel + 1) l := by rw [nulTestOld, hfuel]
  have einner : ∀ p ∈ pickTwo l, ∀ r : ℕ,
      nulTestOldAux fuel (r :: p.2.2) = nulTestOld (r :: p.2.2) := by
    intro p hp r
    have hl2 := (pickTwo_sound l p hp).2
    have hlen : (r :: p.2.2).length = fuel := by
      simp only [List.length_cons]; omega
    rw [nulTestOld, hlen]
  rw [e, nulTestOldAux_step fuel l h1]
  simp only [Bool.or_eq_true, List.any_eq_true, beq_iff_eq]
  constructor
  · rintro ((h | h) | ⟨p, hp, r, hr, hrec⟩)
    · exact Or.inl h
    · exact Or.inr (Or.inl h)
    · exact Or.inr (Or.inr ⟨p, hp, r, hr, by rw [← einner p hp r]; exact hrec⟩)
  · rintro (h | h | ⟨p, hp, r, hr, hrec⟩)
    · exact Or.inl (Or.inl h)
    · exact Or.inl (Or.inr h)
    · exact Or.inr ⟨p, hp, r, hr, by rw [einner p hp r]; exact hrec⟩

/-- The current replacement array is symmetric in its two source
values. -/
theorem replacements_comm (a b : ℕ) : replacements a b = replacements b a := by
  have hdiff : (if a > b then a - b else b - a) = (if b > a then b - a else a - b) := by
    split_ifs <;> omega
  have hquot : (if a % b == 0 then a / b else if b % a == 0 then b / a else 0)
             = (if b % a == 0 then b / a else if a % b == 0 then a / b else 0) := by
    by_cases h1 : a % b = 0
    · by_cases h2 : b % a = 0
      · have hab := Nat.dvd_antisymm (Nat.dvd_of_mod_eq_zero h2) (Nat.dvd_of_mod_eq_zero h1)
        subst hab
        rfl
      · simp [h1, h2]
    · by_cases h2 : b % a = 0 <;> simp [h1, h2]
  rw [replacements, replacements, hdiff, hquot, Nat.add_comm, Nat.mul_comm]

/-- The historical replacement list is symmetric in its two source
values. -/
theorem replacementsOld_comm (a b : ℕ) : replacementsOld a b = replacementsOld b a := by
  have hdiff : (if a > b then a - b else b - a) = (if b > a then b - a else a - b) := by
    split_ifs <;> omega
  have hquot : (if a % b == 0 then [a / b] else if b % a == 0 then [b / a] else ([] : List ℕ))
             = (if b % a == 0 then [b / a] else if a % b == 0 then [a / b] else []) := by
    by_cases h1 : a % b = 0
    · by_cases h2 : b % a = 0
      · have hab := Nat.dvd_antisymm (Nat.dvd_of_mod_eq_zero h2) (Nat.dvd_of_mod_eq_zero h1)
        subst hab
        rfl
      · simp [h1, h2]
    · by_cases h2 : b % a = 0 <;> simp [h1, h2]
  rw [replacementsOld, replacementsOld, hdiff, hquot, Nat.add_comm, Nat.mul_comm]

/-- Monotone half of permutation invariance of `recursiveTest`: a
nullifiable verdict transfers to any reordering, by strong induction
on the list length. -/
theorem recursiveTest_mono : ∀ n, ∀ l l' : List ℕ, l.length ≤ n →
    (↑l : Multiset ℕ) = ↑l' → recursiveTest l = true → recursiveTest l' = true := by
  intro n
  induction n with
  | zero =>
    intro l l' hn h htrue
    have h0 : l = [] := List.length_eq_zero.mp (Nat.le_zero.mp hn)
    subst h0
    exact absurd htrue (by decide)
  | succ n ih =>
    intro l l' hn h htrue
    have hlen : l.length = l'.length := by
      have hc := congrArg Multiset.card h
      simpa using hc
    by_cases h3 : l.length = 3
    · obtain ⟨a, b, c, rfl⟩ := length_three_shape l h3
      obtain ⟨x, y, z, rfl⟩ := length_three_shape l' (by omega)
      have e1 : recursiveTest [a, b, c] = nulTestTriplet a b c := rfl
      have e2 : recursiveTest [x, y, z] = nulTestTriplet x y z := rfl
      rw [e2, nulTestTriplet_congr x y z a b c h.symm, ← e1]
      exact htrue
    · by_cases h0 : l = []
      · subst h0
        exact absurd htrue (by decide)
      · have h0' : l' ≠ [] := by
          intro he
          rw [he] at hlen
          simp only [List.length_nil] at hlen
          exact h0 (List.length_eq_zero.mp hlen)
        have h3' : l'.length ≠ 3 := by omega
        rw [recursiveTest_formula l' h3' h0']
        rcases (recursiveTest_formula l h3 h0).mp htrue with heq | ⟨p, hp, r, hr, hr0, hrec⟩
        · exact Or.inl (hasEqPair_mono l l' h heq)
        · obtain ⟨hdec, hlen2⟩ := pickTwo_sound l p hp
          rw [h] at hdec
          obtain ⟨q, hq, hqv, hqm⟩ := pickTwo_complete l' p.1 p.2.1 _ hdec
          refine Or.inr ⟨q, hq, r, ?_, hr0, ?_⟩
          · rcases hqv with ⟨h1, h2⟩ | ⟨h1, h2⟩
            · rw [h1, h2]; exact hr
            · rw [h1, h2, replacements_comm]; exact hr
          · refine ih (r :: p.2.2) (r :: q.2.2) ?_ ?_ hrec
            · simp only [List.length_cons]; omega
            · show r ::ₘ (↑p.2.2 : Multiset ℕ) = r ::ₘ ↑q.2.2
              rw [hqm]

/-- Permutation invariance of `recursiveTest`: the verdict depends
only on the multiset of values. -/
theorem recursiveTest_congr (l l' : List ℕ) (h : (↑l : Multiset ℕ) = ↑l') :
    recursiveTest l = recursiveTest l' :=
  bool_eq_of_imp _ _ (recursiveTest_mono l.length l l' le_rfl h)
    (recursiveTest_mono l'.length l' l le_rfl h.symm)

/-! Equivalence of the current and the historical tester (claim C10). -/

/-- Every historical replacement value is a current replacement value
(the quotient slot of the current array holds exactly the historical
conditional quotient when one value divides the other). -/
theorem old_mem_replacements (a b r : ℕ) (hr : r ∈ replacementsOld a b) :
    r ∈ replacements a b := by
  rw [replacementsOld] at hr
  rw [replacements]
  by_cases h1 : a % b = 0
  · simp [h1] at hr ⊢
    tauto
  · by_cases h2 : b % a = 0 <;>
    · simp [h1, h2] at hr ⊢
      tauto

/-- Every nonzero current replacement value is a historical
replacement value. -/
theorem new_mem_replacementsOld (a b r : ℕ) (hr : r ∈ replacements a b) (h0 : r ≠ 0) :
    r ∈ replacementsOld a b := by
  rw [replacements] at hr
  rw [replacementsOld]
  by_cases h1 : a % b = 0
  · simp [h1] at hr ⊢
    tauto
  · by_cases h2 : b % a = 0 <;>
    · simp [h1, h2] at hr ⊢
      tauto

/-- A zero historical replacement value for two positive sources can
only be their difference, so the sources are equal. -/
theorem replacementsOld_eq_zero (a b : ℕ) (ha : 1 ≤ a) (hb : 1 ≤ b)
    (hr : (0 : ℕ) ∈ replacementsOld a b) : a = b := by
  rw [replacementsOld] at hr
  rcases List.mem_append.mp hr with h | h
  · simp only [List.mem_cons, List.not_mem_nil, or_false] at h
    rcases h with h | h | h
    · omega
    · have := Nat.mul_eq_zero.mp h.symm
      omega
    · by_cases hab : a > b
      · rw [if_pos hab] at h; omega
      · rw [if_neg hab] at h; omega
  · by_cases h1 : a % b = 0
    · simp [h1] at h
      have hdvd : b ∣ a := Nat.dvd_of_mod_eq_zero h1
      have hcan : a / b * b = a := Nat.div_mul_cancel hdvd
      have h0 : a / b = 0 := by omega
      rw [h0] at hcan
      simp at hcan
      omega
    · by_cases h2 : b % a = 0
      · simp [h1, h2] at h
        have hdvd : a ∣ b := Nat.dvd_of_mod_eq_zero h2
        have hcan : b / a * a = b := Nat.div_mul_cancel hdvd
        have h0 : b / a = 0 := by omega
        rw [h0] at hcan
        simp at hcan
        omega
      · simp [h1, h2] at h

/-- The historical tester on a pair with positive second component:
nullifiable exactly when the first is zero or the two are equal. -/
theorem nulTestOld_pair (r w : ℕ) (hw : 1 ≤ w) :
    (nulTestOld [r, w] = true ↔ r = 0 ∨ r = w) := by
  rw [nulTestOld_formula [r, w] (by simp) (by simp)]
  constructor
  · rintro (⟨x, hx, rfl⟩ | heq | ⟨p, hp, s, hs, hrec⟩)
    · rcases List.mem_cons.mp hx with h | h
      · exact Or.inl h.symm
      · have h' : (0 : ℕ) = w := by simpa using h
        omega
    · simp [hasEqPair, pickTwo, pickOne] at heq
      exact Or.inr heq
    · have hpt : pickTwo [r, w] = [(r, w, [])] := rfl
      rw [hpt, List.mem_singleton] at hp
      subst hp
      have hs0 : s = 0 := by
        have e : nulTestOld [s] = (s == 0) := rfl
        rw [e] at hrec
        simpa using hrec
      subst hs0
      by_cases hr0 : r = 0
      · exact Or.inl hr0
      · exact Or.inr (replacementsOld_eq_zero r w (by omega) hw hs)
  · rintro (rfl | rfl)
    · exact Or.inl ⟨0, by simp, rfl⟩
    · refine Or.inr (Or.inl ?_)
      simp [hasEqPair, pickTwo, pickOne]

/-- On a zero-free list of length at least three, `nulTest` is the
bare recursion. -/
theorem nulTest_eq_recursiveTest (l : List ℕ) (hlen : 3 ≤ l.length)
    (hpos : ∀ x ∈ l, 1 ≤ x) : nulTest l = recursiveTest l := by
  have hz : l.any (· == 0) = false := by
    rw [List.any_eq_false]
    intro x hx
    have := hpos x hx
    simp only [beq_iff_eq]
    omega
  rw [nulTest, hz]
  rw [if_neg (by omega), if_neg (by omega), if_neg (by omega)]
  simp

/-- Tester agreement on singletons. -/
theorem tester_equiv_one (a : ℕ) : nulTest [a] = nulTestOld [a] := rfl

/-- Tester agreement on positive pairs. -/
theorem tester_equiv_pair (a b : ℕ) (ha : 1 ≤ a) (hb : 1 ≤ b) :
    nulTest [a, b] = nulTestOld [a, b] := by
  have e1 : nulTest [a, b] = (a == b) := rfl
  rw [e1]
  apply bool_eq_of_imp
  · intro h
    have hab : a = b := by simpa using h
    subst hab
    rw [nulTestOld_pair a a ha]
    right
    rfl
  · intro h
    rw [nulTestOld_pair a b hb] at h
    rcases h with h | h
    · exact absurd h (by omega)
    · simp [h]

/-- A positive historical replacement of a positive pair equal to a
third positive value yields one of the canonical triplet relations. -/
theorem triplet_of_pair_replacement (u v w : ℕ) (hw : 1 ≤ w)
    (hr : w ∈ replacementsOld u v) :
    u + v = w ∨ v + w = u ∨ u + w = v ∨ u * v = w ∨ v * w = u ∨ u * w = v := by
  rw [replacementsOld] at hr
  rcases List.mem_append.mp hr with h | h
  · simp only [List.mem_cons, List.not_mem_nil, or_false] at h
    rcases h with h | h | h
    · left; omega
    · right; right; right; left; exact h.symm
    · by_cases huv : u > v
      · rw [if_pos huv] at h
        right; left; omega
      · rw [if_neg huv] at h
        right; right; left; omega
  · by_cases h1 : u % v = 0
    · simp [h1] at h
      have hdvd : v ∣ u := Nat.dvd_of_mod_eq_zero h1
      right; right; right; right; left
      rw [h]
      exact Nat.mul_div_cancel' hdvd
    · by_cases h2 : v % u = 0
      · simp [h1, h2] at h
        have hdvd : u ∣ v := Nat.dvd_of_mod_eq_zero h2
        right; right; right; right; right
        rw [h]
        exact Nat.mul_div_cancel' hdvd
      · simp [h1, h2] at h

/-- Tester agreement on positive triples. -/
theorem tester_equiv_three (a b c : ℕ) (ha : 1 ≤ a) (hb : 1 ≤ b) (hc : 1 ≤ c) :
    nulTest [a, b, c] = nulTestOld [a, b, c] := by
  rw [nulTest_eq_recursiveTest [a, b, c] (by simp) ?hpos]
  case hpos =>
    intro x hx
    rcases List.mem_cons.mp hx with rfl | hx
    · exact ha
    rcases List.mem_cons.mp hx with rfl | hx
    · exact hb
    · have hxc : x = c := by simpa using hx
      omega
  have etrip : recursiveTest [a, b, c] = nulTestTriplet a b c := rfl
  rw [etrip]
  have hpt : pickTwo [a, b, c] = [(a, b, [c]), (a, c, [b]), (b, c, [a])] := rfl
  apply bool_eq_of_imp
  · intro h
    simp only [nulTestTriplet, Bool.or_eq_true, beq_iff_eq] at h
    rw [nulTestOld_formula [a, b, c] (by simp) (by simp)]
    rcases h with ((((((((h | h) | h) | h) | h) | h) | h) | h) | h)
    · refine Or.inr (Or.inl ?_)
      rw [hasEqPair, List.any_eq_true]
      exact ⟨(a, b, [c]), by rw [hpt]; simp, by simpa using h⟩
    · refine Or.inr (Or.inl ?_)
      rw [hasEqPair, List.any_eq_true]
      exact ⟨(b, c, [a]), by rw [hpt]; simp, by simpa using h⟩
    · refine Or.inr (Or.inl ?_)
      rw [hasEqPair, List.any_eq_true]
      refine ⟨(a, c, [b]), by rw [hpt]; simp, ?_⟩
      have h' : a = c := h.symm
      simpa using h'
    · refine Or.inr (Or.inr ⟨(a, b, [c]), by rw [hpt]; simp, a + b, ?_, ?_⟩)
      · rw [replacementsOld]; simp
      · show nulTestOld [a + b, c] = true
        rw [h, nulTestOld_pair c c hc]
        right; rfl
    · refine Or.inr (Or.inr ⟨(b, c, [a]), by rw [hpt]; simp, b + c, ?_, ?_⟩)
      · rw [replacementsOld]; simp
      · show nulTestOld [b + c, a] = true
        rw [h, nulTestOld_pair a a ha]
        right; rfl
    · refine Or.inr (Or.inr ⟨(a, c, [b]), by rw [hpt]; simp, a + c, ?_, ?_⟩)
      · rw [replacementsOld]; simp
      · show nulTestOld [a + c, b] = true
        have h' : a + c = b := by omega
        rw [h', nulTestOld_pair b b hb]
        right; rfl
    · refine Or.inr (Or.inr ⟨(a, b, [c]), by rw [hpt]; simp, a * b, ?_, ?_⟩)
      · rw [replacementsOld]; simp
      · show nulTestOld [a * b, c] = true
        rw [h, nulTestOld_pair c c hc]
        right; rfl
    · refine Or.inr (Or.inr ⟨(b, c, [a]), by rw [hpt]; simp, b * c, ?_, ?_⟩)
      · rw [replacementsOld]; simp
      · show nulTestOld [b * c, a] = true
        rw [h, nulTestOld_pair a a ha]
        right; rfl
    · refine Or.inr (Or.inr ⟨(a, c, [b]), by rw [hpt]; simp, a * c, ?_, ?_⟩)
      · rw [replacementsOld]; simp
      · show nulTestOld [a * c, b] = true
        have h' : a * c = b := by rw [Nat.mul_comm]; exact h
        rw [h', nulTestOld_pair b b hb]
        right; rfl
  · intro h
    rw [nulTestOld_formula [a, b, c] (by simp) (by simp)] at h
    simp only [nulTestTriplet, Bool.or_eq_true, beq_iff_eq]
    rcases h with ⟨x, hx, rfl⟩ | heq | ⟨p, hp, r, hr, hrec⟩
    · exfalso
      rcases List.mem_cons.mp hx with h | hx
      · omega
      rcases List.mem_cons.mp hx with h | hx
      · omega
      · have hxc : (0 : ℕ) = c := by simpa using hx
        omega
    · rw [hasEqPair, List.any_eq_true] at heq
      obtain ⟨p, hp, hpe⟩ := heq
      rw [hpt] at hp
      simp only [List.mem_cons, List.not_mem_nil, or_false] at hp
      rcases hp with rfl | rfl | rfl
      · have hab : a = b := by simpa using hpe
        simp [hab]
      · have hac : a = c := by simpa using hpe
        have h' : c = a := hac.symm
        simp [h']
      · have hbc : b = c := by simpa using hpe
        simp [hbc]
    · rw [hpt] at hp
      simp only [List.mem_cons, List.not_mem_nil, or_false] at hp
      rcases hp with rfl | rfl | rfl
      · have hrec' : nulTestOld [r, c] = true := hrec
        rw [nulTestOld_pair r c hc] at hrec'
        rcases hrec' with rfl | rfl
        · have hab : a = b := replacementsOld_eq_zero a b ha hb hr
          simp [hab]
        · rcases triplet_of_pair_replacement a b r hc hr with h | h | h | h | h | h <;>
            first
            | simp [h]
            | (rw [Nat.add_comm] at h; simp [h])
            | (rw [Nat.mul_comm] at h; simp [h])
      · have hrec' : nulTestOld [r, b] = true := hrec
        rw [nulTestOld_pair r b hb] at hrec'
        rcases hrec' with rfl | rfl
        · have hac : a = c := replacementsOld_eq_zero a c ha hc hr
          have h' : c = a := hac.symm
          simp [h']
        · rcases triplet_of_pair_replacement a c r hb hr with h | h | h | h | h | h <;>
            first
            | simp [h]
            | (rw [Nat.add_comm] at h; simp [h])
            | (rw [Nat.mul_comm] at h; simp [h])
      · have hrec' : nulTestOld [r, a] = true := hrec
        rw [nulTestOld_pair r a ha] at hrec'
        rcases hrec' with rfl | rfl
        · have hbc : b = c := replacementsOld_eq_zero b c hb hc hr
          simp [hbc]
        · rcases triplet_of_pair_replacement b c r ha hr with h | h | h | h | h | h <;>
            first
            | simp [h]
            | (rw [Nat.add_comm] at h; simp [h])
            | (rw [Nat.mul_comm] at h; simp [h])

/-- Tester agreement on every nonempty positive list, by strong
induction on the length: sizes one to three are the explicit cases
above, and from size four on both testers unfold to the same pair
search, with nonzero replacement values interchangeable between the
two replacement lists and a zero historical replacement (an equal
pair's difference) subsumed by the equality pre-scan. -/
theorem tester_equiv_aux : ∀ n, ∀ l : List ℕ, l.length ≤ n → l ≠ [] →
    (∀ x ∈ l, 1 ≤ x) → nulTest l = nulTestOld l := by
  intro n
  induction n with
  | zero =>
    intro l hn hne _
    exact absurd (List.length_eq_zero.mp (Nat.le_zero.mp hn)) hne
  | succ n ih =>
    intro l hn hne hpos
    rcases l with _ | ⟨a, _ | ⟨b, _ | ⟨c, t⟩⟩⟩
    · exact absurd rfl hne
    · exact tester_equiv_one a
    · exact tester_equiv_pair a b (hpos a (by simp)) (hpos b (by simp))
    · by_cases ht : t = []
      · subst ht
        exact tester_equiv_three a b c (hpos a (by simp)) (hpos b (by simp))
          (hpos c (by simp))
      · have htlen : 1 ≤ t.length := by
          rcases t with _ | ⟨x, t2⟩
          · exact absurd rfl ht
          · simp
        have hlenn : (a :: b :: c :: t).length ≤ n + 1 := hn
        have hbig : nulTest (a :: b :: c :: t) = recursiveTest (a :: b :: c :: t) :=
          nulTest_eq_recursiveTest _ (by simp) hpos
        rw [hbig]
        apply bool_eq_of_imp
        · intro h
          rw [recursiveTest_formula _ (by simp only [List.length_cons]; omega) (by simp)] at h
          rw [nulTestOld_formula _ (by simp only [List.length_cons]; omega) (by simp)]
          rcases h with heq | ⟨p, hp, r, hr, hr0, hrec⟩
          · exact Or.inr (Or.inl heq)
          · obtain ⟨hmem1, hmem2, hmemr⟩ := pickTwo_mem _ p hp
            have hl2 := (pickTwo_sound _ p hp).2
            have hpos' : ∀ x ∈ r :: p.2.2, 1 ≤ x := by
              intro x hx
              rcases List.mem_cons.mp hx with rfl | hx
              · omega
              · exact hpos x (hmemr x hx)
            have hinner : nulTest (r :: p.2.2) = recursiveTest (r :: p.2.2) :=
              nulTest_eq_recursiveTest _ (by
                simp only [List.length_cons] at hl2 ⊢
                omega) hpos'
            have hih := ih (r :: p.2.2) (by simp only [List.length_cons] at hl2 hlenn ⊢; omega)
              (by simp) hpos'
            refine Or.inr (Or.inr ⟨p, hp, r, new_mem_replacementsOld _ _ _ hr hr0, ?_⟩)
            rw [← hih, hinner]
            exact hrec
        · intro h
          rw [nulTestOld_formula _ (by simp only [List.length_cons]; omega) (by simp)] at h
          rw [recursiveTest_formula _ (by simp only [List.length_cons]; omega) (by simp)]
          rcases h with ⟨x, hx, rfl⟩ | heq | ⟨p, hp, r, hr, hrec⟩
          · exact absurd (hpos 0 hx) (by omega)
          · exact Or.inl heq
          · obtain ⟨hmem1, hmem2, hmemr⟩ := pickTwo_mem _ p hp
            by_cases hr0 : r = 0
            · subst hr0
              refine Or.inl ?_
              rw [hasEqPair, List.any_eq_true]
              refine ⟨p, hp, ?_⟩
              have heqv : p.1 = p.2.1 :=
                replacementsOld_eq_zero p.1 p.2.1 (hpos p.1 hmem1) (hpos p.2.1 hmem2) hr
              simpa using heqv
            · have hl2 := (pickTwo_sound _ p hp).2
              have hpos' : ∀ x ∈ r :: p.2.2, 1 ≤ x := by
                intro x hx
                rcases List.mem_cons.mp hx with rfl | hx
                · omega
                · exact hpos x (hmemr x hx)
              have hinner : nulTest (r :: p.2.2) = recursiveTest (r :: p.2.2) :=
                nulTest_eq_recursiveTest _ (by
                  simp only [List.length_cons] at hl2 ⊢
                  omega) hpos'
              have hih := ih (r :: p.2.2) (by simp only [List.length_cons] at hl2 hlenn ⊢; omega)
                (by simp) hpos'
              refine Or.inr ⟨p, hp, r, old_mem_replacements _ _ _ hr, hr0, ?_⟩
              rw [← hinner, hih]
              exact hrec

/-- Claim C10 — tester iteration equivalence: on every nonempty list
of positive values the current tester `src/lib/nulTest.c` (triplet
base case, reordered checks, zero replacements skipped) returns the
same verdict as the historical tester `src/nulTest.c`. -/
theorem claim_C10 (l : List ℕ) (hne : l ≠ []) (hpos : ∀ x ∈ l, 1 ≤ x) :
    nulTest l = nulTestOld l :=
  tester_equiv_aux l.length l le_rfl hne hpos

/-- Witness for claim C10 at the concrete input `(1, 4, 6, 9)`. -/
theorem claim_C10_witness :
    ([1, 4, 6, 9] : List ℕ) ≠ [] ∧ (∀ x ∈ ([1, 4, 6, 9] : List ℕ), 1 ≤ x) ∧
    nulTest [1, 4, 6, 9] = nulTestOld [1, 4, 6, 9] :=
  ⟨by decide, by decide, claim_C10 [1, 4, 6, 9] (by decide) (by decide)⟩

/-! Soundness of the set expander (claim C1).  First, helper lemmas
about buffers holding a source list with one or two free slots. -/

/-- Writing into the slot of a one-slot buffer replaces the junk. -/
theorem set_slot (A : List ℕ) (j i : ℕ) (B : List ℕ) :
    (A ++ j :: B).set A.length i = A ++ i :: B := by
  induction A with
  | nil => rfl
  | cons a A ih =>
    show List.set (a :: (A ++ j :: B)) (A.length + 1) i = a :: (A ++ i :: B)
    rw [List.set]
    rw [ih]

/-- Reading a buffer at the length of a prefix yields the following
element. -/
theorem getD_mid (P : List ℕ) (q d : ℕ) (Q : List ℕ) :
    (P ++ q :: Q).getD P.length d = q := by
  induction P with
  | nil => rfl
  | cons p P ih =>
    show List.getD (p :: (P ++ q :: Q)) (P.length + 1) d = q
    rw [List.getD_cons_succ]
    exact ih

/-- Reading a buffer one past a prefix-plus-one-cell yields the head
of the remainder (or the default when the remainder is empty). -/
theorem getD_slot_succ (A : List ℕ) (x d : ℕ) (B : List ℕ) :
    (A ++ x :: B).getD (A.length + 1) d = B.getD 0 d := by
  induction A with
  | nil => rfl
  | cons a A ih =>
    show List.getD (a :: (A ++ x :: B)) (A.length + 1 + 1) d = B.getD 0 d
    rw [List.getD_cons_succ]
    exact ih

/-- Filling the slot of a one-slot buffer makes a one-insertion
multiset extension. -/
theorem coe_slot (A B : List ℕ) (v : ℕ) :
    (↑(A ++ v :: B) : Multiset ℕ) = v ::ₘ ↑(A ++ B) :=
  Multiset.coe_eq_coe.mpr List.perm_middle

/-- The multiset of a list splits off any indexed element. -/
theorem coe_eraseIdx (s : List ℕ) (k : ℕ) (hk : k < s.length) :
    (↑s : Multiset ℕ) = s.getD k 0 ::ₘ ↑(s.eraseIdx k) := by
  have hdrop : s.drop k = s.getD k 0 :: s.drop (k + 1) := by
    rw [List.getD_eq_getElem?_getD, List.getElem?_eq_getElem hk]
    exact List.drop_eq_getElem_cons hk
  have hsplit : s = s.take k ++ s.getD k 0 :: s.drop (k + 1) := by
    conv_lhs => rw [← List.take_append_drop k s]
    rw [hdrop]
  have herase : s.eraseIdx k = s.take k ++ s.drop (k + 1) := List.eraseIdx_eq_take_drop_succ s k
  rw [herase]
  conv_lhs => rw [hsplit]
  exact coe_slot _ _ _

/-- An entry of `pickTwo` survives prepending an element, with the new
element joining the remainder. -/
theorem pickTwo_cons_mem (v : ℕ) (l : List ℕ) (p : ℕ × ℕ × List ℕ) (hp : p ∈ pickTwo l) :
    (p.1, p.2.1, v :: p.2.2) ∈ pickTwo (v :: l) := by
  rw [pickTwo]
  exact List.mem_append.mpr (Or.inr (List.mem_map.mpr ⟨p, hp, rfl⟩))

/-- The equality pre-scan survives prepending an element. -/
theorem hasEqPair_cons (v : ℕ) (l : List ℕ) (h : hasEqPair l = true) :
    hasEqPair (v :: l) = true := by
  rw [hasEqPair, List.any_eq_true] at h ⊢
  obtain ⟨p, hp, hpe⟩ := h
  exact ⟨(p.1, p.2.1, v :: p.2.2), pickTwo_cons_mem v l p hp, hpe⟩

/-- Prepending a positive value to a positive nullifiable triple keeps
the recursion nullifiable: the triple relation merges into an equal
pair. -/
theorem recursiveTest_superset_three (v a b c : ℕ) (ha : 1 ≤ a) (hb : 1 ≤ b)
    (hc : 1 ≤ c) (htrip : nulTestTriplet a b c = true) :
    recursiveTest [v, a, b, c] = true := by
  rw [recursiveTest_formula _ (by simp) (by simp)]
  simp only [nulTestTriplet, Bool.or_eq_true, beq_iff_eq] at htrip
  have hpt : pickTwo [v, a, b, c] =
      [(v, a, [b, c]), (v, b, [a, c]), (v, c, [a, b]),
       (a, b, [v, c]), (a, c, [v, b]), (b, c, [v, a])] := rfl
  rcases htrip with ((((((((h | h) | h) | h) | h) | h) | h) | h) | h)
  · refine Or.inl ?_
    rw [hasEqPair, List.any_eq_true]
    exact ⟨(a, b, [v, c]), by rw [hpt]; simp, by simpa using h⟩
  · refine Or.inl ?_
    rw [hasEqPair, List.any_eq_true]
    exact ⟨(b, c, [v, a]), by rw [hpt]; simp, by simpa using h⟩
  · refine Or.inl ?_
    rw [hasEqPair, List.any_eq_true]
    refine ⟨(a, c, [v, b]), by rw [hpt]; simp, ?_⟩
    have h' : a = c := h.symm
    simpa using h'
  · refine Or.inr ⟨(a, b, [v, c]), by rw [hpt]; simp, a + b, ?_, by omega, ?_⟩
    · rw [replacements]; simp
    · rw [h]
      have e : recursiveTest [c, v, c] = nulTestTriplet c v c := rfl
      rw [e]; simp [nulTestTriplet]
  · refine Or.inr ⟨(b, c, [v, a]), by rw [hpt]; simp, b + c, ?_, by omega, ?_⟩
    · rw [replacements]; simp
    · rw [h]
      have e : recursiveTest [a, v, a] = nulTestTriplet a v a := rfl
      rw [e]; simp [nulTestTriplet]
  · refine Or.inr ⟨(a, c, [v, b]), by rw [hpt]; simp, a + c, ?_, by omega, ?_⟩
    · rw [replacements]; simp
    · have h' : a + c = b := by omega
      rw [h']
      have e : recursiveTest [b, v, b] = nulTestTriplet b v b := rfl
      rw [e]; simp [nulTestTriplet]
  · refine Or.inr ⟨(a, b, [v, c]), by rw [hpt]; simp, a * b, ?_, ?_, ?_⟩
    · rw [replacements]; simp
    · have := Nat.mul_pos ha hb; omega
    · rw [h]
      have e : recursiveTest [c, v, c] = nulTestTriplet c v c := rfl
      rw [e]; simp [nulTestTriplet]
  · refine Or.inr ⟨(b, c, [v, a]), by rw [hpt]; simp, b * c, ?_, ?_, ?_⟩
    · rw [replacements]; simp
    · have := Nat.mul_pos hb hc; omega
    · rw [h]
      have e : recursiveTest [a, v, a] = nulTestTriplet a v a := rfl
      rw [e]; simp [nulTestTriplet]
  · refine Or.inr ⟨(a, c, [v, b]), by rw [hpt]; simp, a * c, ?_, ?_, ?_⟩
    · rw [replacements]; simp
    · have := Nat.mul_pos ha hc; omega
    · have h' : a * c = b := by rw [Nat.mul_comm]; exact h
      rw [h']
      have e : recursiveTest [b, v, b] = nulTestTriplet b v b := rfl
      rw [e]; simp [nulTestTriplet]

/-- Prepending a positive value to a positive nullifiable list of size
at least three keeps the recursion nullifiable, by strong induction on
the length. -/
theorem recursiveTest_superset : ∀ n (l : List ℕ) (v : ℕ), l.length ≤ n →
    3 ≤ l.length → (∀ x ∈ l, 1 ≤ x) → 1 ≤ v →
    recursiveTest l = true → recursiveTest (v :: l) = true := by
  intro n
  induction n with
  | zero => intro l v hn h3 _ _ _; omega
  | succ n ih =>
    intro l v hn h3 hpos hv htrue
    by_cases hlen3 : l.length = 3
    · obtain ⟨a, b, c, rfl⟩ := length_three_shape l hlen3
      have e : recursiveTest [a, b, c] = nulTestTriplet a b c := rfl
      rw [e] at htrue
      exact recursiveTest_superset_three v a b c (hpos a (by simp)) (hpos b (by simp))
        (hpos c (by simp)) htrue
    · have hne : l ≠ [] := by
        intro he; rw [he] at h3; simp at h3
      rw [recursiveTest_formula l hlen3 hne] at htrue
      rw [recursiveTest_formula (v :: l) (by simp only [List.length_cons]; omega) (by simp)]
      rcases htrue with heq | ⟨p, hp, r, hr, hr0, hrec⟩
      · exact Or.inl (hasEqPair_cons v l heq)
      · refine Or.inr ⟨(p.1, p.2.1, v :: p.2.2), pickTwo_cons_mem v l p hp, r, hr, hr0, ?_⟩
        have hperm : recursiveTest (r :: v :: p.2.2) = recursiveTest (v :: r :: p.2.2) :=
          recursiveTest_congr _ _ (by
            show r ::ₘ v ::ₘ (↑p.2.2 : Multiset ℕ) = v ::ₘ r ::ₘ ↑p.2.2
            rw [Multiset.cons_swap])
        rw [hperm]
        have hl2 := (pickTwo_sound l p hp).2
        obtain ⟨hm1, hm2, hmr⟩ := pickTwo_mem l p hp
        refine ih (r :: p.2.2) v ?_ ?_ ?_ hv hrec
        · simp only [List.length_cons]; omega
        · simp only [List.length_cons]; omega
        · intro x hx
          rcases List.mem_cons.mp hx with rfl | hx
          · omega
          · exact hpos x (hmr x hx)

/-- Tester nullifiability is preserved by inserting one positive value
into a positive nullifiable set. -/
theorem nulTest_superset (s t : List ℕ) (v : ℕ) (hpos : ∀ x ∈ s, 1 ≤ x) (hv : 1 ≤ v)
    (hmul : (↑t : Multiset ℕ) = v ::ₘ ↑s) (hnul : nulTest s = true) : nulTest t = true := by
  have hpost : ∀ x ∈ t, 1 ≤ x := by
    intro x hx
    have hx' : x ∈ (↑t : Multiset ℕ) := by simpa using hx
    rw [hmul] at hx'
    rcases Multiset.mem_cons.mp hx' with rfl | hx'
    · exact hv
    · exact hpos x (by simpa using hx')
  have hlent : t.length = s.length + 1 := by
    have hc := congrArg Multiset.card hmul
    simpa using hc
  rcases s with _ | ⟨a, _ | ⟨b, srest⟩⟩
  · exact absurd hnul (by decide)
  · exfalso
    have e : nulTest [a] = (a == 0) := rfl
    rw [e] at hnul
    have ha0 : a = 0 := by simpa using hnul
    have := hpos a (by simp)
    omega
  · rcases srest with _ | ⟨c, srest2⟩
    · have e : nulTest [a, b] = (a == b) := rfl
      rw [e] at hnul
      have hab : a = b := by simpa using hnul
      subst hab
      have hbr : nulTest t = recursiveTest t := by
        refine nulTest_eq_recursiveTest t ?_ hpost
        simp only [List.length_cons, List.length_nil] at hlent
        omega
      rw [hbr]
      have hcongr : recursiveTest t = recursiveTest [v, a, a] :=
        recursiveTest_congr t [v, a, a] (by rw [hmul]; rfl)
      rw [hcongr]
      have e2 : recursiveTest [v, a, a] = nulTestTriplet v a a := rfl
      rw [e2]
      simp [nulTestTriplet]
    · have hbr_s : nulTest (a :: b :: c :: srest2) = recursiveTest (a :: b :: c :: srest2) :=
        nulTest_eq_recursiveTest _ (by simp) hpos
      rw [hbr_s] at hnul
      have hbr_t : nulTest t = recursiveTest t := by
        refine nulTest_eq_recursiveTest t ?_ hpost
        simp only [List.length_cons] at hlent
        omega
      rw [hbr_t]
      have hcongr : recursiveTest t = recursiveTest (v :: a :: b :: c :: srest2) :=
        recursiveTest_congr _ _ (by rw [hmul]; rfl)
      rw [hcongr]
      exact recursiveTest_superset (a :: b :: c :: srest2).length _ v le_rfl (by simp)
        hpos hv hnul

/-- Tester nullifiability is preserved by replacing one value of a
positive nullifiable set with a positive pair that the tester's
replacement table merges back into it. -/
theorem nulTest_merge_pair (s rest t : List ℕ) (u w val : ℕ)
    (hs : (↑s : Multiset ℕ) = val ::ₘ ↑rest)
    (ht : (↑t : Multiset ℕ) = u ::ₘ w ::ₘ ↑rest)
    (hu : 1 ≤ u) (hw : 1 ≤ w) (hval0 : val ≠ 0) (hval : val ∈ replacements u w)
    (hpos : ∀ x ∈ s, 1 ≤ x) (hnul : nulTest s = true) : nulTest t = true := by
  have hposr : ∀ x ∈ rest, 1 ≤ x := by
    intro x hx
    have hx' : x ∈ (↑s : Multiset ℕ) := by
      rw [hs]; exact Multiset.mem_cons_of_mem (by simpa using hx)
    exact hpos x (by simpa using hx')
  have hpost : ∀ x ∈ t, 1 ≤ x := by
    intro x hx
    have hx' : x ∈ (↑t : Multiset ℕ) := by simpa using hx
    rw [ht] at hx'
    rcases Multiset.mem_cons.mp hx' with rfl | hx'
    · exact hu
    rcases Multiset.mem_cons.mp hx' with rfl | hx2
    · exact hw
    · exact hposr x (by simpa using hx2)
  have hlens : s.length = rest.length + 1 := by
    have hc := congrArg Multiset.card hs; simpa using hc
  have hlent : t.length = rest.length + 2 := by
    have hc := congrArg Multiset.card ht; simpa using hc
  rcases rest with _ | ⟨p0, _ | ⟨p1, prest⟩⟩
  · exfalso
    obtain ⟨a0, rfl⟩ : ∃ a0, s = [a0] := by
      rcases s with _ | ⟨a0, _ | ⟨a1, s2⟩⟩
      · simp at hlens
      · exact ⟨a0, rfl⟩
      · simp only [List.length_cons, List.length_nil] at hlens; omega
    have e : nulTest [a0] = (a0 == 0) := rfl
    rw [e] at hnul
    have ha0 : a0 = 0 := by simpa using hnul
    have := hpos a0 (by simp)
    omega
  · obtain ⟨x0, x1, rfl⟩ : ∃ x0 x1, s = [x0, x1] := by
      rcases s with _ | ⟨x0, _ | ⟨x1, _ | ⟨x2, s2⟩⟩⟩
      · simp at hlens
      · simp only [List.length_cons, List.length_nil] at hlens; omega
      · exact ⟨x0, x1, rfl⟩
      · simp only [List.length_cons, List.length_nil] at hlens; omega
    have e : nulTest [x0, x1] = (x0 == x1) := rfl
    rw [e] at hnul
    have hx01 : x0 = x1 := by simpa using hnul
    subst hx01
    have hvp := multiset_pair_cases x0 x0 val p0 hs
    have hvx : val = x0 := by rcases hvp with ⟨h1, _⟩ | ⟨_, h2⟩ <;> omega
    have hpx : p0 = x0 := by rcases hvp with ⟨_, h2⟩ | ⟨h1, _⟩ <;> omega
    subst hvx
    subst hpx
    have hbr : nulTest t = recursiveTest t := by
      refine nulTest_eq_recursiveTest t ?_ hpost
      simp only [List.length_cons, List.length_nil] at hlent
      omega
    rw [hbr]
    have hcongr : recursiveTest t = recursiveTest [u, w, p0] :=
      recursiveTest_congr t [u, w, p0] (by rw [ht]; rfl)
    rw [hcongr]
    have e2 : recursiveTest [u, w, p0] = nulTestTriplet u w p0 := rfl
    rw [e2]
    have hold : p0 ∈ replacementsOld u w := new_mem_replacementsOld u w p0 hval hval0
    have h6 := triplet_of_pair_replacement u w p0 (by omega) hold
    simp only [nulTestTriplet, Bool.or_eq_true, beq_iff_eq]
    rcases h6 with h | h | h | h | h | h <;>
      first
      | simp [h]
      | (rw [Nat.add_comm] at h; simp [h])
      | (rw [Nat.mul_comm] at h; simp [h])
  · have hbr_s : nulTest s = recursiveTest s := by
      refine nulTest_eq_recursiveTest s ?_ hpos
      simp only [List.length_cons] at hlens
      omega
    have hbr_t : nulTest t = recursiveTest t := by
      refine nulTest_eq_recursiveTest t ?_ hpost
      simp only [List.length_cons] at hlent
      omega
    rw [hbr_s] at hnul
    rw [hbr_t]
    have hcongr : recursiveTest t = recursiveTest (u :: w :: p0 :: p1 :: prest) :=
      recursiveTest_congr _ _ (by rw [ht]; rfl)
    rw [hcongr]
    rw [recursiveTest_formula _ (by simp only [List.length_cons]; omega) (by simp)]
    refine Or.inr ⟨(u, w, p0 :: p1 :: prest), ?_, val, hval, hval0, ?_⟩
    · rw [pickTwo, pickOne]
      exact List.mem_append.mpr (Or.inl (List.mem_map.mpr
        ⟨(w, p0 :: p1 :: prest), List.mem_cons_self _ _, rfl⟩))
    · have hc2 : recursiveTest (val :: p0 :: p1 :: prest) = recursiveTest s :=
        recursiveTest_congr _ _ (by rw [hs]; rfl)
      rw [hc2]
      exact hnul

/-- Invariant soundness of the superset loop: with the buffer holding
the source around one junk slot, every emitted list is the source plus
one positive value. -/
theorem supersGo_sound (s : List ℕ) (size maxM : ℕ) :
    ∀ (fuel : ℕ) (A B : List ℕ) (j i : ℕ), A ++ B = s → 1 ≤ i →
      ∀ t ∈ supersGo size maxM fuel (A ++ j :: B) A.length i,
        ∃ v, 1 ≤ v ∧ (↑t : Multiset ℕ) = v ::ₘ ↑s := by
  intro fuel
  induction fuel with
  | zero =>
    intro A B j i hAB hi t ht
    simp [supersGo] at ht
  | succ fuel ih =>
    intro A B j i hAB hi t ht
    rw [supersGo] at ht
    by_cases hi2 : i ≤ maxM
    · rw [if_pos hi2] at ht
      simp only [set_slot A j i B] at ht
      by_cases hc : A.length < size ∧ (A ++ i :: B).getD (A.length + 1) 0 = i
      · rw [if_pos hc] at ht
        rcases B with _ | ⟨b0, B2⟩
        · exfalso
          have hg2 := hc.2
          rw [getD_slot_succ] at hg2
          have h0 : (0 : ℕ) = i := hg2
          omega
        · have hb0 : b0 = i := by
            have hg2 := hc.2
            rw [getD_slot_succ] at hg2
            exact hg2
          subst hb0
          have e1 : A ++ b0 :: b0 :: B2 = (A ++ [b0]) ++ b0 :: B2 := by simp
          have e2 : A.length + 1 = (A ++ [b0]).length := by simp
          rw [e1, e2] at ht
          refine ih (A ++ [b0]) B2 b0 (b0 + 1) ?_ (by omega) t ht
          rw [← hAB]
          simp
      · rw [if_neg hc] at ht
        rcases List.mem_cons.mp ht with rfl | ht2
        · exact ⟨i, hi, by rw [← hAB]; exact coe_slot A B i⟩
        · exact ih A B i (i + 1) hAB (by omega) t ht2
    · rw [if_neg hi2] at ht
      simp at ht

/-- Every output of `supers` is the input plus one positive inserted
value (for a positive lower insertion bound). -/
theorem supers_sound (s : List ℕ) (minM maxM : ℕ) (hminM : 1 ≤ minM) :
    ∀ t ∈ supers s minM maxM, ∃ v, 1 ≤ v ∧ (↑t : Multiset ℕ) = v ::ₘ ↑s := by
  intro t ht
  rw [supers] at ht
  by_cases hbelow : s.getD (s.length - 1) 0 < minM
  · simp only [if_pos hbelow] at ht
    have e1 : s ++ [0] = s ++ (0 : ℕ) :: [] := rfl
    rw [e1] at ht
    exact supersGo_sound s s.length maxM (maxM + 1 - minM) s [] 0 minM (by simp) hminM t ht
  · simp only [if_neg hbelow] at ht
    have e1 : (0 : ℕ) :: s = [] ++ (0 : ℕ) :: s := rfl
    rw [e1] at ht
    exact supersGo_sound s s.length maxM maxM [] s 0 1 (by simp) (by omega) t ht

/-- Rearrangement helper for accumulator bookkeeping. -/
theorem ms_shuffle (q e : Multiset ℕ) (x : ℕ) (w1 w2 w3 : Multiset ℕ)
    (hw : w1 + w2 + w3 = q) : w1 + {x} + w2 + w3 + e = q + (x ::ₘ e) := by
  rw [← hw, ← Multiset.singleton_add]
  abel

/-- The pending-value bookkeeping of the inner insertion `while`: the
accumulator plus the still-pending values is preserved. -/
theorem insWhileGo_sound : ∀ (fuel m1 m2 x : ℕ) (acc : List ℕ),
    (↑(insWhileGo fuel m1 m2 x acc).2.2 : Multiset ℕ)
      + (if (insWhileGo fuel m1 m2 x acc).1 ≠ 0 then {(insWhileGo fuel m1 m2 x acc).1} else 0)
      + (if (insWhileGo fuel m1 m2 x acc).2.1 ≠ 0 then {(insWhileGo fuel m1 m2 x acc).2.1} else 0)
    = ↑acc + (if m1 ≠ 0 then {m1} else 0) + (if m2 ≠ 0 then {m2} else 0) := by
  intro fuel
  induction fuel with
  | zero => intro m1 m2 x acc; rfl
  | succ fuel ih =>
    intro m1 m2 x acc
    rw [insWhileGo]
    by_cases hc : m1 < x ∧ m1 ≠ 0
    · rw [if_pos hc]
      rw [ih m2 0 x (acc ++ [m1])]
      have e0 : (if (0 : ℕ) ≠ 0 then ({0} : Multiset ℕ) else 0) = 0 := by simp
      rw [e0, if_pos hc.2]
      have e1 : (↑(acc ++ [m1]) : Multiset ℕ) = ↑acc + {m1} := rfl
      rw [e1, add_zero]
    · rw [if_neg hc]

/-- Soundness of the walking loop of `insertEqPair`: on success the
output multiset is the accumulator, the pending values, and the
remaining source with the mutation-point element removed. -/
theorem insGo_sound (mutPt : ℕ) : ∀ (rest : List ℕ) (index m1 m2 : ℕ) (acc o : List ℕ),
    insGo mutPt rest index m1 m2 acc = some o →
    (↑o : Multiset ℕ) = ↑acc + (if m1 ≠ 0 then {m1} else 0) + (if m2 ≠ 0 then {m2} else 0)
      + (if index ≤ mutPt then ↑(rest.eraseIdx (mutPt - index)) else ↑rest) := by
  intro rest
  induction rest with
  | nil =>
    intro index m1 m2 acc o ho
    rw [insGo] at ho
    have ho' : acc ++ (if m1 ≠ 0 then [m1] else []) ++ (if m2 ≠ 0 then [m2] else []) = o :=
      Option.some.inj ho
    subst ho'
    have etail : (if index ≤ mutPt
        then (↑(([] : List ℕ).eraseIdx (mutPt - index)) : Multiset ℕ)
        else ↑([] : List ℕ)) = 0 := by
      split_ifs <;> rfl
    rw [etail, add_zero]
    split_ifs <;> rfl
  | cons x rest ih =>
    intro index m1 m2 acc o ho
    have estep : insGo mutPt (x :: rest) index m1 m2 acc =
        (if (insWhileGo 2 m1 m2 x acc).1 = x then none
         else insGo mutPt rest (index + 1) (insWhileGo 2 m1 m2 x acc).1
           (insWhileGo 2 m1 m2 x acc).2.1
           (if index ≠ mutPt then (insWhileGo 2 m1 m2 x acc).2.2 ++ [x]
            else (insWhileGo 2 m1 m2 x acc).2.2)) := rfl
    rw [estep] at ho
    by_cases hcol : (insWhileGo 2 m1 m2 x acc).1 = x
    · rw [if_pos hcol] at ho
      exact absurd ho (by simp)
    · rw [if_neg hcol] at ho
      have hrec := ih (index + 1) (insWhileGo 2 m1 m2 x acc).1 (insWhileGo 2 m1 m2 x acc).2.1
        (if index ≠ mutPt then (insWhileGo 2 m1 m2 x acc).2.2 ++ [x]
         else (insWhileGo 2 m1 m2 x acc).2.2) o ho
      rw [hrec]
      have hw := insWhileGo_sound 2 m1 m2 x acc
      by_cases hidx : index = mutPt
      · rw [if_neg (by omega : ¬ index ≠ mutPt)]
        rw [if_neg (by omega : ¬ index + 1 ≤ mutPt)]
        rw [if_pos (by omega : index ≤ mutPt)]
        have e1 : mutPt - index = 0 := by omega
        rw [e1]
        have e2 : (x :: rest).eraseIdx 0 = rest := rfl
        rw [e2, hw]
      · rw [if_pos hidx]
        by_cases hle : index ≤ mutPt
        · rw [if_pos (by omega : index + 1 ≤ mutPt)]
          rw [if_pos hle]
          have e1 : mutPt - index = (mutPt - (index + 1)) + 1 := by omega
          rw [e1]
          have e2 : (x :: rest).eraseIdx ((mutPt - (index + 1)) + 1)
              = x :: rest.eraseIdx (mutPt - (index + 1)) := rfl
          rw [e2]
          have e3 : (↑((insWhileGo 2 m1 m2 x acc).2.2 ++ [x]) : Multiset ℕ)
              = ↑(insWhileGo 2 m1 m2 x acc).2.2 + {x} := rfl
          rw [e3]
          have e4 : (↑(x :: rest.eraseIdx (mutPt - (index + 1))) : Multiset ℕ)
              = x ::ₘ ↑(rest.eraseIdx (mutPt - (index + 1))) := rfl
          rw [e4]
          exact ms_shuffle _ _ x _ _ _ hw
        · rw [if_neg (by omega : ¬ index + 1 ≤ mutPt)]
          rw [if_neg hle]
          have e3 : (↑((insWhileGo 2 m1 m2 x acc).2.2 ++ [x]) : Multiset ℕ)
              = ↑(insWhileGo 2 m1 m2 x acc).2.2 + {x} := rfl
          rw [e3]
          have e4 : (↑(x :: rest) : Multiset ℕ) = x ::ₘ ↑rest := rfl
          rw [e4]
          exact ms_shuffle _ _ x _ _ _ hw

/-- On success, `insertEqPair` emits exactly the source with the
mutation-point element replaced by the given positive pair. -/
theorem insertEqPair_sound (mutPt : ℕ) (set : List ℕ) (minor major : ℕ)
    (hminor : 1 ≤ minor) (hmajor : 1 ≤ major) :
    ∀ t ∈ insertEqPair mutPt set minor major,
      (↑t : Multiset ℕ) = minor ::ₘ major ::ₘ ↑(set.eraseIdx mutPt) := by
  intro t ht
  rw [insertEqPair] at ht
  rcases ho : insGo mutPt set 0 minor major [] with _ | o
  · rw [ho] at ht
    simp at ht
  · rw [ho] at ht
    have hto : t = o := by simpa using ht
    subst hto
    have hs := insGo_sound mutPt set 0 minor major [] t ho
    rw [hs]
    rw [if_pos (by omega : minor ≠ 0), if_pos (by omega : major ≠ 0)]
    rw [if_pos (by omega : 0 ≤ mutPt)]
    have e0 : mutPt - 0 = mutPt := by omega
    rw [e0]
    have e1 : (↑([] : List ℕ) : Multiset ℕ) = 0 := rfl
    rw [e1]
    rw [← Multiset.singleton_add minor, ← Multiset.singleton_add major]
    abel

/-- Every output of the product-pair loop replaces the mutation-point
value by a factor pair merging back to it via the product slot. -/
theorem mulProdGo_sound (set : List ℕ) (mutPt mutVal : ℕ) :
    ∀ (fuel minor : ℕ), 1 ≤ minor →
      ∀ t ∈ mulProdGo set mutPt mutVal fuel minor,
        ∃ u w, 1 ≤ u ∧ 1 ≤ w ∧ mutVal ∈ replacements u w ∧
          (↑t : Multiset ℕ) = u ::ₘ w ::ₘ ↑(set.eraseIdx mutPt) := by
  intro fuel
  induction fuel with
  | zero => intro minor hm t ht; simp [mulProdGo] at ht
  | succ fuel ih =>
    intro minor hm t ht
    rw [mulProdGo] at ht
    by_cases hg : minor < mutVal / minor
    · rw [if_pos hg] at ht
      rcases List.mem_append.mp ht with h | h
      · by_cases hd : mutVal % minor = 0
        · rw [if_pos hd] at h
          have hw1 : 1 ≤ mutVal / minor := by omega
          have hmul := insertEqPair_sound mutPt set minor (mutVal / minor) hm hw1 t h
          refine ⟨minor, mutVal / minor, hm, hw1, ?_, hmul⟩
          have hdvd : minor ∣ mutVal := Nat.dvd_of_mod_eq_zero hd
          have hprod : minor * (mutVal / minor) = mutVal := Nat.mul_div_cancel' hdvd
          rw [replacements]
          simp only [List.mem_cons, List.not_mem_nil, or_false]
          exact Or.inr (Or.inr (Or.inr hprod.symm))
        · rw [if_neg hd] at h
          simp at h
      · exact ih (minor + 1) (by omega) t h
    · rw [if_neg hg] at ht
      simp at ht

/-- Every output of the quotient-pair loop replaces the mutation-point
value by a divisor/multiple pair merging back to it via the quotient
slot. -/
theorem mulQuotGo_sound (set : List ℕ) (mutPt mutVal max : ℕ) (hmv : 2 ≤ mutVal) :
    ∀ (fuel divisor : ℕ), 1 ≤ divisor →
      ∀ t ∈ mulQuotGo set mutPt mutVal max fuel divisor,
        ∃ u w, 1 ≤ u ∧ 1 ≤ w ∧ mutVal ∈ replacements u w ∧
          (↑t : Multiset ℕ) = u ::ₘ w ::ₘ ↑(set.eraseIdx mutPt) := by
  intro fuel
  induction fuel with
  | zero => intro divisor hdv t ht; simp [mulQuotGo] at ht
  | succ fuel ih =>
    intro divisor hdv t ht
    rw [mulQuotGo] at ht
    by_cases hg : divisor ≤ max / mutVal
    · rw [if_pos hg] at ht
      rcases List.mem_append.mp ht with h | h
      · have hw1 : 1 ≤ mutVal * divisor := by
          have := Nat.mul_pos (by omega : 0 < mutVal) (by omega : 0 < divisor)
          omega
        have hmul := insertEqPair_sound mutPt set divisor (mutVal * divisor) hdv hw1 t h
        refine ⟨divisor, mutVal * divisor, hdv, hw1, ?_, hmul⟩
        have hlt : divisor < mutVal * divisor := by
          have h2 : 2 * divisor ≤ mutVal * divisor := Nat.mul_le_mul_right divisor hmv
          omega
        have h1 : divisor % (mutVal * divisor) = divisor := Nat.mod_eq_of_lt hlt
        have h2 : (mutVal * divisor) % divisor = 0 := Nat.mul_mod_left mutVal divisor
        have h3 : mutVal * divisor / divisor = mutVal :=
          Nat.mul_div_cancel mutVal (by omega : 0 < divisor)
        rw [replacements]
        have hne : ¬ divisor % (mutVal * divisor) = 0 := by omega
        simp only [h1, h2, h3, beq_iff_eq, if_neg hne, if_pos rfl]
        simp only [List.mem_cons, List.not_mem_nil, or_false]
        refine Or.inr (Or.inr (Or.inl ?_))
        rw [if_neg (show ¬ divisor = 0 by omega)]
        simp
      · exact ih (divisor + 1) (by omega) t h
    · rw [if_neg hg] at ht
      simp at ht

/-- Every output of `mutateMul` on a positive source replaces one
element by a positive pair that the replacement table merges back into
it. -/
theorem mutateMul_sound (set : List ℕ) (max : ℕ) (hpos : ∀ x ∈ set, 1 ≤ x) :
    ∀ t ∈ mutateMul set max,
      ∃ (val : ℕ) (rest : List ℕ) (u w : ℕ),
        (↑set : Multiset ℕ) = val ::ₘ ↑rest ∧
        (↑t : Multiset ℕ) = u ::ₘ w ::ₘ ↑rest ∧
        1 ≤ u ∧ 1 ≤ w ∧ val ≠ 0 ∧ val ∈ replacements u w := by
  intro t ht
  rw [mutateMul] at ht
  rw [List.mem_flatMap] at ht
  obtain ⟨mutPt, hmp0, ht2⟩ := ht
  rw [List.mem_range] at hmp0
  have hmem : set.getD mutPt 0 ∈ set := by
    have e : set.getD mutPt 0 = set[mutPt] := by
      rw [List.getD_eq_getElem?_getD, List.getElem?_eq_getElem hmp0]
      rfl
    rw [e]
    exact List.getElem_mem hmp0
  have hv1 : 1 ≤ set.getD mutPt 0 := hpos _ hmem
  by_cases h1 : set.getD mutPt 0 = 1
  · rw [if_pos h1] at ht2
    simp at ht2
  · rw [if_neg h1] at ht2
    have hv2 : 2 ≤ set.getD mutPt 0 := by omega
    have hsm : (↑set : Multiset ℕ) = set.getD mutPt 0 ::ₘ ↑(set.eraseIdx mutPt) :=
      coe_eraseIdx set mutPt hmp0
    rcases List.mem_append.mp ht2 with h | h
    · obtain ⟨u, w, hu, hw, hrep, hmul⟩ :=
        mulProdGo_sound set mutPt (set.getD mutPt 0) (set.getD mutPt 0) 1 (by omega) t h
      exact ⟨set.getD mutPt 0, set.eraseIdx mutPt, u, w, hsm, hmul, hu, hw, by omega, hrep⟩
    · obtain ⟨u, w, hu, hw, hrep, hmul⟩ :=
        mulQuotGo_sound set mutPt (set.getD mutPt 0) max hv2 (max / set.getD mutPt 0) 2
          (by omega) t h
      exact ⟨set.getD mutPt 0, set.eraseIdx mutPt, u, w, hsm, hmul, hu, hw, by omega, hrep⟩

/-- Invariant soundness of the sum-pair loop: with the buffer holding
the remainder around a main slot and a follower slot (main slot
leftmost), every emitted list is the remainder plus a positive pair
summing to the mutated value. -/
theorem sumGo_sound (base : List ℕ) (eSize mutVal maxMajor minMajor : ℕ) :
    ∀ (fuel : ℕ) (A Bm C : List ℕ) (jm jf a : ℕ), A ++ Bm ++ C = base → 1 ≤ a →
      ∀ t ∈ sumGo eSize mutVal maxMajor minMajor fuel
          (A ++ jm :: (Bm ++ jf :: C)) A.length (A.length + 1 + Bm.length) a,
        ∃ x f, 1 ≤ x ∧ 1 ≤ f ∧ x + f = mutVal ∧
          (↑t : Multiset ℕ) = x ::ₘ f ::ₘ ↑base := by
  intro fuel
  induction fuel with
  | zero => intro A Bm C jm jf a hs ha t ht; simp [sumGo] at ht
  | succ fuel ih =>
    intro A Bm C jm jf a hs ha t ht
    rw [sumGo] at ht
    by_cases hg : a ≤ (mutVal - 1) / 2
    swap
    · rw [if_neg hg] at ht; simp at ht
    rw [if_pos hg] at ht
    have hgm : a * 2 ≤ mutVal - 1 := (Nat.le_div_iff_mul_le (by omega)).mp hg
    have haf : a < mutVal - a := by omega
    have hset : ((A ++ jm :: (Bm ++ jf :: C)).set A.length a).set
        (A.length + 1 + Bm.length) (mutVal - a) = (A ++ a :: Bm) ++ (mutVal - a) :: C := by
      rw [set_slot]
      have e1 : A ++ a :: (Bm ++ jf :: C) = (A ++ a :: Bm) ++ jf :: C := by simp
      rw [e1]
      have e2 : A.length + 1 + Bm.length = (A ++ a :: Bm).length := by
        simp only [List.length_append, List.length_cons, List.length_nil]
        omega
      rw [e2, set_slot]
    simp only [hset] at ht
    by_cases hc1 : A.length < eSize - 1 ∧
        ((A ++ a :: Bm) ++ (mutVal - a) :: C).getD (A.length + 1) 0 = a
    · rw [if_pos hc1] at ht
      rcases Bm with _ | ⟨b0, Bm1⟩
      · exfalso
        have hg2 := hc1.2
        have e : (A ++ a :: ([] : List ℕ)) ++ (mutVal - a) :: C
            = A ++ a :: ((mutVal - a) :: C) := by simp
        rw [e, getD_slot_succ] at hg2
        have hfa : mutVal - a = a := by simpa using hg2
        omega
      have hb0 : b0 = a := by
        have hg2 := hc1.2
        have e : (A ++ a :: (b0 :: Bm1)) ++ (mutVal - a) :: C
            = A ++ a :: (b0 :: (Bm1 ++ (mutVal - a) :: C)) := by simp
        rw [e, getD_slot_succ] at hg2
        simpa using hg2
      by_cases hc2 : 0 < A.length + 1 + (b0 :: Bm1).length ∧
          ((A ++ a :: (b0 :: Bm1)) ++ (mutVal - a) :: C).getD
            (A.length + 1 + (b0 :: Bm1).length - 1) 0 = mutVal - a
      · rw [if_pos hc2, if_pos (Or.inl hc1)] at ht
        have hREC : t ∈ sumGo eSize mutVal maxMajor minMajor fuel
            ((A ++ a :: (b0 :: Bm1)) ++ (mutVal - a) :: C) (A.length + 1)
            (A.length + 1 + (b0 :: Bm1).length - 1) (a + 1) := by
          by_cases hb1 : maxMajor < mutVal - a
          · rwa [if_pos hb1] at ht
          · rw [if_neg hb1] at ht
            by_cases hb2 : mutVal - a < minMajor
            · rw [if_pos hb2] at ht; simp at ht
            · rwa [if_neg hb2] at ht
        rcases List.eq_nil_or_concat Bm1 with rfl | ⟨Bm2, bl, hBm⟩
        · exfalso
          have hg2 := hc2.2
          have eidx : A.length + 1 + (b0 :: ([] : List ℕ)).length - 1 = A.length + 1 := by
            simp
          have e : (A ++ a :: (b0 :: ([] : List ℕ))) ++ (mutVal - a) :: C
              = A ++ a :: (b0 :: ((mutVal - a) :: C)) := by simp
          rw [eidx, e, getD_slot_succ] at hg2
          have hba : b0 = mutVal - a := by simpa using hg2
          omega
        · rw [List.concat_eq_append] at hBm
          subst hBm
          have hbl : bl = mutVal - a := by
            have hg2 := hc2.2
            have eidx : A.length + 1 + (b0 :: (Bm2 ++ [bl])).length - 1
                = (A ++ a :: (b0 :: Bm2)).length := by
              simp only [List.length_append, List.length_cons, List.length_nil]
              omega
            have e : (A ++ a :: (b0 :: (Bm2 ++ [bl]))) ++ (mutVal - a) :: C
                = (A ++ a :: (b0 :: Bm2)) ++ bl :: ((mutVal - a) :: C) := by simp
            rw [eidx, e, getD_mid] at hg2
            exact hg2
          have epf : A.length + 1 + (b0 :: (Bm2 ++ [bl])).length - 1
              = (A ++ [a]).length + 1 + Bm2.length := by
            simp only [List.length_append, List.length_cons, List.length_nil]
            omega
          have epm : A.length + 1 = (A ++ [a]).length := by simp
          have eb : (A ++ a :: (b0 :: (Bm2 ++ [bl]))) ++ (mutVal - a) :: C
              = (A ++ [a]) ++ b0 :: (Bm2 ++ bl :: ((mutVal - a) :: C)) := by
            simp
          rw [epf, epm, eb] at hREC
          refine ih (A ++ [a]) Bm2 ((mutVal - a) :: C) b0 bl (a + 1) ?_ (by omega) t hREC
          rw [← hs, hb0, hbl]
          simp
      · rw [if_neg hc2, if_pos (Or.inl hc1)] at ht
        have hREC : t ∈ sumGo eSize mutVal maxMajor minMajor fuel
            ((A ++ a :: (b0 :: Bm1)) ++ (mutVal - a) :: C) (A.length + 1)
            (A.length + 1 + (b0 :: Bm1).length) (a + 1) := by
          by_cases hb1 : maxMajor < mutVal - a
          · rwa [if_pos hb1] at ht
          · rw [if_neg hb1] at ht
            by_cases hb2 : mutVal - a < minMajor
            · rw [if_pos hb2] at ht; simp at ht
            · rwa [if_neg hb2] at ht
        have epf : A.length + 1 + (b0 :: Bm1).length = (A ++ [a]).length + 1 + Bm1.length := by
          simp only [List.length_append, List.length_cons, List.length_nil]
          omega
        have epm : A.length + 1 = (A ++ [a]).length := by simp
        have eb : (A ++ a :: (b0 :: Bm1)) ++ (mutVal - a) :: C
            = (A ++ [a]) ++ b0 :: (Bm1 ++ (mutVal - a) :: C) := by simp
        rw [epf, epm, eb] at hREC
        refine ih (A ++ [a]) Bm1 C b0 (mutVal - a) (a + 1) ?_ (by omega) t hREC
        rw [← hs, hb0]
        simp
    · rw [if_neg hc1] at ht
      by_cases hc2 : 0 < A.length + 1 + Bm.length ∧
          ((A ++ a :: Bm) ++ (mutVal - a) :: C).getD
            (A.length + 1 + Bm.length - 1) 0 = mutVal - a
      · rw [if_pos hc2, if_pos (Or.inr hc2)] at ht
        have hREC : t ∈ sumGo eSize mutVal maxMajor minMajor fuel
            ((A ++ a :: Bm) ++ (mutVal - a) :: C) A.length
            (A.length + 1 + Bm.length - 1) (a + 1) := by
          by_cases hb1 : maxMajor < mutVal - a
          · rwa [if_pos hb1] at ht
          · rw [if_neg hb1] at ht
            by_cases hb2 : mutVal - a < minMajor
            · rw [if_pos hb2] at ht; simp at ht
            · rwa [if_neg hb2] at ht
        rcases List.eq_nil_or_concat Bm with rfl | ⟨Bm2, bl, hBm⟩
        · exfalso
          have hg2 := hc2.2
          have eidx : A.length + 1 + ([] : List ℕ).length - 1 = A.length := by simp
          have e : (A ++ a :: ([] : List ℕ)) ++ (mutVal - a) :: C
              = A ++ a :: ((mutVal - a) :: C) := by simp
          rw [eidx, e, getD_mid] at hg2
          omega
        · rw [List.concat_eq_append] at hBm
          subst hBm
          have hbl : bl = mutVal - a := by
            have hg2 := hc2.2
            have eidx : A.length + 1 + (Bm2 ++ [bl]).length - 1
                = (A ++ a :: Bm2).length := by
              simp only [List.length_append, List.length_cons, List.length_nil]
              omega
            have e : (A ++ a :: (Bm2 ++ [bl])) ++ (mutVal - a) :: C
                = (A ++ a :: Bm2) ++ bl :: ((mutVal - a) :: C) := by simp
            rw [eidx, e, getD_mid] at hg2
            exact hg2
          have epf : A.length + 1 + (Bm2 ++ [bl]).length - 1
              = A.length + 1 + Bm2.length := by
            simp only [List.length_append, List.length_cons, List.length_nil]
            omega
          have eb : (A ++ a :: (Bm2 ++ [bl])) ++ (mutVal - a) :: C
              = A ++ a :: (Bm2 ++ bl :: ((mutVal - a) :: C)) := by simp
          rw [epf, eb] at hREC
          refine ih A Bm2 ((mutVal - a) :: C) a bl (a + 1) ?_ (by omega) t hREC
          rw [← hs, hbl]
          simp
      · rw [if_neg hc2] at ht
        rw [if_neg (by rintro (h | h); exacts [hc1 h, hc2 h] :
          ¬ ((A.length < eSize - 1 ∧
              ((A ++ a :: Bm) ++ (mutVal - a) :: C).getD (A.length + 1) 0 = a) ∨
             (0 < A.length + 1 + Bm.length ∧
              ((A ++ a :: Bm) ++ (mutVal - a) :: C).getD
                (A.length + 1 + Bm.length - 1) 0 = mutVal - a)))] at ht
        have htrans : ∀ u, u ∈ sumGo eSize mutVal maxMajor minMajor fuel
            ((A ++ a :: Bm) ++ (mutVal - a) :: C) A.length
            (A.length + 1 + Bm.length) (a + 1) →
            ∃ x f, 1 ≤ x ∧ 1 ≤ f ∧ x + f = mutVal ∧
              (↑u : Multiset ℕ) = x ::ₘ f ::ₘ ↑base := by
          intro u hu
          have eb : (A ++ a :: Bm) ++ (mutVal - a) :: C
              = A ++ a :: (Bm ++ (mutVal - a) :: C) := by simp
          rw [eb] at hu
          exact ih A Bm C a (mutVal - a) (a + 1) hs (by omega) u hu
        by_cases hb1 : maxMajor < mutVal - a
        · rw [if_pos hb1] at ht
          exact htrans t ht
        · rw [if_neg hb1] at ht
          by_cases hb2 : mutVal - a < minMajor
          · rw [if_pos hb2] at ht; simp at ht
          · rw [if_neg hb2] at ht
            rcases List.mem_cons.mp ht with rfl | ht2
            · refine ⟨a, mutVal - a, ha, by omega, by omega, ?_⟩
              have m1 : (↑((A ++ a :: Bm) ++ (mutVal - a) :: C) : Multiset ℕ)
                  = (mutVal - a) ::ₘ ↑((A ++ a :: Bm) ++ C) :=
                coe_slot (A ++ a :: Bm) C (mutVal - a)
              have m2 : (A ++ a :: Bm) ++ C = A ++ a :: (Bm ++ C) := by simp
              have m3 : (↑(A ++ a :: (Bm ++ C)) : Multiset ℕ)
                  = a ::ₘ ↑(A ++ (Bm ++ C)) := coe_slot A (Bm ++ C) a
              have m4 : A ++ (Bm ++ C) = base := by rw [← hs]; simp
              rw [m1, m2, m3, m4, Multiset.cons_swap]
            · exact htrans t ht2

/-- Invariant soundness of the difference-pair loop: every emitted
list is the remainder plus a positive pair whose difference is the
mutated value. -/
theorem diffGo_sound (base : List ℕ) (eSize mutVal maxMinu minMinu : ℕ) (hmv : 1 ≤ mutVal) :
    ∀ (fuel : ℕ) (A Bm C : List ℕ) (jm jf a : ℕ), A ++ Bm ++ C = base → 1 ≤ a →
      ∀ t ∈ diffGo eSize mutVal maxMinu minMinu fuel
          (A ++ jm :: (Bm ++ jf :: C)) A.length (A.length + 1 + Bm.length) a,
        ∃ x f, 1 ≤ x ∧ 1 ≤ f ∧ f = mutVal + x ∧
          (↑t : Multiset ℕ) = x ::ₘ f ::ₘ ↑base := by
  intro fuel
  induction fuel with
  | zero => intro A Bm C jm jf a hs ha t ht; simp [diffGo] at ht
  | succ fuel ih =>
    intro A Bm C jm jf a hs ha t ht
    rw [diffGo] at ht
    by_cases hg : a ≤ maxMinu - mutVal
    swap
    · rw [if_neg hg] at ht; simp at ht
    rw [if_pos hg] at ht
    have haf : a < mutVal + a := by omega
    have hset : ((A ++ jm :: (Bm ++ jf :: C)).set A.length a).set
        (A.length + 1 + Bm.length) (mutVal + a) = (A ++ a :: Bm) ++ (mutVal + a) :: C := by
      rw [set_slot]
      have e1 : A ++ a :: (Bm ++ jf :: C) = (A ++ a :: Bm) ++ jf :: C := by simp
      rw [e1]
      have e2 : A.length + 1 + Bm.length = (A ++ a :: Bm).length := by
        simp only [List.length_append, List.length_cons, List.length_nil]
        omega
      rw [e2, set_slot]
    simp only [hset] at ht
    have hmain : ∀ (A2 Bm2 C2 : List ℕ) (jm2 jf2 : ℕ), A2 ++ Bm2 ++ C2 = base →
        t ∈ diffGo eSize mutVal maxMinu minMinu fuel
          (A2 ++ jm2 :: (Bm2 ++ jf2 :: C2)) A2.length (A2.length + 1 + Bm2.length) (a + 1) →
        ∃ x f, 1 ≤ x ∧ 1 ≤ f ∧ f = mutVal + x ∧
          (↑t : Multiset ℕ) = x ::ₘ f ::ₘ ↑base := by
      intro A2 Bm2 C2 jm2 jf2 hs2 ht2
      exact ih A2 Bm2 C2 jm2 jf2 (a + 1) hs2 (by omega) t ht2
    by_cases hc1 : A.length < eSize - 1 ∧
        ((A ++ a :: Bm) ++ (mutVal + a) :: C).getD (A.length + 1) 0 = a
    · rw [if_pos hc1] at ht
      rcases Bm with _ | ⟨b0, Bm1⟩
      · exfalso
        have hg2 := hc1.2
        have e : (A ++ a :: ([] : List ℕ)) ++ (mutVal + a) :: C
            = A ++ a :: ((mutVal + a) :: C) := by simp
        rw [e, getD_slot_succ] at hg2
        have hfa : mutVal + a = a := by simpa using hg2
        omega
      have hb0 : b0 = a := by
        have hg2 := hc1.2
        have e : (A ++ a :: (b0 :: Bm1)) ++ (mutVal + a) :: C
            = A ++ a :: (b0 :: (Bm1 ++ (mutVal + a) :: C)) := by simp
        rw [e, getD_slot_succ] at hg2
        simpa using hg2
      by_cases hc2 : A.length + 1 + (b0 :: Bm1).length < eSize - 1 ∧
          ((A ++ a :: (b0 :: Bm1)) ++ (mutVal + a) :: C).getD
            (A.length + 1 + (b0 :: Bm1).length + 1) 0 = mutVal + a
      · rw [if_pos hc2, if_pos (Or.inl hc1)] at ht
        rcases C with _ | ⟨c0, C1⟩
        · exfalso
          have hg2 := hc2.2
          have eidx : A.length + 1 + (b0 :: Bm1).length + 1
              = (A ++ a :: (b0 :: Bm1)).length + 1 := by
            simp only [List.length_append, List.length_cons, List.length_nil]
            omega
          rw [eidx, getD_slot_succ] at hg2
          have h0 : (0 : ℕ) = mutVal + a := by simpa using hg2
          omega
        · have hc0 : c0 = mutVal + a := by
            have hg2 := hc2.2
            have eidx : A.length + 1 + (b0 :: Bm1).length + 1
                = (A ++ a :: (b0 :: Bm1)).length + 1 := by
              simp only [List.length_append, List.length_cons, List.length_nil]
              omega
            rw [eidx, getD_slot_succ] at hg2
            simpa using hg2
          have epm : A.length + 1 = (A ++ [a]).length := by simp
          have epf : A.length + 1 + (b0 :: Bm1).length + 1
              = (A ++ [a]).length + 1 + (Bm1 ++ [mutVal + a]).length := by
            simp only [List.length_append, List.length_cons, List.length_nil]
            omega
          have eb : (A ++ a :: (b0 :: Bm1)) ++ (mutVal + a) :: (c0 :: C1)
              = (A ++ [a]) ++ b0 :: ((Bm1 ++ [mutVal + a]) ++ c0 :: C1) := by
            simp
          rw [epf, epm, eb] at ht
          refine hmain (A ++ [a]) (Bm1 ++ [mutVal + a]) C1 b0 c0 ?_ ht
          rw [← hs, hb0, hc0]
          simp
      · rw [if_neg hc2, if_pos (Or.inl hc1)] at ht
        have epm : A.length + 1 = (A ++ [a]).length := by simp
        have epf : A.length + 1 + (b0 :: Bm1).length
            = (A ++ [a]).length + 1 + Bm1.length := by
          simp only [List.length_append, List.length_cons, List.length_nil]
          omega
        have eb : (A ++ a :: (b0 :: Bm1)) ++ (mutVal + a) :: C
            = (A ++ [a]) ++ b0 :: (Bm1 ++ (mutVal + a) :: C) := by simp
        rw [epf, epm, eb] at ht
        refine hmain (A ++ [a]) Bm1 C b0 (mutVal + a) ?_ ht
        rw [← hs, hb0]
        simp
    · rw [if_neg hc1] at ht
      by_cases hc2 : A.length + 1 + Bm.length < eSize - 1 ∧
          ((A ++ a :: Bm) ++ (mutVal + a) :: C).getD
            (A.length + 1 + Bm.length + 1) 0 = mutVal + a
      · rw [if_pos hc2, if_pos (Or.inr (Or.inl hc2))] at ht
        rcases C with _ | ⟨c0, C1⟩
        · exfalso
          have hg2 := hc2.2
          have eidx : A.length + 1 + Bm.length + 1 = (A ++ a :: Bm).length + 1 := by
            simp only [List.length_append, List.length_cons, List.length_nil]
            omega
          rw [eidx, getD_slot_succ] at hg2
          have h0 : (0 : ℕ) = mutVal + a := by simpa using hg2
          omega
        · have hc0 : c0 = mutVal + a := by
            have hg2 := hc2.2
            have eidx : A.length + 1 + Bm.length + 1 = (A ++ a :: Bm).length + 1 := by
              simp only [List.length_append, List.length_cons, List.length_nil]
              omega
            rw [eidx, getD_slot_succ] at hg2
            simpa using hg2
          have epf : A.length + 1 + Bm.length + 1
              = A.length + 1 + (Bm ++ [mutVal + a]).length := by
            simp only [List.length_append, List.length_cons, List.length_nil]
            omega
          have eb : (A ++ a :: Bm) ++ (mutVal + a) :: (c0 :: C1)
              = A ++ a :: ((Bm ++ [mutVal + a]) ++ c0 :: C1) := by simp
          rw [epf, eb] at ht
          refine hmain A (Bm ++ [mutVal + a]) C1 a c0 ?_ ht
          rw [← hs, hc0]
          simp
      · rw [if_neg hc2] at ht
        by_cases hb : mutVal + a < minMinu
        · rw [if_pos (Or.inr (Or.inr hb))] at ht
          have eb : (A ++ a :: Bm) ++ (mutVal + a) :: C
              = A ++ a :: (Bm ++ (mutVal + a) :: C) := by simp
          rw [eb] at ht
          exact hmain A Bm C a (mutVal + a) hs ht
        · rw [if_neg (by rintro (h | h | h); exacts [hc1 h, hc2 h, hb h] :
            ¬ ((A.length < eSize - 1 ∧
                ((A ++ a :: Bm) ++ (mutVal + a) :: C).getD (A.length + 1) 0 = a) ∨
               (A.length + 1 + Bm.length < eSize - 1 ∧
                ((A ++ a :: Bm) ++ (mutVal + a) :: C).getD
                  (A.length + 1 + Bm.length + 1) 0 = mutVal + a) ∨
               mutVal + a < minMinu))] at ht
          rcases List.mem_cons.mp ht with rfl | ht2
          · refine ⟨a, mutVal + a, ha, by omega, rfl, ?_⟩
            have m1 : (↑((A ++ a :: Bm) ++ (mutVal + a) :: C) : Multiset ℕ)
                = (mutVal + a) ::ₘ ↑((A ++ a :: Bm) ++ C) :=
              coe_slot (A ++ a :: Bm) C (mutVal + a)
            have m2 : (A ++ a :: Bm) ++ C = A ++ a :: (Bm ++ C) := by simp
            have m3 : (↑(A ++ a :: (Bm ++ C)) : Multiset ℕ)
                = a ::ₘ ↑(A ++ (Bm ++ C)) := coe_slot A (Bm ++ C) a
            have m4 : A ++ (Bm ++ C) = base := by rw [← hs]; simp
            rw [m1, m2, m3, m4, Multiset.cons_swap]
          · have eb : (A ++ a :: Bm) ++ (mutVal + a) :: C
                = A ++ a :: (Bm ++ (mutVal + a) :: C) := by simp
            rw [eb] at ht2
            exact hmain A Bm C a (mutVal + a) hs ht2

/-- Every output of `mutateAdd` on a positive source replaces one
element by a positive pair that the replacement table merges back into
it (by sum or difference). -/
theorem mutateAdd_sound (set : List ℕ) (max : ℕ) (hpos : ∀ x ∈ set, 1 ≤ x) :
    ∀ t ∈ mutateAdd set max,
      ∃ (val : ℕ) (rest : List ℕ) (u w : ℕ),
        (↑set : Multiset ℕ) = val ::ₘ ↑rest ∧
        (↑t : Multiset ℕ) = u ::ₘ w ::ₘ ↑rest ∧
        1 ≤ u ∧ 1 ≤ w ∧ val ≠ 0 ∧ val ∈ replacements u w := by
  intro t ht
  rw [mutateAdd, List.mem_flatMap] at ht
  obtain ⟨mutPt, hmp0, ht2⟩ := ht
  rw [List.mem_range] at hmp0
  have hv1 : 1 ≤ set.getD mutPt 0 := by
    have e : set.getD mutPt 0 = set[mutPt] := by
      rw [List.getD_eq_getElem?_getD, List.getElem?_eq_getElem hmp0]
      rfl
    rw [e]
    exact hpos _ (List.getElem_mem hmp0)
  have hsm : (↑set : Multiset ℕ) = set.getD mutPt 0 ::ₘ ↑(set.eraseIdx mutPt) :=
    coe_eraseIdx set mutPt hmp0
  have hsplit : set = set.take mutPt ++ set.getD mutPt 0 :: set.drop (mutPt + 1) := by
    have hdrop : set.drop mutPt = set.getD mutPt 0 :: set.drop (mutPt + 1) := by
      rw [List.getD_eq_getElem?_getD, List.getElem?_eq_getElem hmp0]
      exact List.drop_eq_getElem_cons hmp0
    conv_lhs => rw [← List.take_append_drop mutPt set]
    rw [hdrop]
  have hbase : ([] : List ℕ) ++ set.take mutPt ++ set.drop (mutPt + 1)
      = set.eraseIdx mutPt := by
    rw [List.eraseIdx_eq_take_drop_succ]
    simp
  have egetD : ((0 : ℕ) :: set).getD (mutPt + 1) 0 = set.getD mutPt 0 := by
    rw [List.getD_cons_succ]
  have e2 : mutPt + 1 = ([] : List ℕ).length + 1 + (set.take mutPt).length := by
    simp only [List.length_nil, List.length_take]
    omega
  have e1 : (0 : ℕ) :: set = ([] : List ℕ)
      ++ (0 : ℕ) :: (set.take mutPt ++ set.getD mutPt 0 :: set.drop (mutPt + 1)) := by
    rw [← hsplit]
    rfl
  rcases List.mem_append.mp ht2 with h | h
  · rw [mutateOpSum] at h
    simp only [egetD] at h
    rw [e2, e1] at h
    obtain ⟨x, f, hx, hf, hxf, hmul⟩ :=
      sumGo_sound (set.eraseIdx mutPt) (set.length + 1) (set.getD mutPt 0) max 1
        ((set.getD mutPt 0 - 1) / 2) [] (set.take mutPt) (set.drop (mutPt + 1)) 0
        (set.getD mutPt 0) 1 hbase le_rfl t h
    refine ⟨set.getD mutPt 0, set.eraseIdx mutPt, x, f, hsm, hmul, hx, hf, by omega, ?_⟩
    have hvv : set.getD mutPt 0 = x + f := hxf.symm
    rw [hvv, replacements]
    simp
  · rw [mutateOpDiff] at h
    simp only [egetD] at h
    rw [e2, e1] at h
    obtain ⟨x, f, hx, hf, hxf, hmul⟩ :=
      diffGo_sound (set.eraseIdx mutPt) (set.length + 1) (set.getD mutPt 0) max 1 hv1
        (max - set.getD mutPt 0) [] (set.take mutPt) (set.drop (mutPt + 1)) 0
        (set.getD mutPt 0) 1 hbase le_rfl t h
    refine ⟨set.getD mutPt 0, set.eraseIdx mutPt, x, f, hsm, hmul, hx, hf, by omega, ?_⟩
    have hvv : set.getD mutPt 0 = if x > f then x - f else f - x := by
      rw [if_neg (show ¬ x > f by omega)]
      omega
    rw [replacements]
    rw [hvv]
    simp

/-- Claim C1 — soundness of generation: for every strictly ascending
set of positive integers that the tester classifies as nullifiable,
every set emitted by `expand` in any mode (supersets under
`EXPAND_SUPERS`, additive mutations under `EXPAND_MUT_ADD`,
multiplicative mutations under `EXPAND_MUT_MUL`) is also classified
nullifiable by the tester; hence every set marked in a generation step
from a nullifiable source is tester-nullifiable. -/
theorem claim_C1 (s : List ℕ) (max mode : ℕ) (hasc : List.Chain' (· < ·) s)
    (hpos : ∀ x ∈ s, 1 ≤ x) (hnul : nulTest s = true) :
    ∀ t ∈ (expand s max mode).2, nulTest t = true := by
  intro t ht
  rw [expand] at ht
  by_cases h1 : s.getD 0 0 < 1
  · rw [if_pos h1] at ht; simp at ht
  rw [if_neg h1] at ht
  by_cases h2 : ¬ List.Chain' (· < ·) s
  · rw [if_pos h2] at ht; simp at ht
  rw [if_neg h2] at ht
  by_cases h3 : max < s.getD (s.length - 1) 0
  · rw [if_pos h3] at ht; simp at ht
  rw [if_neg h3] at ht
  simp only [] at ht
  by_cases h4 : 2 ≤ s.length ∧ max < s.getD (s.length - 2) 0
  · rw [if_pos h4] at ht; simp at ht
  rw [if_neg h4] at ht
  have hmut : ∀ u, u ∈ ((if mode &&& EXPAND_MUT_ADD ≠ 0 then mutateAdd s max else []) ++
      (if mode &&& EXPAND_MUT_MUL ≠ 0 then mutateMul s max else [])) →
      nulTest u = true := by
    intro u hu
    rcases List.mem_append.mp hu with h | h
    · by_cases hm : mode &&& EXPAND_MUT_ADD ≠ 0
      · rw [if_pos hm] at h
        obtain ⟨val, rest, uu, ww, hsm, htm, hu1, hw1, hval0, hvalr⟩ :=
          mutateAdd_sound s max hpos u h
        exact nulTest_merge_pair s rest u uu ww val hsm htm hu1 hw1 hval0 hvalr hpos hnul
      · rw [if_neg hm] at h; simp at h
    · by_cases hm : mode &&& EXPAND_MUT_MUL ≠ 0
      · rw [if_pos hm] at h
        obtain ⟨val, rest, uu, ww, hsm, htm, hu1, hw1, hval0, hvalr⟩ :=
          mutateMul_sound s max hpos u h
        exact nulTest_merge_pair s rest u uu ww val hsm htm hu1 hw1 hval0 hvalr hpos hnul
      · rw [if_neg hm] at h; simp at h
  by_cases h5 : 1 ≤ s.length ∧ max < s.getD (s.length - 1) 0
  · rw [if_pos h5] at ht
    exact hmut t ht
  · rw [if_neg h5] at ht
    rcases List.mem_append.mp ht with h | h
    · exact hmut t h
    · by_cases hm : mode &&& EXPAND_SUPERS ≠ 0
      · rw [if_pos hm] at h
        obtain ⟨v, hv1, hmul⟩ := supers_sound s 1 max le_rfl t h
        exact nulTest_superset s t v hpos hv1 hmul hnul
      · rw [if_neg hm] at h; simp at h

/-- Witness for claim C1 at the nullifiable source `(1, 2, 3)` with
`max` 4 and all three mode flags set. -/
theorem claim_C1_witness :
    List.Chain' (· < ·) [1, 2, 3] ∧ (∀ x ∈ ([1, 2, 3] : List ℕ), 1 ≤ x) ∧
    nulTest [1, 2, 3] = true ∧
    ∀ t ∈ (expand [1, 2, 3] 4 7).2, nulTest t = true :=
  ⟨by norm_num [List.chain'_cons], by decide, by decide,
   claim_C1 [1, 2, 3] 4 7 (by norm_num [List.chain'_cons]) (by decide) (by decide)⟩

end Innull
